import Mathlib

/-! Ref matching in remote.c.

A shallow embedding of the ref matching code of `remote.c` (refspec parsing,
push matching, fetch map construction) together with the properties the
specification states about it.

C strings are lists of characters (the terminating NUL is implicit), a nullable
`char *` is an `Option`, a linked list of `struct ref` is a `List`, and a
`peer_ref` pointer is either a node of the source list (by position) or an
object allocated on its own.
-/

set_option autoImplicit false

namespace GitRemote

/-! ## Data model -/

/-- A C string: the characters before the terminating NUL. -/
abbrev cstr := List Char

/-- The all-zero object id written by `hashclr` and by the `memset` of `alloc_ref`. -/
def null_sha1 : List Nat := List.replicate 20 0

/-- What a `peer_ref` pointer designates: the node at position `i` of the source
list handed to `match_refs`, or a `struct ref` obtained from `alloc_ref` that is
linked into no list (given by its fields). -/
inductive peer where
  | node (i : Nat)
  | obj (name : cstr) (old_sha1 new_sha1 : List Nat) (force : Nat)
  deriving DecidableEq, Repr

/-- Modelled from the spec: `struct ref` is declared in a header that is not among
the sources; these are the fields `remote.c` reads and writes (a name, the current
and the proposed object id, the force flag and the optional peer). The `next`
pointer is the list structure itself. -/
structure ref where
  name : cstr
  old_sha1 : List Nat
  new_sha1 : List Nat
  force : Nat
  peer_ref : Option peer
  deriving DecidableEq, Repr

/-- Modelled from the spec: `struct refspec` is declared in a header that is not
among the sources; a rule has a force bit, a pattern bit, a source and an optional
destination (both `char *`, `NULL` when unset). -/
structure refspec where
  force : Bool
  pattern : Bool
  src : Option cstr
  dst : Option cstr
  deriving DecidableEq, Repr

/-- How a call ends: it returns a value, it calls `die` (the process exits with the
message), or it makes an invalid memory access (a `NULL` pointer is dereferenced or a
string is read past its end). -/
inductive outcome (α : Type) where
  | ret (a : α)
  | died (msg : cstr)
  | fault
  deriving DecidableEq, Repr

/-! ## String helpers -/

/-- Modelled from the spec: `prefixcmp` is declared outside the given sources; it
compares `str` with `pfx` over the length of `pfx`, so it is zero exactly when `str`
starts with `pfx` (only whether it is zero is ever used). -/
def prefixcmp (str pfx : cstr) : Int :=
  if pfx.isPrefixOf str then 0 else 1

/-- The offset of the first occurrence of `c` in `s`, as `strchr` finds it. -/
def strchr : cstr → Char → Option Nat
  | [], _ => none
  | x :: xs, c => if x = c then some 0 else (strchr xs c).map (fun k => k + 1)

/-- A one-bit field of a rule stored into the `unsigned char` flag of a ref. -/
def bit (b : Bool) : Nat := if b then 1 else 0

/-! ## parse_ref_spec -/

/-- The body of the loop of `parse_ref_spec`: the rule parsed from one string.
`gp` and `ep` are the offsets of the first `*` and the first `:` in the text after
an optional leading `+`. -/
def parse_ref_spec_one (s : cstr) : refspec :=
  let force : Bool := s.head? = some '+'
  let sp := if force then s.drop 1 else s
  let gp := strchr sp '*'
  let ep := strchr sp ':'
  let gp : Option Nat :=
    match gp, ep with
    | some g, some e => if g > e then none else some g
    | g, _ => g
  let r : Option Nat × Option cstr × Nat :=
    match ep with
    | some e =>
      let after := sp.drop (e + 1)
      if after ≠ [] then
        match strchr after '*' with
        | none => (none, some after, e)
        | some k =>
          match gp with
          | some g => (some g, some (after.take k), e)
          | none => (none, some after, e)
      else (gp, none, e)
    | none => (gp, none, sp.length)
  match r with
  | (some g, dst, _) => { force := force, pattern := true, src := some (sp.take g), dst := dst }
  | (none, dst, e) => { force := force, pattern := false, src := some (sp.take e), dst := dst }

/-- The rules parsed from the strings, one per string and in the same order. -/
def parse_ref_spec (strs : List cstr) : List refspec :=
  strs.map parse_ref_spec_one

/-! ## Fetch: get_expanded_map -/

/-- The loop of `get_expanded_map` over the remote refs, for the source prefix
`src`, the destination prefix `dst` and the force bit of the rule. -/
def get_expanded_map_loop (src dst : cstr) (force : Bool) : List ref → List ref
  | [] => []
  | r :: rest =>
    if (strchr r.name '^').isSome then
      get_expanded_map_loop src dst force rest
    else if prefixcmp r.name src = 0 then
      let rest_of_name := r.name.drop src.length
      let cpy : ref :=
        { r with peer_ref := some (peer.obj (dst ++ rest_of_name) null_sha1 null_sha1
                                    (if force then 1 else 0)) }
      cpy :: get_expanded_map_loop src dst force rest
    else
      get_expanded_map_loop src dst force rest

/-- The map `get_expanded_map` builds for a glob rule; `strlen` of an unset source
or destination is a `NULL` dereference. -/
def get_expanded_map (remote_refs : List ref) (rs : refspec) : outcome (List ref) :=
  match rs.src, rs.dst with
  | some src, some dst => outcome.ret (get_expanded_map_loop src dst rs.force remote_refs)
  | _, _ => outcome.fault

/-! ## Push: count_refspec_match -/

/-- The four locals of `count_refspec_match`; a matched ref is remembered by its
position in the list together with its contents. -/
structure match_state where
  matched_weak : Option (Nat × ref)
  matched : Option (Nat × ref)
  weak_match : Nat
  strong_match : Nat
  deriving DecidableEq, Repr

/-- The loop of `count_refspec_match`; `i` is the position of the head of the
remaining list. -/
def count_refspec_match_loop (pattern : cstr) : Nat → List ref → match_state → match_state
  | _, [], st => st
  | i, r :: rest, st =>
    let name := r.name
    let namelen := name.length
    let patlen := pattern.length
    if namelen < patlen ∨ name.drop (namelen - patlen) ≠ pattern then
      count_refspec_match_loop pattern (i + 1) rest st
    else if namelen ≠ patlen ∧ name.get? (namelen - patlen - 1) ≠ some '/' then
      count_refspec_match_loop pattern (i + 1) rest st
    else if namelen ≠ patlen ∧ (patlen : Int) ≠ (namelen : Int) - 5 ∧
        prefixcmp name "refs/heads/".toList ≠ 0 ∧ prefixcmp name "refs/tags/".toList ≠ 0 then
      count_refspec_match_loop pattern (i + 1) rest
        { st with matched_weak := some (i, r), weak_match := st.weak_match + 1 }
    else
      count_refspec_match_loop pattern (i + 1) rest
        { st with matched := some (i, r), strong_match := st.strong_match + 1 }

/-- The count returned by `count_refspec_match` and the ref stored in `*matched_ref`. -/
def count_refspec_match (pattern : cstr) (refs : List ref) : Nat × Option (Nat × ref) :=
  let st := count_refspec_match_loop pattern 0 refs
    { matched_weak := none, matched := none, weak_match := 0, strong_match := 0 }
  match st.matched with
  | none => (st.weak_match, st.matched_weak)
  | some m => (st.strong_match, some m)

/-! ## Push: match_explicit and match_refs -/

/-- The ref `alloc_ref` returns once its name is filled in: every other field is zero. -/
def alloc_ref (name : cstr) : ref :=
  { name := name, old_sha1 := null_sha1, new_sha1 := null_sha1, force := 0, peer_ref := none }

/-- The object `try_explicit_object_name` allocates, with its name: the `(delete)` ref
with a cleared id for an empty name, the id `get_sha1` resolves the name to otherwise,
`NULL` when it does not resolve. `get_sha1` is the object store lookup. -/
def try_explicit_object_name (get_sha1 : cstr → Option (List Nat)) (name : cstr) :
    Option (peer × cstr) :=
  if name = [] then
    some (peer.obj "(delete)".toList null_sha1 null_sha1 0, "(delete)".toList)
  else
    match get_sha1 name with
    | none => none
    | some sha1 => some (peer.obj name null_sha1 sha1 0, name)

/-- The list the parameter `dst` of `match_refs` reaches: when the remote list was
empty at the call, `dst` is `NULL` and stays so, whatever is linked in through
`dst_tail` afterwards; otherwise it reaches the whole current list. -/
def dst_seen (dst_null : Bool) (dst : List ref) : List ref :=
  if dst_null then [] else dst

/-- The first `switch` of `match_explicit`: the source the rule resolves to, as the
peer pointer it becomes together with its name; `NULL` when the source matches no ref
and is no object name, or matches more than one ref. -/
def match_explicit_src (get_sha1 : cstr → Option (List Nat)) (src : List ref) (rs_src : cstr) :
    Option (peer × cstr) :=
  match count_refspec_match rs_src src with
  | (1, m) => m.map (fun ir => (peer.node ir.1, ir.2.name))
  | (0, _) => try_explicit_object_name get_sha1 rs_src
  | _ => none

/-- The second `switch` of `match_explicit`: the destination `dst_value` resolves to
(position and contents) and the remote list, to which `make_linked_ref` has appended a
new ref when nothing matched and the text starts with `refs/`. -/
def match_explicit_dst (dst_null : Bool) (dst : List ref) (dst_value : cstr) :
    Option (Nat × ref) × List ref :=
  match count_refspec_match dst_value (dst_seen dst_null dst) with
  | (1, m) => (m, dst)
  | (0, _) =>
    if dst_value.take 5 = "refs/".toList then
      (some (dst.length, alloc_ref dst_value), dst ++ [alloc_ref dst_value])
    else (none, dst)
  | _ => (none, dst)

/-- The text `dst_value` of `match_explicit`: the destination of the rule, or the name
of the matched source when the rule has none; unset when neither exists. -/
def match_explicit_dst_value (rs_dst : Option cstr) (matched_src : Option (peer × cstr)) :
    Option cstr :=
  match rs_dst with
  | some d => some d
  | none => matched_src.map (fun m => m.2)

/-- One call of `match_explicit`: the returned `errs` and the remote list afterwards. -/
def match_explicit (get_sha1 : cstr → Option (List Nat)) (src : List ref) (dst_null : Bool)
    (dst : List ref) (rs : refspec) (errs : Nat) : outcome (Nat × List ref) :=
  if rs.pattern then outcome.ret (errs, dst)
  else
    match rs.src with
    | none => outcome.fault
    | some rs_src =>
      let matched_src := match_explicit_src get_sha1 src rs_src
      let errs := if matched_src.isNone then 1 else errs
      match match_explicit_dst_value rs.dst matched_src with
      | none => outcome.ret (errs, dst)
      | some dst_value =>
        match match_explicit_dst dst_null dst dst_value with
        | (none, dst) => outcome.ret (1, dst)
        | (some (k, d), dst) =>
          if errs ≠ 0 then outcome.ret (1, dst)
          else if d.peer_ref.isSome then outcome.ret (1, dst)
          else
            outcome.ret (errs, dst.set k
              { d with peer_ref := matched_src.map (fun m => m.1), force := bit rs.force })

/-- The loop of `match_explicit_refs`, carrying `errs` and the remote list. -/
def match_explicit_refs_loop (get_sha1 : cstr → Option (List Nat)) (src : List ref)
    (dst_null : Bool) : List refspec → Nat → List ref → outcome (Nat × List ref)
  | [], errs, dst => outcome.ret (errs, dst)
  | rs :: rest, errs, dst =>
    match match_explicit get_sha1 src dst_null dst rs errs with
    | outcome.ret (e, dst) => match_explicit_refs_loop get_sha1 src dst_null rest (errs ||| e) dst
    | outcome.died msg => outcome.died msg
    | outcome.fault => outcome.fault

/-- The value `match_explicit_refs` returns, `-errs`, and the remote list afterwards. -/
def match_explicit_refs (get_sha1 : cstr → Option (List Nat)) (src : List ref)
    (dst_null : Bool) (dst : List ref) (rs : List refspec) : outcome (Int × List ref) :=
  match match_explicit_refs_loop get_sha1 src dst_null rs 0 dst with
  | outcome.ret (errs, dst) => outcome.ret (-(errs : Int), dst)
  | outcome.died msg => outcome.died msg
  | outcome.fault => outcome.fault

/-- The first ref of the list with exactly this name, as its position and contents. -/
def find_ref_by_name : List ref → cstr → Option (Nat × ref)
  | [], _ => none
  | r :: rest, name =>
    if r.name = name then some (0, r)
    else (find_ref_by_name rest name).map (fun p => (p.1 + 1, p.2))

/-- The first pattern rule whose source is a prefix of the name; the source of a
rule is read only when its pattern bit is set. -/
def check_pattern_match : List refspec → cstr → outcome (Option refspec)
  | [], _ => outcome.ret none
  | rs :: rest, name =>
    if rs.pattern then
      match rs.src with
      | none => outcome.fault
      | some s => if prefixcmp name s = 0 then outcome.ret (some rs)
                  else check_pattern_match rest name
    else check_pattern_match rest name

/-- The rule the second loop of `match_refs` picks for a source ref: `none` when the ref
is skipped (`continue`), `some pat` otherwise, where `pat` is the matching pattern rule,
or `NULL` when there are no refspecs and the ref is under `refs/heads/`. -/
def pick_pattern (rs : List refspec) (s : ref) : outcome (Option (Option refspec)) :=
  if rs.length ≠ 0 then
    match check_pattern_match rs s.name with
    | outcome.ret none => outcome.ret none
    | outcome.ret (some p) => outcome.ret (some (some p))
    | outcome.died msg => outcome.died msg
    | outcome.fault => outcome.fault
  else if prefixcmp s.name "refs/heads/".toList ≠ 0 then outcome.ret none
  else outcome.ret (some none)

/-- The destination name the second loop of `match_refs` computes for a source ref:
the name itself without a rule, else the destination side of the rule (its source when
it has no destination) followed by the name after the source prefix. -/
def remainder_dst_name (pat : Option refspec) (s : ref) : outcome cstr :=
  match pat with
  | some p =>
    match p.src with
    | none => outcome.fault
    | some p_src =>
      let dst_side := match p.dst with
        | some d => d
        | none => p_src
      outcome.ret (dst_side ++ s.name.drop p_src.length)
  | none => outcome.ret s.name

/-- The force flag of a destination after the second loop bound it: the force bit of
the rule if there is one, unchanged otherwise. -/
def remainder_force (pat : Option refspec) (old : Nat) : Nat :=
  match pat with
  | some p => bit p.force
  | none => old

/-- One iteration of the second loop of `match_refs` ("pick the remainder"), for the
source ref `s` at position `i`: the remote list afterwards. -/
def match_refs_step (rs : List refspec) (all : Int) (dst_null : Bool) (i : Nat) (s : ref)
    (dst : List ref) : outcome (List ref) :=
  if s.peer_ref.isSome then outcome.ret dst
  else
    match pick_pattern rs s with
    | outcome.died msg => outcome.died msg
    | outcome.fault => outcome.fault
    | outcome.ret none => outcome.ret dst
    | outcome.ret (some pat) =>
      match remainder_dst_name pat s with
      | outcome.died msg => outcome.died msg
      | outcome.fault => outcome.fault
      | outcome.ret dst_name =>
        match find_ref_by_name (dst_seen dst_null dst) dst_name with
        | some (k, d) =>
          if d.peer_ref.isSome then outcome.ret dst
          else
            outcome.ret (dst.set k
              { d with peer_ref := some (peer.node i), force := remainder_force pat d.force })
        | none =>
          if rs.length = 0 ∧ all = 0 then outcome.ret dst
          else
            outcome.ret (dst ++
              [{ alloc_ref dst_name with
                 new_sha1 := s.new_sha1,
                 peer_ref := some (peer.node i),
                 force := remainder_force pat 0 }])

/-- The second loop of `match_refs` over the source refs; `i` is the position of the
head of the remaining source list. -/
def match_refs_remainder (rs : List refspec) (all : Int) (dst_null : Bool) :
    Nat → List ref → List ref → outcome (List ref)
  | _, [], dst => outcome.ret dst
  | i, s :: rest, dst =>
    match match_refs_step rs all dst_null i s dst with
    | outcome.ret dst => match_refs_remainder rs all dst_null (i + 1) rest dst
    | outcome.died msg => outcome.died msg
    | outcome.fault => outcome.fault

/-- The function `match_refs`: `src` is the local list, `dst` the remote list the
caller holds, with `*dst_tail` the link that ends it (the head variable of the caller
when the list is empty). The result is the returned value and the list the caller
holds afterwards. -/
def match_refs (get_sha1 : cstr → Option (List Nat)) (src dst : List ref)
    (refspec_strs : List cstr) (all : Int) : outcome (Int × List ref) :=
  let rs := parse_ref_spec refspec_strs
  let dst_null := dst.isEmpty
  match match_explicit_refs get_sha1 src dst_null dst rs with
  | outcome.died msg => outcome.died msg
  | outcome.fault => outcome.fault
  | outcome.ret (e, dst) =>
    if e ≠ 0 then outcome.ret (-1, dst)
    else
      match match_refs_remainder rs all dst_null 0 src dst with
      | outcome.ret dst => outcome.ret (0, dst)
      | outcome.died msg => outcome.died msg
      | outcome.fault => outcome.fault

/-! ## Fetch: get_fetch_map -/

/-- Whether, under the matching rules for fetching, `name` is the same as the full
name `full`. -/
def ref_matches_abbrev (name full : cstr) : Bool :=
  if prefixcmp name "refs/".toList = 0 ∨ name = "HEAD".toList then name = full
  else if prefixcmp full "refs/".toList ≠ 0 then false
  else if prefixcmp name "heads/".toList = 0 ∨ prefixcmp name "tags/".toList = 0 ∨
      prefixcmp name "remotes/".toList = 0 then name = full.drop 5
  else if prefixcmp (full.drop 5) "heads/".toList ≠ 0 then false
  else full.drop 11 = name

/-- The first ref of the list whose name `name` abbreviates. -/
def find_ref_by_name_abbrev : List ref → cstr → Option ref
  | [], _ => none
  | r :: rest, name =>
    if ref_matches_abbrev name r.name then some r else find_ref_by_name_abbrev rest name

/-- A copy of the remote ref found for `name`, `NULL` when there is none. -/
def get_remote_ref (remote_refs : List ref) (name : cstr) : Option ref :=
  find_ref_by_name_abbrev remote_refs name

/-- The ref object `get_local_ref` allocates for a destination, `NULL` for an unset
one, given as the peer pointer it becomes. -/
def get_local_ref (name : Option cstr) : Option peer :=
  match name with
  | none => none
  | some name =>
    if prefixcmp name "refs/".toList = 0 then
      some (peer.obj name null_sha1 null_sha1 0)
    else if prefixcmp name "heads/".toList = 0 ∨ prefixcmp name "tags/".toList = 0 ∨
        prefixcmp name "remotes/".toList = 0 then
      some (peer.obj ("refs/".toList ++ name) null_sha1 null_sha1 0)
    else
      some (peer.obj ("refs/heads/".toList ++ name) null_sha1 null_sha1 0)

/-- The force flag of an allocated peer set to one. -/
def peer_set_force : peer → peer
  | peer.obj name old_sha1 new_sha1 _ => peer.obj name old_sha1 new_sha1 1
  | peer.node i => peer.node i

/-- The loop of `get_fetch_map` that checks the peer names: `none` when every check
passes, the offending name when one fails. A peer name shorter than five characters
is read past its end. `check_ref_format` is the ref-name check of the ref store,
zero for a well-formed name. -/
def check_peers (check_ref_format : cstr → Int) : List ref → outcome (Option cstr)
  | [] => outcome.ret none
  | rm :: rest =>
    match rm.peer_ref with
    | none => check_peers check_ref_format rest
    | some (peer.node _) => outcome.fault
    | some (peer.obj name _ _ _) =>
      if name.length < 5 then outcome.fault
      else if check_ref_format (name.drop 5) ≠ 0 then outcome.ret (some name)
      else check_peers check_ref_format rest

/-- The message of the fatal error for a missing remote ref. -/
def msg_no_remote_ref (name : cstr) : cstr :=
  "Couldn\x27t find remote ref ".toList ++ name

/-- The message of the fatal error for a destination that is not a well-formed ref. -/
def msg_funny_ref (name : cstr) : cstr :=
  "* refusing to create funny ref \x27".toList ++ name ++ "\x27 locally".toList

/-- The function `get_fetch_map`: `map` is the list that `*tail` ends; the result is
the returned value and that list afterwards. -/
def get_fetch_map (check_ref_format : cstr → Int) (remote_refs : List ref) (rs : refspec)
    (map : List ref) (missing_ok : Int) : outcome (Int × List ref) :=
  let ref_map : outcome (List ref) :=
    if rs.pattern then get_expanded_map remote_refs rs
    else
      match rs.src with
      | none => outcome.fault
      | some rs_src =>
        let name := if rs_src ≠ [] then rs_src else "HEAD".toList
        match get_remote_ref remote_refs name with
        | none => if missing_ok = 0 then outcome.died (msg_no_remote_ref name)
                  else outcome.ret []
        | some r =>
          let p := get_local_ref rs.dst
          outcome.ret [{ r with peer_ref := if rs.force then p.map peer_set_force else p }]
  match ref_map with
  | outcome.died msg => outcome.died msg
  | outcome.fault => outcome.fault
  | outcome.ret ref_map =>
    match check_peers check_ref_format ref_map with
    | outcome.died msg => outcome.died msg
    | outcome.fault => outcome.fault
    | outcome.ret (some name) => outcome.died (msg_funny_ref name)
    | outcome.ret none => outcome.ret (0, map ++ ref_map)

/-- The name of the allocated object a peer pointer designates, if it is one. -/
def peer_name : Option peer → Option cstr
  | some (peer.obj name _ _ _) => some name
  | _ => none

/-- The condition under which the loop of `count_refspec_match` does not skip a ref:
neither of its two `continue` tests holds, so the name ends with the pattern and the
matched part is the whole name or follows a `/`. -/
def is_refspec_match (pattern name : cstr) : Prop :=
  ¬ (name.length < pattern.length ∨ name.drop (name.length - pattern.length) ≠ pattern) ∧
  ¬ (name.length ≠ pattern.length ∧ name.get? (name.length - pattern.length - 1) ≠ some '/')

instance (pattern name : cstr) : Decidable (is_refspec_match pattern name) := by
  unfold is_refspec_match
  infer_instance

/-- The test of `count_refspec_match` that makes a match weak: the pattern is neither
the whole name nor the name without its first five characters, and the name is under
neither `refs/heads/` nor `refs/tags/`. -/
def is_weak_match (pattern name : cstr) : Prop :=
  name.length ≠ pattern.length ∧ (pattern.length : Int) ≠ (name.length : Int) - 5 ∧
  prefixcmp name "refs/heads/".toList ≠ 0 ∧ prefixcmp name "refs/tags/".toList ≠ 0

instance (pattern name : cstr) : Decidable (is_weak_match pattern name) := by
  unfold is_weak_match
  infer_instance

/-- A strong match: a match that is not weak. -/
def is_strong_match (pattern name : cstr) : Prop :=
  is_refspec_match pattern name ∧ ¬ is_weak_match pattern name

instance (pattern name : cstr) : Decidable (is_strong_match pattern name) := by
  unfold is_strong_match
  infer_instance

/-- The number of refs of a remote list whose peer is the source node at position `i`. -/
def bound_to (i : Nat) (dst : List ref) : Nat :=
  dst.countP (fun d => decide (d.peer_ref = some (peer.node i)))

/-- The position of the last name of a list that satisfies `q`. -/
def last_idx (q : cstr → Bool) : List cstr → Option Nat
  | [] => none
  | n :: ns =>
    match last_idx q ns with
    | some j => some (j + 1)
    | none => if q n then some 0 else none

/-- The ref at a position of a list, paired with the position shifted by `i`. -/
def ref_at (i : Nat) (l : List ref) (j : Nat) : Option (Nat × ref) :=
  (l.get? j).map (fun r => (i + j, r))

/-- Whether a name is a strong match of the pattern, as a Boolean. -/
def strongb (pattern name : cstr) : Bool := decide (is_strong_match pattern name)

/-- Whether a name is a weak match of the pattern, as a Boolean. -/
def weakb (pattern name : cstr) : Bool :=
  decide (is_refspec_match pattern name ∧ is_weak_match pattern name)

/-- Whether a refspec string begins with `+`. -/
def has_plus (s : cstr) : Bool := s.head? = some '+'

/-- The text of a refspec string after its optional leading `+`. -/
def after_plus (s : cstr) : cstr :=
  if has_plus s then s.drop 1 else s

/-- The part of the loop body of `parse_ref_spec` that follows the test for a leading
`+`, as a function of the force bit and of the text `sp` after the `+`. -/
def parse_ref_spec_body (force : Bool) (sp : cstr) : refspec :=
  let gp := strchr sp '*'
  let ep := strchr sp ':'
  let gp : Option Nat :=
    match gp, ep with
    | some g, some e => if g > e then none else some g
    | g, _ => g
  let r : Option Nat × Option cstr × Nat :=
    match ep with
    | some e =>
      let after := sp.drop (e + 1)
      if after ≠ [] then
        match strchr after '*' with
        | none => (none, some after, e)
        | some k =>
          match gp with
          | some g => (some g, some (after.take k), e)
          | none => (none, some after, e)
      else (gp, none, e)
    | none => (gp, none, sp.length)
  match r with
  | (some g, dst, _) => { force := force, pattern := true, src := some (sp.take g), dst := dst }
  | (none, dst, e) => { force := force, pattern := false, src := some (sp.take e), dst := dst }

/-- The source half of a refspec text: what stands before its first `:`, all of it
when it has none. -/
def src_half (sp : cstr) : cstr := sp.takeWhile (fun c => c != ':')

/-- The destination half of a refspec text: what follows its first `:`, empty when it
has none. -/
def dst_half (sp : cstr) : cstr := (sp.dropWhile (fun c => c != ':')).drop 1

/-- An element of the array `xcalloc` returns in `parse_ref_spec`: every field zero. -/
def refspec_zero : refspec := { force := false, pattern := false, src := none, dst := none }

/-- The `for` loop of `parse_ref_spec` over the index `i`, which stores into `rs[i]`
the rule parsed from `refspec[i]`; `n` is the number of iterations left. -/
def parse_ref_spec_loop (strs : List cstr) : Nat → Nat → List refspec → List refspec
  | 0, _, rs => rs
  | n + 1, i, rs =>
    match strs.get? i with
    | some s => parse_ref_spec_loop strs n (i + 1) (rs.set i (parse_ref_spec_one s))
    | none => rs

/-- The array `parse_ref_spec` returns: `nr_refspec` zeroed rules, filled in by the
loop, `nr_refspec` being the number of strings. -/
def parse_ref_spec_array (strs : List cstr) : List refspec :=
  parse_ref_spec_loop strs strs.length 0 (List.replicate strs.length refspec_zero)

/-- A rule written back as a refspec string: an optional `+`, the source, and `:`
followed by the destination when the destination is set. -/
def refspec_serialize (r : refspec) : cstr :=
  (if r.force then ['+'] else []) ++
  (match r.src with
   | some s => s
   | none => []) ++
  (match r.dst with
   | some d => ':' :: d
   | none => [])

/-- The list `ref_map` that `get_fetch_map` has built when it reaches the loop that
checks the peer names: the expanded map of a glob rule, the copy of the one remote ref
of a plain rule with its local peer, or nothing. -/
def get_fetch_map_refs (remote_refs : List ref) (rs : refspec) (missing_ok : Int) :
    outcome (List ref) :=
  if rs.pattern then get_expanded_map remote_refs rs
  else
    match rs.src with
    | none => outcome.fault
    | some rs_src =>
      let name := if rs_src ≠ [] then rs_src else "HEAD".toList
      match get_remote_ref remote_refs name with
      | none => if missing_ok = 0 then outcome.died (msg_no_remote_ref name)
                else outcome.ret []
      | some r =>
        let p := get_local_ref rs.dst
        outcome.ret [{ r with peer_ref := if rs.force then p.map peer_set_force else p }]

/-! ## ref_remove_duplicates -/

/-- The name of the ref a peer pointer designates; `node_name` gives the names of the
nodes of a source list. -/
def peer_ref_name (node_name : Nat → cstr) : peer → cstr
  | peer.obj name _ _ _ => name
  | peer.node i => node_name i

/-- The message of the fatal error of `ref_remove_duplicates`. -/
def msg_tracks_both (peer_name other name : cstr) : cstr :=
  peer_name ++ " tracks both ".toList ++ other ++ " and ".toList ++ name

/-- An outcome with an entry put in front of the list it returns. -/
def outcome_cons (r : ref) : outcome (List ref) → outcome (List ref)
  | outcome.ret l => outcome.ret (r :: l)
  | outcome.died msg => outcome.died msg
  | outcome.fault => outcome.fault

/-- The inner `while` loop of `ref_remove_duplicates` for an entry named `name` whose
peer is named `pn`, over the entries after it: an entry whose peer has the same name
is unlinked if its own name is `name` too, and the call dies if it is not; the other
entries are kept. -/
def remove_later_duplicates (node_name : Nat → cstr) (name pn : cstr) :
    List ref → outcome (List ref)
  | [] => outcome.ret []
  | q :: rest =>
    match q.peer_ref with
    | some p =>
      if peer_ref_name node_name p = pn then
        if q.name ≠ name then outcome.died (msg_tracks_both pn q.name name)
        else remove_later_duplicates node_name name pn rest
      else outcome_cons q (remove_later_duplicates node_name name pn rest)
    | none => outcome_cons q (remove_later_duplicates node_name name pn rest)

/-- The function `ref_remove_duplicates`: the map it leaves, the outer loop going on
with the entries the inner loop has kept. -/
def ref_remove_duplicates (node_name : Nat → cstr) : List ref → outcome (List ref)
  | [] => outcome.ret []
  | r :: rest =>
    match r.peer_ref with
    | none => outcome_cons r (ref_remove_duplicates node_name rest)
    | some p =>
      match h : remove_later_duplicates node_name r.name (peer_ref_name node_name p) rest with
      | outcome.ret kept => outcome_cons r (ref_remove_duplicates node_name kept)
      | outcome.died msg => outcome.died msg
      | outcome.fault => outcome.fault
termination_by l => l.length
decreasing_by
  · simp_wf
  · simp_wf
    have key : ∀ (l kept : List ref),
        remove_later_duplicates node_name r.name (peer_ref_name node_name p) l =
          outcome.ret kept → kept.length ≤ l.length := by
      intro l
      induction l with
      | nil =>
        intro kept hk
        simp only [remove_later_duplicates, outcome.ret.injEq] at hk
        subst hk
        exact Nat.le_refl _
      | cons q qs ih =>
        intro kept hk
        rw [remove_later_duplicates] at hk
        have step : ∀ kept2, outcome_cons q
            (remove_later_duplicates node_name r.name (peer_ref_name node_name p) qs) =
            outcome.ret kept2 → kept2.length ≤ (q :: qs).length := by
          intro kept2 h2
          cases hr : remove_later_duplicates node_name r.name (peer_ref_name node_name p) qs with
          | ret k3 =>
            rw [hr] at h2
            simp only [outcome_cons, outcome.ret.injEq] at h2
            subst h2
            simp only [List.length_cons]
            exact Nat.succ_le_succ (ih k3 hr)
          | died msg =>
            rw [hr] at h2
            simp [outcome_cons] at h2
          | fault =>
            rw [hr] at h2
            simp [outcome_cons] at h2
        cases hq : q.peer_ref with
        | none =>
          rw [hq] at hk
          exact step kept hk
        | some p2 =>
          rw [hq] at hk
          simp only at hk
          split at hk
          · split at hk
            · simp at hk
            · exact Nat.le_succ_of_le (ih kept hk)
          · exact step kept hk
    exact Nat.lt_succ_of_le (key rest kept h)

/-- Whether an entry has a peer named `pn`. -/
def has_peer_named (node_name : Nat → cstr) (pn : cstr) (q : ref) : Bool :=
  match q.peer_ref with
  | some p => decide (peer_ref_name node_name p = pn)
  | none => false

/-- Two entries of a map that cannot both stay: both have a peer, the peers have the
same name, and the entries' own names differ. -/
def tracks_conflict (node_name : Nat → cstr) (a b : ref) : Prop :=
  ∃ pa pb, a.peer_ref = some pa ∧ b.peer_ref = some pb ∧
    peer_ref_name node_name pa = peer_ref_name node_name pb ∧ a.name ≠ b.name

/-! ## remote_find_tracking -/

/-- The loop of `remote_find_tracking` over the parsed fetch rules of the remote, for
the text `needle` to look for: the text found for the missing side together with the
force bit of the rule that gave it, `none` when no rule matches. A rule without
destination is skipped before its fields are read; reading an unset source is an
invalid access. -/
def remote_find_tracking_loop (find_src : Bool) (needle : cstr) :
    List refspec → outcome (Option (cstr × Bool))
  | [] => outcome.ret none
  | fetch :: rest =>
    let key := if find_src then fetch.dst else fetch.src
    let value := if find_src then fetch.src else fetch.dst
    match fetch.dst with
    | none => remote_find_tracking_loop find_src needle rest
    | some _ =>
      match key with
      | none => outcome.fault
      | some k =>
        if fetch.pattern then
          if prefixcmp needle k = 0 then
            match value with
            | none => outcome.fault
            | some v => outcome.ret (some (v ++ needle.drop k.length, fetch.force))
          else remote_find_tracking_loop find_src needle rest
        else if needle = k then
          match value with
          | none => outcome.fault
          | some v => outcome.ret (some (v, fetch.force))
        else remote_find_tracking_loop find_src needle rest

/-- The function `remote_find_tracking` for a remote whose parsed fetch rules are
`fetch`: the returned value and the refspec afterwards. -/
def remote_find_tracking (fetch : List refspec) (rs : refspec) : outcome (Int × refspec) :=
  match rs.src with
  | none =>
    match rs.dst with
    | none => outcome.ret (-1, rs)
    | some needle =>
      match remote_find_tracking_loop true needle fetch with
      | outcome.ret (some (res, f)) => outcome.ret (0, { rs with src := some res, force := f })
      | outcome.ret none => outcome.ret (-1, rs)
      | outcome.died msg => outcome.died msg
      | outcome.fault => outcome.fault
  | some needle =>
    match remote_find_tracking_loop false needle fetch with
    | outcome.ret (some (res, f)) => outcome.ret (0, { rs with dst := some res, force := f })
    | outcome.ret none => outcome.ret (-1, rs)
    | outcome.died msg => outcome.died msg
    | outcome.fault => outcome.fault

/-- A fetch rule matches a source name for tracking: it has a destination, and its
source is the name for a plain rule, a beginning of the name for a glob rule. -/
def tracking_rule_matches (g : refspec) (n : cstr) : Prop :=
  g.dst.isSome = true ∧ ∃ k, g.src = some k ∧ (if g.pattern = true then k <+: n else n = k)

/-! ## The registries of remotes and branches -/

/-- Modelled from the spec: `struct remote` is declared in a header that is not among
the sources; a remote has a name, its URLs, its push and fetch refspec strings, the
tag-following mode and the optional receive and upload commands. -/
structure remote where
  name : cstr
  url : List cstr
  push_refspec : List cstr
  fetch_refspec : List cstr
  fetch_tags : Int
  receivepack : Option cstr
  uploadpack : Option cstr
  deriving DecidableEq, Repr

/-- Modelled from the spec: `struct branch` is declared in a header that is not among
the sources; a branch has a name, its full ref name, the optional name of its upstream
remote and the names to merge. -/
structure branch where
  name : cstr
  refname : cstr
  remote_name : Option cstr
  merge_name : List cstr
  deriving DecidableEq, Repr

/-- The `struct remote` that `make_remote` allocates with `xcalloc` and names. -/
def new_remote (name : cstr) : remote :=
  { name := name, url := [], push_refspec := [], fetch_refspec := [], fetch_tags := 0,
    receivepack := none, uploadpack := none }

/-- The `struct branch` that `make_branch` allocates with `xcalloc` and names, with
its ref name under `refs/heads/`. -/
def new_branch (name : cstr) : branch :=
  { name := name, refname := "refs/heads/".toList ++ name, remote_name := none,
    merge_name := [] }

/-- The comparison of `make_remote` and `make_branch` between the name asked for and
the name `ename` of a registered entry: with a length `len` other than zero the first
`len` characters are compared and `ename` must end there, with `len` zero the whole
names are compared. -/
def name_matches_len (name : cstr) (len : Nat) (ename : cstr) : Bool :=
  if len ≠ 0 then decide (name.take len = ename.take len) && decide (ename.get? len = none)
  else decide (name = ename)

/-- How the scanning loop of `make_remote` and `make_branch` ends: it returns the
entry found at a slot, or falls through with the first empty slot it saw, if any. -/
inductive scan_result where
  | found (i : Nat)
  | not_found (empty : Option Nat)
  deriving DecidableEq, Repr

/-- The scanning loop of `make_remote` and `make_branch` over the slots of the array,
from slot `i` on, `empty` being the first empty slot seen so far. -/
def registry_scan {α : Type} (name_of : α → cstr) (name : cstr) (len : Nat) :
    Nat → Option Nat → List (Option α) → scan_result
  | _, empty, [] => scan_result.not_found empty
  | i, empty, none :: rest =>
    registry_scan name_of name len (i + 1) (if empty.isNone then some i else empty) rest
  | i, empty, some r :: rest =>
    if name_matches_len name len (name_of r) then scan_result.found i
    else registry_scan name_of name len (i + 1) empty rest

/-- The name given to a new entry: the first `len` characters of the name asked for,
all of it when `len` is zero. -/
def entry_name (name : cstr) (len : Nat) : cstr :=
  if len ≠ 0 then name.take len else name

/-- The body shared by `make_remote` and `make_branch`, which differ in the type of
the entries only: the slot of the entry returned and the array afterwards. Without an
empty slot the array is doubled (one slot when it had none) and the new slots are
cleared. -/
def registry_make {α : Type} (name_of : α → cstr) (create : cstr → α)
    (reg : List (Option α)) (name : cstr) (len : Nat) : Nat × List (Option α) :=
  match registry_scan name_of name len 0 none reg with
  | scan_result.found i => (i, reg)
  | scan_result.not_found (some e) => (e, reg.set e (some (create (entry_name name len))))
  | scan_result.not_found none =>
    let grown := reg ++ List.replicate (if reg.length ≠ 0 then reg.length else 1) none
    (reg.length, grown.set reg.length (some (create (entry_name name len))))

/-- The function `make_remote` on the array `remotes`. -/
def make_remote (remotes : List (Option remote)) (name : cstr) (len : Nat) :
    Nat × List (Option remote) :=
  registry_make remote.name new_remote remotes name len

/-- The function `make_branch` on the array `branches`. -/
def make_branch (branches : List (Option branch)) (name : cstr) (len : Nat) :
    Nat × List (Option branch) :=
  registry_make branch.name new_branch branches name len

/-- No two registered entries have the same name. -/
def registry_unique {α : Type} (name_of : α → cstr) (reg : List (Option α)) : Prop :=
  ∀ i j a b, reg.get? i = some (some a) → reg.get? j = some (some b) →
    name_of a = name_of b → i = j

/-- The array after a sequence of calls, each given by its name and length. -/
def registry_run {α : Type} (make : List (Option α) → cstr → Nat → Nat × List (Option α))
    (reg : List (Option α)) (calls : List (cstr × Nat)) : List (Option α) :=
  calls.foldl (fun r c => (make r c.1 c.2).2) reg

/-- What the specification says of a registry, for the array reached from the empty
one by any sequence of calls: no two entries have the same name; a call returns an
entry of the name asked for; it leaves the array unchanged when an entry of that name
is registered and otherwise adds one entry and keeps the others; and a later call with
the same name, whatever calls come between, returns the same slot. -/
def registry_spec {α : Type} (name_of : α → cstr)
    (make : List (Option α) → cstr → Nat → Nat × List (Option α)) : Prop :=
  ∀ (calls : List (cstr × Nat)) (name : cstr) (len : Nat),
    registry_unique name_of (registry_run make [] calls) ∧
    (∃ a, (make (registry_run make [] calls) name len).2.get?
        (make (registry_run make [] calls) name len).1 = some (some a) ∧
      name_of a = entry_name name len) ∧
    ((∃ i a, (registry_run make [] calls).get? i = some (some a) ∧
        name_of a = entry_name name len) →
      (make (registry_run make [] calls) name len).2 = registry_run make [] calls) ∧
    ((¬ ∃ i a, (registry_run make [] calls).get? i = some (some a) ∧
        name_of a = entry_name name len) →
      (∀ a, (registry_run make [] calls).get?
        (make (registry_run make [] calls) name len).1 ≠ some (some a)) ∧
      (∀ i a, (registry_run make [] calls).get? i = some (some a) →
        (make (registry_run make [] calls) name len).2.get? i = some (some a)) ∧
      ∀ i a, (make (registry_run make [] calls) name len).2.get? i = some (some a) →
        i = (make (registry_run make [] calls) name len).1 ∨
        (registry_run make [] calls).get? i = some (some a)) ∧
    ∀ more : List (cstr × Nat),
      (make (registry_run make (make (registry_run make [] calls) name len).2 more)
        name len).1 = (make (registry_run make [] calls) name len).1

/-! ## lockfile.c -/

/-- What a path of the file system names: a regular file with its contents, or a
symbolic link with its target. -/
inductive fnode where
  | file (data : List Nat)
  | symlink (target : cstr)
  deriving DecidableEq, Repr

/-- Modelled from the spec: `struct lock_file` is declared in a header that is not among
the sources; a handle has the descriptor of its sidecar file, the process id of its
owner, the flag that it is on the list of the process, and the name of its sidecar file
(empty when the handle holds no lock). The `next` pointer is the list itself. -/
structure lock_file where
  fd : Int
  owner : Int
  on_list : Bool
  filename : cstr
  deriving DecidableEq, Repr

/-- The state the functions of `lockfile.c` act on: the files by path, the handles by
address (their position here), `lock_file_list` as the addresses it links, head first,
whether the signal and exit handlers are registered, and the descriptors in use. -/
structure lock_world where
  fs : List (cstr × fnode)
  handles : List lock_file
  lock_file_list : List Nat
  cleanup_registered : Bool
  open_fds : List Nat
  deriving DecidableEq, Repr

/-- What the functions of `lockfile.c` take from outside: the constant `PATH_MAX` (the
size of `filename`), the id `getpid` returns, whether a file may be created at a path
that does not exist yet (the directory is there and writable), the value of
`adjust_shared_perm`, and whether `close` and `rename` fail. -/
structure lock_env where
  PATH_MAX : Nat
  pid : Int
  creatable : cstr → Bool
  adjust_shared_perm : cstr → Int
  close_fails : Int → Bool
  rename_fails : cstr → cstr → Bool

/-- The node a path names, if any. -/
def fs_lookup : List (cstr × fnode) → cstr → Option fnode
  | [], _ => none
  | (q, n) :: rest, p => if q = p then some n else fs_lookup rest p

/-- The target `readlink` stores for a path: that of a symbolic link, nothing (a
negative result) for any other path. -/
def readlink (fs : List (cstr × fnode)) (p : cstr) : Option cstr :=
  match fs_lookup fs p with
  | some (fnode.symlink t) => some t
  | _ => none

/-- Modelled from the spec: `is_absolute_path` is declared outside the given sources;
a path is absolute when it begins with `/`. -/
def is_absolute_path (p : cstr) : Bool := p.head? = some '/'

/-- The first loop of `last_path_elm`: back up from offset `r` past trailing slashes. -/
def skip_trailing_slashes (p : cstr) : Nat → Nat
  | 0 => 0
  | r + 1 => if p.get? (r + 1) = some '/' then skip_trailing_slashes p r else r + 1

/-- The second loop of `last_path_elm`: back up from offset `r` until the character
before it is a slash, or to the beginning. -/
def skip_to_slash (p : cstr) : Nat → Nat
  | 0 => 0
  | r + 1 => if p.get? r ≠ some '/' then skip_to_slash p r else r + 1

/-- The offset in `p` of the beginning of its last path element, as `last_path_elm`
returns it. -/
def last_path_elm (p : cstr) : Nat :=
  if p = [] then 0
  else skip_to_slash p (skip_trailing_slashes p (p.length - 1))

/-- The loop of `resolve_symlink` with `depth` rounds left: the buffer `p` afterwards,
`s` being the size the result must stay under. A link that does not fit its buffer of
`PATH_MAX` bytes or the size `s` ends the loop with `p` as it is. -/
def resolve_symlink_loop (PATH_MAX : Nat) (fs : List (cstr × fnode)) (s : Nat) :
    Nat → cstr → cstr
  | 0, p => p
  | depth + 1, p =>
    match readlink fs p with
    | none => p
    | some link =>
      if link.length < PATH_MAX then
        if is_absolute_path link then
          if link.length < s then resolve_symlink_loop PATH_MAX fs s depth link
          else p
        else
          let r := last_path_elm p
          if r + link.length < s then
            resolve_symlink_loop PATH_MAX fs s depth (p.take r ++ link)
          else p
      else p

/-- The bound `MAXDEPTH` on the symbolic links followed. -/
def MAXDEPTH : Nat := 5

/-- The function `resolve_symlink`. -/
def resolve_symlink (PATH_MAX : Nat) (fs : List (cstr × fnode)) (p : cstr) (s : Nat) : cstr :=
  resolve_symlink_loop PATH_MAX fs s MAXDEPTH p

/-- A descriptor not in use. -/
def fresh_fd (open_fds : List Nat) : Nat := open_fds.foldl (fun m x => max m (x + 1)) 3

/-- The function `lock_file` for the handle at address `lk`: the value returned and the
state afterwards. Using an address that holds no handle, and appending `.lock` past the
end of `filename`, are invalid accesses. `open` with `O_CREAT | O_EXCL` fails when the
path exists, and when a file cannot be created there. -/
def lock_file_fn (env : lock_env) (w : lock_world) (lk : Nat) (path : cstr) :
    outcome (Int × lock_world) :=
  match w.handles.get? lk with
  | none => outcome.fault
  | some h =>
    if path.length ≥ env.PATH_MAX then outcome.ret (-1, w)
    else
      let resolved := resolve_symlink env.PATH_MAX w.fs path (env.PATH_MAX - 5)
      let filename := resolved ++ ".lock".toList
      if filename.length ≥ env.PATH_MAX then outcome.fault
      else if (fs_lookup w.fs filename).isNone ∧ env.creatable filename = true then
        let fd := fresh_fd w.open_fds
        let h2 : lock_file :=
          { fd := fd, owner := env.pid, on_list := true, filename := filename }
        let w2 : lock_world :=
          { fs := (filename, fnode.file []) :: w.fs,
            handles := w.handles.set lk h2,
            lock_file_list := if h.on_list then w.lock_file_list else lk :: w.lock_file_list,
            cleanup_registered := if w.lock_file_list = [] then true else w.cleanup_registered,
            open_fds := fd :: w.open_fds }
        if env.adjust_shared_perm filename ≠ 0 then outcome.ret (-1, w2)
        else outcome.ret (fd, w2)
      else
        outcome.ret (-1, { w with handles := w.handles.set lk { h with fd := -1, filename := [] } })

/-- The message with which `hold_lock_file_for_update` dies, up to the text of
`strerror(errno)` that follows it. -/
def msg_unable_to_create (path : cstr) : cstr :=
  "unable to create \x27".toList ++ path ++ ".lock\x27: ".toList

/-- The function `hold_lock_file_for_update`. -/
def hold_lock_file_for_update (env : lock_env) (w : lock_world) (lk : Nat) (path : cstr)
    (die_on_error : Int) : outcome (Int × lock_world) :=
  match lock_file_fn env w lk path with
  | outcome.ret (fd, w2) =>
    if fd < 0 ∧ die_on_error ≠ 0 then outcome.died (msg_unable_to_create path)
    else outcome.ret (fd, w2)
  | outcome.died msg => outcome.died msg
  | outcome.fault => outcome.fault

/-- An environment in which every file can be created and nothing fails. -/
def lock_env_example : lock_env :=
  { PATH_MAX := 4096, pid := 7, creatable := fun _ => true, adjust_shared_perm := fun _ => 0,
    close_fails := fun _ => false, rename_fails := fun _ _ => false }

/-- A process with two handles that hold nothing, and a symbolic link `index` to `real`. -/
def lock_world_example : lock_world :=
  { fs := [("index".toList, fnode.symlink "real".toList)],
    handles := [⟨0, 0, false, []⟩, ⟨0, 0, false, []⟩],
    lock_file_list := [], cleanup_registered := false, open_fds := [] }

/-- The state of `lock_world_example` after the first handle has locked `index`. -/
def lock_world_held_example : lock_world :=
  { fs := [("real.lock".toList, fnode.file []), ("index".toList, fnode.symlink "real".toList)],
    handles := [⟨3, 7, true, "real.lock".toList⟩, ⟨0, 0, false, []⟩],
    lock_file_list := [0], cleanup_registered := true, open_fds := [3] }

/-- The files without the one at path `p`, as `unlink` leaves them. -/
def fs_remove (fs : List (cstr × fnode)) (p : cstr) : List (cstr × fnode) :=
  fs.filter (fun e => decide (e.1 ≠ p))

/-- The files after a `rename` of the path `old`, which names the node `n`, to the path
`new`: `new` names `n`, whatever it named before, and `old` names nothing. -/
def fs_rename (fs : List (cstr × fnode)) (old new : cstr) (n : fnode) : List (cstr × fnode) :=
  (new, n) :: fs_remove (fs_remove fs old) new

/-- The descriptors in use after `close(fd)`. -/
def close_fd (open_fds : List Nat) (fd : Int) : List Nat :=
  open_fds.filter (fun x => decide ((x : Int) ≠ fd))

/-- The function `close_lock_file`: the handle forgets its descriptor, and the value of
`close` is returned. -/
def close_lock_file (env : lock_env) (w : lock_world) (lk : Nat) : outcome (Int × lock_world) :=
  match w.handles.get? lk with
  | none => outcome.fault
  | some h =>
    outcome.ret (if env.close_fails h.fd then -1 else 0,
      { w with handles := w.handles.set lk { h with fd := -1 },
               open_fds := close_fd w.open_fds h.fd })

/-- The function `commit_lock_file`: the value returned and the state afterwards. The
name of the result is the file name of the handle without its last five characters;
with a file name shorter than that, `result_file[i] = 0` is written outside the buffer.
`rename` fails when the sidecar file is not there, and when the environment says so. -/
def commit_lock_file (env : lock_env) (w : lock_world) (lk : Nat) : outcome (Int × lock_world) :=
  match w.handles.get? lk with
  | none => outcome.fault
  | some h =>
    match (if 0 ≤ h.fd then close_lock_file env w lk else outcome.ret (0, w)) with
    | outcome.ret (c, w1) =>
      if c ≠ 0 then outcome.ret (-1, w1)
      else
        match w1.handles.get? lk with
        | none => outcome.fault
        | some h1 =>
          if h1.filename.length < 5 then outcome.fault
          else
            let result_file := h1.filename.take (h1.filename.length - 5)
            match fs_lookup w1.fs h1.filename with
            | none => outcome.ret (-1, w1)
            | some n =>
              if env.rename_fails h1.filename result_file then outcome.ret (-1, w1)
              else
                outcome.ret (0,
                  { w1 with fs := fs_rename w1.fs h1.filename result_file n,
                            handles := w1.handles.set lk { h1 with filename := [] } })
    | outcome.died msg => outcome.died msg
    | outcome.fault => outcome.fault

/-- The function `rollback_lock_file`; it returns nothing, and the values of `close`
and `unlink` are not looked at. -/
def rollback_lock_file (w : lock_world) (lk : Nat) : outcome lock_world :=
  match w.handles.get? lk with
  | none => outcome.fault
  | some h =>
    if h.filename ≠ [] then
      outcome.ret
        { w with fs := fs_remove w.fs h.filename,
                 open_fds := if 0 ≤ h.fd then close_fd w.open_fds h.fd else w.open_fds,
                 handles := w.handles.set lk { h with filename := [] } }
    else
      outcome.ret { w with handles := w.handles.set lk { h with filename := [] } }

/-- The loop of `remove_lock_file` over the handles `lock_file_list` links, for the
process id `me`: the files and the descriptors in use afterwards. -/
def remove_lock_file_loop (me : Int) (handles : List lock_file) :
    List Nat → List (cstr × fnode) × List Nat → outcome (List (cstr × fnode) × List Nat)
  | [], st => outcome.ret st
  | i :: rest, st =>
    match handles.get? i with
    | none => outcome.fault
    | some h =>
      if h.owner = me ∧ h.filename ≠ [] then
        remove_lock_file_loop me handles rest
          (fs_remove st.1 h.filename, if 0 ≤ h.fd then close_fd st.2 h.fd else st.2)
      else remove_lock_file_loop me handles rest st

/-- The function `remove_lock_file`, which the exit and signal handlers run: the state
it leaves, with `lock_file_list` walked to its end. -/
def remove_lock_file (env : lock_env) (w : lock_world) : outcome lock_world :=
  match remove_lock_file_loop env.pid w.handles w.lock_file_list (w.fs, w.open_fds) with
  | outcome.ret st => outcome.ret { w with fs := st.1, open_fds := st.2, lock_file_list := [] }
  | outcome.died msg => outcome.died msg
  | outcome.fault => outcome.fault

/-- The state after the first statement of `commit_lock_file` for the handle `h` at
`lk`: a descriptor that is not negative has been closed and forgotten. -/
def commit_closed (w : lock_world) (lk : Nat) (h : lock_file) : lock_world :=
  if 0 ≤ h.fd then
    { w with handles := w.handles.set lk { h with fd := -1 },
             open_fds := close_fd w.open_fds h.fd }
  else w

/-- An environment with a `PATH_MAX` of 16 in which no file can be created under `ro/`. -/
def lock_env_small : lock_env :=
  { PATH_MAX := 16, pid := 7, creatable := fun p => decide (p.take 3 ≠ "ro/".toList),
    adjust_shared_perm := fun _ => 0, close_fails := fun _ => false,
    rename_fails := fun _ _ => false }

/-- The value a call returns, when it returns. -/
def returned_value {α β : Type} : outcome (α × β) → Option α
  | outcome.ret (a, _) => some a
  | _ => none

/-- The file name in the handle at address `lk`, empty when the handle holds no lock. -/
def handle_filename (w : lock_world) (lk : Nat) : cstr :=
  ((w.handles.get? lk).map lock_file.filename).getD []

/-- A process that has locked nothing yet: its handles are zeroed and `lock_file_list`
is empty. -/
def lock_world_initial (w : lock_world) : Prop :=
  w.lock_file_list = [] ∧ ∀ h ∈ w.handles, h.filename = [] ∧ h.on_list = false

/-- The states a process with the id `pid` reaches from `w0` by calls of `lock_file`
(through `hold_lock_file_for_update`), `commit_lock_file` and `rollback_lock_file` on
its handles, each state with the sidecar files of the locks acquired and neither
committed nor rolled back so far: a call of `lock_file` that returns a descriptor adds
the file name it left in the handle, and a successful commit and a rollback take away
the file name the handle had. With `strict`, every `lock_file` call is through a handle
that holds no lock at the time. -/
inductive lock_reach (pid : Int) (strict : Bool) (w0 : lock_world) :
    lock_world → List cstr → Prop where
  | init : lock_reach pid strict w0 w0 []
  | acquire (w w2 : lock_world) (held : List cstr) (env : lock_env) (lk : Nat) (path : cstr)
      (fd : Int) :
      lock_reach pid strict w0 w held → env.pid = pid →
      (strict = true → handle_filename w lk = []) →
      lock_file_fn env w lk path = outcome.ret (fd, w2) →
      lock_reach pid strict w0 w2 (if 0 ≤ fd then handle_filename w2 lk :: held else held)
  | commit (w w2 : lock_world) (held : List cstr) (env : lock_env) (lk : Nat) (r : Int) :
      lock_reach pid strict w0 w held → env.pid = pid →
      commit_lock_file env w lk = outcome.ret (r, w2) →
      lock_reach pid strict w0 w2
        (if r = 0 then held.filter (fun p => decide (p ≠ handle_filename w lk)) else held)
  | rollback (w w2 : lock_world) (held : List cstr) (lk : Nat) :
      lock_reach pid strict w0 w held →
      rollback_lock_file w lk = outcome.ret w2 →
      lock_reach pid strict w0 w2 (held.filter (fun p => decide (p ≠ handle_filename w lk)))

/-- What holds of the handles in every state a process reaches: `lock_file_list` links
handles only, a handle with a file name is owned by the process and on the list, a
handle marked as on the list is on it, and the cleanup is registered once the list is
not empty. -/
def lock_invariant (pid : Int) (w : lock_world) : Prop :=
  (∀ i ∈ w.lock_file_list, i < w.handles.length) ∧
  (∀ i h, w.handles.get? i = some h → h.filename ≠ [] →
    h.owner = pid ∧ i ∈ w.lock_file_list) ∧
  (∀ i h, w.handles.get? i = some h → h.on_list = true → i ∈ w.lock_file_list) ∧
  (w.lock_file_list ≠ [] → w.cleanup_registered = true)

/-- A process with one handle that holds nothing, and no file. -/
def lock_world_empty : lock_world :=
  { fs := [], handles := [⟨0, 0, false, []⟩],
    lock_file_list := [], cleanup_registered := false, open_fds := [] }

/-- What one call through the handle at `lk` does to the handles and the list: the
handle `h` becomes `h2`, the other handles stay, the list stays or gets `lk` as its new
head, and `h2` is on the list when it has a file name or is marked as on the list. -/
def handle_step (pid : Int) (w w2 : lock_world) (lk : Nat) (h h2 : lock_file) : Prop :=
  w.handles.get? lk = some h ∧ w2.handles.get? lk = some h2 ∧
  (∀ j, j ≠ lk → w2.handles.get? j = w.handles.get? j) ∧
  w2.handles.length = w.handles.length ∧
  (w2.lock_file_list = w.lock_file_list ∨ w2.lock_file_list = lk :: w.lock_file_list) ∧
  (h2.filename ≠ [] → h2.owner = pid ∧ lk ∈ w2.lock_file_list) ∧
  (h2.on_list = true → lk ∈ w2.lock_file_list) ∧
  (w2.lock_file_list ≠ [] → w2.cleanup_registered = true)

/-- The state of `lock_world_empty` after its handle has locked `a`. -/
def lock_world_one_lock : lock_world :=
  { fs := [("a.lock".toList, fnode.file [])],
    handles := [⟨3, 7, true, "a.lock".toList⟩],
    lock_file_list := [0], cleanup_registered := true, open_fds := [3] }

/-- The state of `lock_world_one_lock` after the same handle has locked `b` as well. -/
def lock_world_two_locks : lock_world :=
  { fs := [("b.lock".toList, fnode.file []), ("a.lock".toList, fnode.file [])],
    handles := [⟨4, 7, true, "b.lock".toList⟩],
    lock_file_list := [0], cleanup_registered := true, open_fds := [4, 3] }

/-! ## interpolate.c -/

/-- Modelled from the spec: `struct interp` is declared in a header that is not among
the sources; an entry of the table has a name and a value. -/
structure interp where
  name : cstr
  value : cstr
  deriving DecidableEq, Repr

/-- Whether `strncmp(s1, s2, n)` is zero: the two strings agree on their first `n`
characters, or on all of them when both are shorter. -/
def strncmp_eq (s1 s2 : cstr) (n : Nat) : Bool := decide (s1.take n = s2.take n)

/-- The `for` loop of `interpolate`: the first entry of the table whose name is found
at `src`. -/
def interpolate_find (src : cstr) : List interp → Option interp
  | [] => none
  | e :: rest =>
    if strncmp_eq src e.name e.name.length then some e else interpolate_find src rest

/-- The `while` loop of `interpolate` and the `return` after it, for at most `fuel`
rounds: the value returned and the text written to `result`, `dest` being the text
written so far (`newlen` is its length) and `src` the rest of `orig`. Nothing is
returned when the rounds do not suffice. -/
def interpolate_loop (interps : List interp) (reslen : Int) : Nat → cstr → cstr → Option (Int × cstr)
  | 0, _, _ => none
  | fuel + 1, src, dest =>
    match src with
    | [] => some (if (dest.length : Int) < reslen - 1 then 1 else 0, dest)
    | c :: rest =>
      if (dest.length : Int) < reslen - 1 then
        if c = '%' then
          match interpolate_find src interps with
          | some e =>
            if (dest.length : Int) + (e.value.length : Int) < reslen - 1 then
              interpolate_loop interps reslen fuel (src.drop e.name.length) (dest ++ e.value)
            else some (0, dest)
          | none => interpolate_loop interps reslen fuel rest (dest ++ [c])
        else interpolate_loop interps reslen fuel rest (dest ++ [c])
      else some (if (dest.length : Int) < reslen - 1 then 1 else 0, dest)

/-- The function `interpolate` for a buffer `result` of `reslen` bytes, its loop running
for at most `fuel` rounds: the value returned and the string `result` holds afterwards.
A negative `reslen` makes `memset` write outside the buffer. -/
def interpolate (fuel : Nat) (reslen : Int) (orig : cstr) (interps : List interp) :
    Option (outcome (Int × cstr)) :=
  if reslen < 0 then some outcome.fault
  else (interpolate_loop interps reslen fuel orig []).map outcome.ret

/-- The fully substituted text, in the words of the specification: at a `%` where a
name of the table is found, the value of the first such entry replaces the name; every
other character is copied. Nothing, when `fuel` rounds do not suffice. -/
def substituted_text (interps : List interp) : Nat → cstr → Option cstr
  | 0, _ => none
  | _ + 1, [] => some []
  | fuel + 1, c :: rest =>
    if c = '%' then
      match interpolate_find (c :: rest) interps with
      | some e =>
        (substituted_text interps fuel ((c :: rest).drop e.name.length)).map
          (fun t => e.value ++ t)
      | none => (substituted_text interps fuel rest).map (fun t => c :: t)
    else (substituted_text interps fuel rest).map (fun t => c :: t)

/-! ## count_refspec_match in the words of the specification -/

/-- The matching rule in the words of the specification: the name ends with the
pattern, and the matched part is the whole name or is immediately preceded by `/`. -/
def ref_name_matches (pattern name : cstr) : Prop :=
  ∃ pre, name = pre ++ pattern ∧ (pre = [] ∨ pre.getLast? = some '/')

/-- A weak match in the words of the specification: the pattern is neither the whole
name nor the name without its first five characters (the name is not five characters
followed by the pattern), and the name starts with neither `refs/heads/` nor
`refs/tags/`. -/
def weak_by_spec (pattern name : cstr) : Prop :=
  pattern ≠ name ∧ (¬ ∃ pre : cstr, pre.length = 5 ∧ name = pre ++ pattern) ∧
  ¬ "refs/heads/".toList <+: name ∧ ¬ "refs/tags/".toList <+: name

/-- The map without the later entries that repeat a peer name, in the words of the
specification: going through the entries in order with the peer names `seen` so far, an
entry without a peer is kept, an entry whose peer name has been seen is removed, and any
other entry is kept and its peer name counted as seen. -/
def first_occurrences (node_name : Nat → cstr) : List cstr → List ref → List ref
  | _, [] => []
  | seen, r :: rest =>
    match r.peer_ref with
    | none => r :: first_occurrences node_name seen rest
    | some p =>
      if peer_ref_name node_name p ∈ seen then first_occurrences node_name seen rest
      else r :: first_occurrences node_name (peer_ref_name node_name p :: seen) rest

/-- No two entries of the map that have a peer share a peer name. -/
def distinct_peer_names (node_name : Nat → cstr) (l : List ref) : Prop :=
  l.Pairwise (fun a b => ∀ pa pb, a.peer_ref = some pa → b.peer_ref = some pb →
    peer_ref_name node_name pa ≠ peer_ref_name node_name pb)

/-- A glob rule whose source prefix is a prefix of the name. -/
def glob_rule_matches (q : refspec) (n : cstr) : Prop :=
  q.pattern = true ∧ ∃ k, q.src = some k ∧ k <+: n

/-! ## builtin-tar-tree.c: pax extended header records -/

/-- Modelled from the spec: `struct strbuf` is declared in a header that is not among
the sources; these are the fields `builtin-tar-tree.c` uses: the bytes stored in the
buffer, the length in use and the number of bytes allocated. -/
structure strbuf where
  buf : List Char
  len : Nat
  alloc : Nat
  deriving DecidableEq, Repr

/-- The loop `for (tmp = len; tmp > 9; tmp /= 10) len++;` of `strbuf_append_ext_header`,
for at most `fuel` rounds: the value of `len` after it. -/
def ext_header_len_loop : Nat → Nat → Nat → Nat
  | 0, _, len => len
  | fuel + 1, tmp, len =>
    if tmp > 9 then ext_header_len_loop fuel (tmp / 10) (len + 1) else len

/-- The number `len` that `strbuf_append_ext_header` computes for a keyword of `klen`
and a value of `valuelen` bytes, and prints at the start of the record. The loop ends
within as many rounds as its start value, which shrinks in every round. -/
def ext_header_len (klen valuelen : Nat) : Nat :=
  ext_header_len_loop (1 + 1 + klen + 1 + valuelen + 1) (1 + 1 + klen + 1 + valuelen + 1)
    (1 + 1 + klen + 1 + valuelen + 1)

/-- The bytes `strbuf_append_ext_header` writes from `sb->buf` on: the number printed by
`%u`, a blank, the keyword and `=` (by `sprintf`), the value (by `memcpy`) and the
newline. -/
def ext_header_record (keyword value : List Char) : List Char :=
  Nat.toDigits 10 (ext_header_len keyword.length value.length) ++ [' '] ++ keyword ++ ['=']
    ++ value ++ ['\n']

/-- The function `strbuf_append_ext_header`, `value` being the `valuelen` bytes of the
value: the buffer afterwards. The buffer is grown to `total` bytes when it is smaller,
the record is written from `sb->buf` on, and `sb->len` becomes `total`; a record longer
than the buffer is written past its end. -/
def strbuf_append_ext_header (sb : strbuf) (keyword value : List Char) : outcome strbuf :=
  let len := ext_header_len keyword.length value.length
  let total := sb.len + len
  let alloc := if total > sb.alloc then total else sb.alloc
  let record := ext_header_record keyword value
  if record.length > alloc then outcome.fault
  else outcome.ret { buf := record ++ sb.buf.drop record.length, len := total, alloc := alloc }

/-! ## remote.c: handle_config -/

/-- The command, receive or upload as `fld` selects, of the first registered remote
named `n`, if it has one. -/
def pack_of (fld : remote → Option cstr) (n : cstr) : List (Option remote) → Option cstr
  | [] => none
  | none :: rest => pack_of fld n rest
  | some r :: rest => if r.name = n then fld r else pack_of fld n rest

/-- The receive command of the registered remote named `n`, if it has one. -/
def receivepack_of (n : cstr) (remotes : List (Option remote)) : Option cstr :=
  pack_of remote.receivepack n remotes

/-- The upload command of the registered remote named `n`, if it has one. -/
def uploadpack_of (n : cstr) (remotes : List (Option remote)) : Option cstr :=
  pack_of remote.uploadpack n remotes

theorem strchr_eq_none_iff (s : cstr) (c : Char) : strchr s c = none ↔ c ∉ s := by
  induction s with
  | nil => simp [strchr]
  | cons x xs ih =>
    by_cases h : x = c
    · simp [strchr, h]
    · simp [strchr, h, ih, Ne.symm h]

theorem prefixcmp_eq_zero_iff (str pfx : cstr) : prefixcmp str pfx = 0 ↔ pfx <+: str := by
  unfold prefixcmp
  by_cases h : pfx.isPrefixOf str = true
  · simp [h, List.isPrefixOf_iff_prefix.mp h]
  · have h2 : ¬ pfx <+: str := fun hp => h (List.isPrefixOf_iff_prefix.mpr hp)
    simp [h, h2]

theorem get_expanded_map_loop_eq (S D : cstr) (f : Bool) (remote_refs : List ref) :
    get_expanded_map_loop S D f remote_refs =
      (remote_refs.filter (fun r => decide (S <+: r.name ∧ '^' ∉ r.name))).map
        (fun r =>
          { r with
            peer_ref := some (peer.obj (D ++ r.name.drop S.length) null_sha1 null_sha1 (bit f)) }) := by
  induction remote_refs with
  | nil => simp [get_expanded_map_loop]
  | cons r rest ih =>
    unfold get_expanded_map_loop
    by_cases h1 : (strchr r.name '^').isSome = true
    · have h1n : '^' ∈ r.name := by
        by_contra hc
        rw [(strchr_eq_none_iff r.name '^').mpr hc] at h1
        simp at h1
      simp [h1, h1n, ih]
    · have h1n : '^' ∉ r.name := by
        apply (strchr_eq_none_iff r.name '^').mp
        cases hs : strchr r.name '^' with
        | none => rfl
        | some k => simp [hs] at h1
      by_cases h2 : prefixcmp r.name S = 0
      · have hp := (prefixcmp_eq_zero_iff r.name S).mp h2
        simp [h1, h2, hp, h1n, ih, bit]
      · have hp : ¬ S <+: r.name := fun hp => h2 ((prefixcmp_eq_zero_iff r.name S).mpr hp)
        simp [h1, h2, hp, ih]

/-- C1: for a glob fetch rule with source prefix `S` and destination prefix `D`,
`get_expanded_map` returns, in the order of the remote list, one entry for each remote
ref whose name starts with `S` and contains no `^`, and nothing else; each entry is
that remote ref (name and object ids kept) with a peer named `D` followed by the rest
of the name, carrying the force flag of the rule. For the remote refs
`refs/heads/main` and `refs/heads/dev` and the parsed rule
`refs/heads/*:refs/remotes/origin/*` the peers are `refs/remotes/origin/main` and
`refs/remotes/origin/dev`. -/
theorem get_expanded_map_glob (remote_refs : List ref) (S D : cstr) (f : Bool) :
    get_expanded_map remote_refs { force := f, pattern := true, src := some S, dst := some D } =
      outcome.ret ((remote_refs.filter (fun r => decide (S <+: r.name ∧ '^' ∉ r.name))).map
        (fun r =>
          { r with
            peer_ref := some (peer.obj (D ++ r.name.drop S.length) null_sha1 null_sha1 (bit f)) }))
    ∧ ∀ (A A2 B B2 : List Nat) (fa fb : Nat) (pa pb : Option peer),
        get_expanded_map
          [{ name := "refs/heads/main".toList, old_sha1 := A, new_sha1 := A2, force := fa,
             peer_ref := pa },
           { name := "refs/heads/dev".toList, old_sha1 := B, new_sha1 := B2, force := fb,
             peer_ref := pb }]
          (parse_ref_spec_one "refs/heads/*:refs/remotes/origin/*".toList) =
        outcome.ret
          [{ name := "refs/heads/main".toList, old_sha1 := A, new_sha1 := A2, force := fa,
             peer_ref := some (peer.obj "refs/remotes/origin/main".toList null_sha1 null_sha1 0) },
           { name := "refs/heads/dev".toList, old_sha1 := B, new_sha1 := B2, force := fb,
             peer_ref := some (peer.obj "refs/remotes/origin/dev".toList null_sha1 null_sha1 0) }] := by
  constructor
  · simp [get_expanded_map, get_expanded_map_loop_eq]
  · intro A A2 B B2 fa fb pa pb
    have hp : parse_ref_spec_one "refs/heads/*:refs/remotes/origin/*".toList =
        { force := false, pattern := true, src := some "refs/heads/".toList,
          dst := some "refs/remotes/origin/".toList } := by decide
    rw [hp]
    simp [get_expanded_map, get_expanded_map_loop, strchr, prefixcmp]

theorem prefix_drop_inj (S a b : cstr) (ha : S <+: a) (hb : S <+: b)
    (h : a.drop S.length = b.drop S.length) : a = b := by
  obtain ⟨ta, rfl⟩ := ha
  obtain ⟨tb, rfl⟩ := hb
  simp at h
  rw [h]

/-- C2: glob expansion is injective: two entries of the map `get_expanded_map` returns
for a rule whose (remote) names differ have peers with different names. -/
theorem get_expanded_map_injective (remote_refs : List ref) (rs : refspec) (out : List ref)
    (h : get_expanded_map remote_refs rs = outcome.ret out) (e1 e2 : ref)
    (h1 : e1 ∈ out) (h2 : e2 ∈ out) (hne : e1.name ≠ e2.name) :
    ∃ n1 n2, peer_name e1.peer_ref = some n1 ∧ peer_name e2.peer_ref = some n2 ∧ n1 ≠ n2 := by
  unfold get_expanded_map at h
  cases hs : rs.src with
  | none => simp [hs] at h
  | some S =>
    cases hd : rs.dst with
    | none => simp [hs, hd] at h
    | some D =>
      simp only [hs, hd, get_expanded_map_loop_eq, outcome.ret.injEq] at h
      subst h
      simp only [List.mem_map, List.mem_filter, decide_eq_true_eq] at h1 h2
      obtain ⟨r1, ⟨_, hp1, _⟩, rfl⟩ := h1
      obtain ⟨r2, ⟨_, hp2, _⟩, rfl⟩ := h2
      refine ⟨D ++ r1.name.drop S.length, D ++ r2.name.drop S.length, rfl, rfl, ?_⟩
      intro heq
      exact hne (prefix_drop_inj S r1.name r2.name hp1 hp2 (List.append_cancel_left heq))

/-- C2 at the refs `refs/heads/a` and `refs/heads/b` under the rule
`refs/heads/*:refs/remotes/origin/*`. -/
theorem get_expanded_map_injective_witness :
    ∃ n1 n2,
      peer_name (some (peer.obj "refs/remotes/origin/a".toList null_sha1 null_sha1 0)) = some n1 ∧
      peer_name (some (peer.obj "refs/remotes/origin/b".toList null_sha1 null_sha1 0)) = some n2 ∧
      n1 ≠ n2 :=
  get_expanded_map_injective
    [{ name := "refs/heads/a".toList, old_sha1 := [1], new_sha1 := [], force := 0,
       peer_ref := none },
     { name := "refs/heads/b".toList, old_sha1 := [2], new_sha1 := [], force := 0,
       peer_ref := none }]
    (parse_ref_spec_one "refs/heads/*:refs/remotes/origin/*".toList)
    [{ name := "refs/heads/a".toList, old_sha1 := [1], new_sha1 := [], force := 0,
       peer_ref := some (peer.obj "refs/remotes/origin/a".toList null_sha1 null_sha1 0) },
     { name := "refs/heads/b".toList, old_sha1 := [2], new_sha1 := [], force := 0,
       peer_ref := some (peer.obj "refs/remotes/origin/b".toList null_sha1 null_sha1 0) }]
    (by decide)
    { name := "refs/heads/a".toList, old_sha1 := [1], new_sha1 := [], force := 0,
      peer_ref := some (peer.obj "refs/remotes/origin/a".toList null_sha1 null_sha1 0) }
    { name := "refs/heads/b".toList, old_sha1 := [2], new_sha1 := [], force := 0,
      peer_ref := some (peer.obj "refs/remotes/origin/b".toList null_sha1 null_sha1 0) }
    (by decide) (by decide) (by decide)

theorem count_refspec_match_loop_skip (pattern : cstr) (i : Nat) (r : ref) (rest : List ref)
    (st : match_state) (h : ¬ is_refspec_match pattern r.name) :
    count_refspec_match_loop pattern i (r :: rest) st =
      count_refspec_match_loop pattern (i + 1) rest st := by
  unfold is_refspec_match at h
  rw [count_refspec_match_loop]
  by_cases h1 : r.name.length < pattern.length ∨
      r.name.drop (r.name.length - pattern.length) ≠ pattern
  · rw [if_pos h1]
  · simp only [h1, not_false_eq_true, true_and, not_not] at h
    rw [if_neg h1, if_pos h]

theorem count_refspec_match_loop_weak (pattern : cstr) (i : Nat) (r : ref) (rest : List ref)
    (st : match_state) (h : is_refspec_match pattern r.name) (hw : is_weak_match pattern r.name) :
    count_refspec_match_loop pattern i (r :: rest) st =
      count_refspec_match_loop pattern (i + 1) rest
        { st with matched_weak := some (i, r), weak_match := st.weak_match + 1 } := by
  unfold is_refspec_match at h
  unfold is_weak_match at hw
  rw [count_refspec_match_loop, if_neg h.1, if_neg h.2, if_pos hw]

theorem count_refspec_match_loop_strong (pattern : cstr) (i : Nat) (r : ref) (rest : List ref)
    (st : match_state) (h : is_strong_match pattern r.name) :
    count_refspec_match_loop pattern i (r :: rest) st =
      count_refspec_match_loop pattern (i + 1) rest
        { st with matched := some (i, r), strong_match := st.strong_match + 1 } := by
  obtain ⟨h, hw⟩ := h
  unfold is_refspec_match at h
  unfold is_weak_match at hw
  rw [count_refspec_match_loop, if_neg h.1, if_neg h.2, if_neg hw]

theorem count_refspec_match_loop_no_strong (pattern : cstr) (refs : List ref) :
    ∀ (i : Nat) (st : match_state), (∀ r ∈ refs, ¬ is_strong_match pattern r.name) →
      (count_refspec_match_loop pattern i refs st).matched = st.matched ∧
      (count_refspec_match_loop pattern i refs st).strong_match = st.strong_match := by
  induction refs with
  | nil => intro i st _; simp [count_refspec_match_loop]
  | cons x xs ih =>
    intro i st h
    have hx : ¬ is_strong_match pattern x.name := h x (List.mem_cons_self _ _)
    have hxs : ∀ r ∈ xs, ¬ is_strong_match pattern r.name :=
      fun r hr => h r (List.mem_cons_of_mem _ hr)
    by_cases hm : is_refspec_match pattern x.name
    · have hw : is_weak_match pattern x.name := by
        by_contra hw
        exact hx ⟨hm, hw⟩
      rw [count_refspec_match_loop_weak pattern i x xs st hm hw]
      exact ih (i + 1) _ hxs
    · rw [count_refspec_match_loop_skip pattern i x xs st hm]
      exact ih (i + 1) st hxs

theorem count_refspec_match_loop_one_strong (pattern : cstr) (refs : List ref) :
    ∀ (i j : Nat) (r : ref) (st : match_state), refs.get? j = some r →
      is_strong_match pattern r.name →
      (∀ k q, refs.get? k = some q → is_strong_match pattern q.name → k = j) →
      (count_refspec_match_loop pattern i refs st).matched = some (i + j, r) ∧
      (count_refspec_match_loop pattern i refs st).strong_match = st.strong_match + 1 := by
  induction refs with
  | nil => intro i j r st hj; simp at hj
  | cons x xs ih =>
    intro i j r st hj hs hu
    cases j with
    | zero =>
      simp only [List.get?_cons_zero, Option.some.injEq] at hj
      subst hj
      have hxs : ∀ q ∈ xs, ¬ is_strong_match pattern q.name := by
        intro q hq hqs
        obtain ⟨k, hk⟩ := List.get?_of_mem hq
        have := hu (k + 1) q (by simpa using hk) hqs
        omega
      rw [count_refspec_match_loop_strong pattern i x xs st hs]
      have := count_refspec_match_loop_no_strong pattern xs (i + 1)
        { st with matched := some (i, x), strong_match := st.strong_match + 1 } hxs
      simpa using this
    | succ j =>
      simp only [List.get?_cons_succ] at hj
      have hx : ¬ is_strong_match pattern x.name := by
        intro hxs
        have := hu 0 x (by simp) hxs
        omega
      have hu2 : ∀ k q, xs.get? k = some q → is_strong_match pattern q.name → k = j := by
        intro k q hk hq
        have := hu (k + 1) q (by simpa using hk) hq
        omega
      have hidx : i + (j + 1) = i + 1 + j := by omega
      by_cases hm : is_refspec_match pattern x.name
      · have hw : is_weak_match pattern x.name := by
          by_contra hw
          exact hx ⟨hm, hw⟩
        rw [count_refspec_match_loop_weak pattern i x xs st hm hw, hidx]
        exact ih (i + 1) j r _ hj hs hu2
      · rw [count_refspec_match_loop_skip pattern i x xs st hm, hidx]
        exact ih (i + 1) j r st hj hs hu2

theorem count_refspec_match_one_strong (pattern : cstr) (refs : List ref) (j : Nat) (r : ref)
    (hj : refs.get? j = some r) (hs : is_strong_match pattern r.name)
    (hu : ∀ k q, refs.get? k = some q → is_strong_match pattern q.name → k = j) :
    count_refspec_match pattern refs = (1, some (j, r)) := by
  have h := count_refspec_match_loop_one_strong pattern refs 0 j r
    { matched_weak := none, matched := none, weak_match := 0, strong_match := 0 } hj hs hu
  unfold count_refspec_match
  simp only [Nat.zero_add] at h
  simp only [h.1, h.2]

/-- C4: in a ref list in which exactly one ref, at position `j`, is a strong match for
the pattern (it is not skipped by `count_refspec_match` and is not classed as weak),
`count_refspec_match` returns 1 and selects that ref, whatever weak matches the list
holds before or after it. -/
theorem count_refspec_match_single_strong (pattern : cstr) (refs : List ref) (j : Nat) (r : ref)
    (hj : refs.get? j = some r) (hs : is_strong_match pattern r.name)
    (hu : ∀ k q, refs.get? k = some q → is_strong_match pattern q.name → k = j) :
    count_refspec_match pattern refs = (1, some (j, r)) :=
  count_refspec_match_one_strong pattern refs j r hj hs hu

/-- C4 at the pattern `master` and a list with a weak match before and after the
strong one. -/
theorem count_refspec_match_single_strong_witness :
    count_refspec_match "master".toList
      [{ name := "refs/remotes/origin/master".toList, old_sha1 := [], new_sha1 := [], force := 0,
         peer_ref := none },
       { name := "refs/heads/master".toList, old_sha1 := [], new_sha1 := [], force := 0,
         peer_ref := none },
       { name := "refs/remotes/other/master".toList, old_sha1 := [], new_sha1 := [], force := 0,
         peer_ref := none }] =
      (1, some (1, { name := "refs/heads/master".toList, old_sha1 := [], new_sha1 := [],
                     force := 0, peer_ref := none })) :=
  count_refspec_match_single_strong "master".toList _ 1 _ (by decide) (by decide)
    (by
      intro k q hk hq
      match k, hk with
      | 0, hk =>
        simp only [List.get?_cons_zero, Option.some.injEq] at hk
        subst hk
        exact absurd hq (by decide)
      | 1, _ => rfl
      | 2, hk =>
        simp only [List.get?_cons_succ, List.get?_cons_zero, Option.some.injEq] at hk
        subst hk
        exact absurd hq (by decide)
      | k + 3, hk => simp at hk)

theorem check_pattern_match_no_pattern (rs : List refspec) (name : cstr)
    (h : ∀ r ∈ rs, r.pattern = false) : check_pattern_match rs name = outcome.ret none := by
  induction rs with
  | nil => rfl
  | cons r rest ih =>
    have hr : r.pattern = false := h r (List.mem_cons_self _ _)
    rw [check_pattern_match]
    simp only [hr, Bool.false_eq_true, if_false]
    exact ih (fun q hq => h q (List.mem_cons_of_mem _ hq))

theorem match_refs_step_no_pattern (rs : List refspec) (all : Int) (dst_null : Bool)
    (hne : rs.length ≠ 0) (h : ∀ r ∈ rs, r.pattern = false) (i : Nat) (s : ref)
    (dst : List ref) : match_refs_step rs all dst_null i s dst = outcome.ret dst := by
  unfold match_refs_step
  by_cases hp : s.peer_ref.isSome = true
  · rw [if_pos hp]
  · rw [if_neg hp]
    simp only [pick_pattern]
    rw [if_pos hne, check_pattern_match_no_pattern rs s.name h]

theorem match_refs_remainder_no_pattern (rs : List refspec) (all : Int) (dst_null : Bool)
    (hne : rs.length ≠ 0) (h : ∀ r ∈ rs, r.pattern = false) (src : List ref) :
    ∀ (i : Nat) (dst : List ref),
      match_refs_remainder rs all dst_null i src dst = outcome.ret dst := by
  induction src with
  | nil => intro i dst; rfl
  | cons s rest ih =>
    intro i dst
    rw [match_refs_remainder, match_refs_step_no_pattern rs all dst_null hne h]
    exact ih (i + 1) dst

theorem match_explicit_bind (get_sha1 : cstr → Option (List Nat)) (src : List ref)
    (dst_null : Bool) (dst : List ref) (rs : refspec) (s : cstr) (p : peer) (nm : cstr)
    (k : Nat) (d : ref) (dst2 : List ref)
    (hpat : rs.pattern = false) (hs : rs.src = some s)
    (hsrc : match_explicit_src get_sha1 src s = some (p, nm))
    (hdst : match_explicit_dst dst_null dst (rs.dst.getD nm) = (some (k, d), dst2))
    (hd : d.peer_ref = none) :
    match_explicit get_sha1 src dst_null dst rs 0 =
      outcome.ret (0, dst2.set k { d with peer_ref := some p, force := bit rs.force }) := by
  unfold match_explicit
  rw [if_neg (by simp [hpat])]
  simp only [hs, hsrc]
  cases hrd : rs.dst with
  | none =>
    rw [hrd] at hdst
    simp only [Option.getD_none] at hdst
    simp [match_explicit_dst_value, hdst, hd]
  | some v =>
    rw [hrd] at hdst
    simp only [Option.getD_some] at hdst
    simp [match_explicit_dst_value, hdst, hd]

theorem match_explicit_dst_new (dst_null : Bool) (dst : List ref) (v : cstr)
    (hc : (count_refspec_match v (dst_seen dst_null dst)).1 = 0)
    (hv : v.take 5 = "refs/".toList) :
    match_explicit_dst dst_null dst v =
      (some (dst.length, alloc_ref v), dst ++ [alloc_ref v]) := by
  unfold match_explicit_dst
  cases hcm : count_refspec_match v (dst_seen dst_null dst) with
  | mk n m =>
    rw [hcm] at hc
    simp only at hc
    subst hc
    simp only [hv, if_true]

theorem match_explicit_refs_single (get_sha1 : cstr → Option (List Nat)) (src : List ref)
    (dst_null : Bool) (dst : List ref) (rs : refspec) (e : Nat) (dst2 : List ref)
    (h : match_explicit get_sha1 src dst_null dst rs 0 = outcome.ret (e, dst2)) :
    match_explicit_refs get_sha1 src dst_null dst [rs] = outcome.ret (-(e : Int), dst2) := by
  unfold match_explicit_refs
  rw [match_explicit_refs_loop, h]
  simp [match_explicit_refs_loop]

/-- C3, as stated, fails: for the list `refs/heads/x`, `refs/remotes/origin/x` and the
pattern `x`, `count_refspec_match` does not report more than one match. -/
theorem count_refspec_match_heads_remotes_not_ambiguous :
    ¬ (1 < (count_refspec_match "x".toList
      [{ name := "refs/heads/x".toList, old_sha1 := [], new_sha1 := [], force := 0,
         peer_ref := none },
       { name := "refs/remotes/origin/x".toList, old_sha1 := [], new_sha1 := [], force := 0,
         peer_ref := none }]).1) := by decide

/-- C3, amended: for a list made of `refs/heads/x` and `refs/remotes/origin/x`, in
either order and whatever their other fields, and the pattern `x`,
`count_refspec_match` reports exactly one match and selects `refs/heads/x` (the ref
under `refs/remotes/` is only a weak match); the push rule `x` then succeeds, binding a
new destination `refs/heads/x` to that source ref. -/
theorem count_refspec_match_heads_remotes (A A2 B B2 : List Nat) (fa fb : Nat)
    (pa pb : Option peer) (get_sha1 : cstr → Option (List Nat)) (all : Int) :
    let h : ref := { name := "refs/heads/x".toList, old_sha1 := A, new_sha1 := A2, force := fa,
                     peer_ref := pa }
    let o : ref := { name := "refs/remotes/origin/x".toList, old_sha1 := B, new_sha1 := B2,
                     force := fb, peer_ref := pb }
    count_refspec_match "x".toList [h, o] = (1, some (0, h)) ∧
    count_refspec_match "x".toList [o, h] = (1, some (1, h)) ∧
    match_refs get_sha1 [h, o] [] ["x".toList] all =
      outcome.ret (0, [{ alloc_ref "refs/heads/x".toList with peer_ref := some (peer.node 0) }]) := by
  intro h o
  refine ⟨?_, ?_, ?_⟩
  · simp [h, o, count_refspec_match, count_refspec_match_loop, prefixcmp]
  · simp [h, o, count_refspec_match, count_refspec_match_loop, prefixcmp]
  · have hp : parse_ref_spec ["x".toList] =
        [{ force := false, pattern := false, src := some "x".toList, dst := none }] := by decide
    have hc : count_refspec_match "x".toList [h, o] = (1, some (0, h)) := by
      simp [h, o, count_refspec_match, count_refspec_match_loop, prefixcmp]
    have hsrc : match_explicit_src get_sha1 [h, o] "x".toList =
        some (peer.node 0, "refs/heads/x".toList) := by
      unfold match_explicit_src
      rw [hc]
      rfl
    have hme := match_explicit_bind get_sha1 [h, o] true []
      { force := false, pattern := false, src := some "x".toList, dst := none }
      "x".toList (peer.node 0) "refs/heads/x".toList 0 (alloc_ref "refs/heads/x".toList)
      [alloc_ref "refs/heads/x".toList] rfl rfl hsrc (by decide) rfl
    have hrem := match_refs_remainder_no_pattern
      [{ force := false, pattern := false, src := some "x".toList, dst := none }] all true
      (by simp) (by simp) [h, o] 0
      ([alloc_ref "refs/heads/x".toList].set 0
        { alloc_ref "refs/heads/x".toList with peer_ref := some (peer.node 0), force := bit false })
    unfold match_refs
    rw [hp]
    simp only [List.isEmpty_nil]
    rw [match_explicit_refs_single get_sha1 [h, o] true [] _ 0 _ hme]
    simp only [Nat.cast_zero, neg_zero, ne_eq, not_true_eq_false, if_false]
    rw [hrem]
    rfl

theorem count_refspec_match_loop_no_match (pattern : cstr) (refs : List ref) :
    ∀ (i : Nat) (st : match_state), (∀ r ∈ refs, ¬ is_refspec_match pattern r.name) →
      count_refspec_match_loop pattern i refs st = st := by
  induction refs with
  | nil => intro i st _; rfl
  | cons x xs ih =>
    intro i st h
    rw [count_refspec_match_loop_skip pattern i x xs st (h x (List.mem_cons_self _ _))]
    exact ih (i + 1) st (fun r hr => h r (List.mem_cons_of_mem _ hr))

theorem count_refspec_match_no_match (pattern : cstr) (refs : List ref)
    (h : ∀ r ∈ refs, ¬ is_refspec_match pattern r.name) :
    count_refspec_match pattern refs = (0, none) := by
  unfold count_refspec_match
  rw [count_refspec_match_loop_no_match pattern refs 0 _ h]

theorem not_is_refspec_match_nil (name : cstr) (h1 : name ≠ [])
    (h2 : name.getLast? ≠ some '/') : ¬ is_refspec_match [] name := by
  unfold is_refspec_match
  intro h
  apply h.2
  refine ⟨by simpa using h1, ?_⟩
  rw [List.getLast?_eq_getElem?] at h2
  simpa using h2

/-- C5, as stated, fails: with the remote list `refs/heads/stale`,
`refs/tags/refs/heads/stale` the rule `:refs/heads/stale` has two strong destination
matches, and `match_refs` returns -1 and binds nothing. -/
theorem match_refs_delete_ambiguous :
    match_refs (fun _ => none) []
      [{ name := "refs/heads/stale".toList, old_sha1 := [1], new_sha1 := [], force := 0,
         peer_ref := none },
       { name := "refs/tags/refs/heads/stale".toList, old_sha1 := [2], new_sha1 := [],
         force := 0, peer_ref := none }]
      [":refs/heads/stale".toList] 0 =
    outcome.ret (-1,
      [{ name := "refs/heads/stale".toList, old_sha1 := [1], new_sha1 := [], force := 0,
         peer_ref := none },
       { name := "refs/tags/refs/heads/stale".toList, old_sha1 := [2], new_sha1 := [],
         force := 0, peer_ref := none }]) := by decide

/-- C5, amended: for the push rule `:refs/heads/stale`, every local list in which no
name is empty or ends in `/`, and every remote list in which `refs/heads/stale` stands
at a position `k`, has no peer yet and is the only strong match of the pattern
`refs/heads/stale`, `match_refs` returns 0 and binds that ref, and no other, to the
`(delete)` object whose new object id is all zero. -/
theorem match_refs_delete (get_sha1 : cstr → Option (List Nat)) (src dst : List ref)
    (all : Int) (k : Nat) (d : ref)
    (hsrc : ∀ r ∈ src, r.name ≠ [] ∧ r.name.getLast? ≠ some '/')
    (hk : dst.get? k = some d) (hname : d.name = "refs/heads/stale".toList)
    (hpeer : d.peer_ref = none)
    (hu : ∀ j q, dst.get? j = some q → is_strong_match "refs/heads/stale".toList q.name → j = k) :
    match_refs get_sha1 src dst [":refs/heads/stale".toList] all =
      outcome.ret (0, dst.set k
        { d with peer_ref := some (peer.obj "(delete)".toList null_sha1 null_sha1 0),
                 force := 0 }) := by
  have hp : parse_ref_spec [":refs/heads/stale".toList] =
      [{ force := false, pattern := false, src := some [],
         dst := some "refs/heads/stale".toList }] := by decide
  have hne : dst.isEmpty = false := by
    cases dst with
    | nil => simp at hk
    | cons x xs => rfl
  have hc : count_refspec_match [] src = (0, none) :=
    count_refspec_match_no_match [] src
      (fun r hr => not_is_refspec_match_nil r.name (hsrc r hr).1 (hsrc r hr).2)
  have hms : match_explicit_src get_sha1 src [] =
      some (peer.obj "(delete)".toList null_sha1 null_sha1 0, "(delete)".toList) := by
    unfold match_explicit_src
    rw [hc]
    rfl
  have hstrong : is_strong_match "refs/heads/stale".toList d.name := by
    rw [hname]
    decide
  have hmd : match_explicit_dst false dst "refs/heads/stale".toList = (some (k, d), dst) := by
    unfold match_explicit_dst
    rw [show dst_seen false dst = dst from rfl,
      count_refspec_match_one_strong "refs/heads/stale".toList dst k d hk hstrong hu]
  have hme := match_explicit_bind get_sha1 src false dst
    { force := false, pattern := false, src := some [], dst := some "refs/heads/stale".toList }
    [] _ _ k d dst rfl rfl hms hmd hpeer
  have hrem := match_refs_remainder_no_pattern
    [{ force := false, pattern := false, src := some [],
       dst := some "refs/heads/stale".toList }] all false
    (by simp) (by simp) src 0
    (dst.set k { d with peer_ref := some (peer.obj "(delete)".toList null_sha1 null_sha1 0),
                        force := bit false })
  unfold match_refs
  rw [hp]
  simp only [hne]
  rw [match_explicit_refs_single get_sha1 src false dst _ 0 _ hme]
  simp only [Nat.cast_zero, neg_zero, ne_eq, not_true_eq_false, if_false]
  rw [hrem]
  rfl

/-- C5 amended, at a local list with one branch and a remote list holding
`refs/heads/stale` after another branch. -/
theorem match_refs_delete_witness :
    match_refs (fun _ => none)
      [{ name := "refs/heads/master".toList, old_sha1 := [], new_sha1 := [7], force := 0,
         peer_ref := none }]
      [{ name := "refs/heads/master".toList, old_sha1 := [1], new_sha1 := [], force := 0,
         peer_ref := none },
       { name := "refs/heads/stale".toList, old_sha1 := [2], new_sha1 := [], force := 0,
         peer_ref := none }]
      [":refs/heads/stale".toList] 0 =
    outcome.ret (0,
      [{ name := "refs/heads/master".toList, old_sha1 := [1], new_sha1 := [], force := 0,
         peer_ref := none },
       { name := "refs/heads/stale".toList, old_sha1 := [2], new_sha1 := [], force := 0,
         peer_ref := some (peer.obj "(delete)".toList null_sha1 null_sha1 0) }]) :=
  match_refs_delete (fun _ => none) _ _ 0 1
    { name := "refs/heads/stale".toList, old_sha1 := [2], new_sha1 := [], force := 0,
      peer_ref := none }
    (by decide) (by decide) (by decide) (by decide)
    (by
      intro j q hj hq
      match j, hj with
      | 0, hj =>
        simp only [List.get?_cons_zero, Option.some.injEq] at hj
        subst hj
        exact absurd hq (by decide)
      | 1, _ => rfl
      | j + 2, hj => simp at hj)

/-- C6 on an empty remote list: with the local refs `refs/heads/a` and `refs/heads/b`,
the rules `a:refs/heads/x` and `b:refs/heads/x` and no remote ref, `match_refs` returns
0 and leaves two destinations named `refs/heads/x`, the first bound to `a` and the
second to `b`: the parameter `dst` is `NULL` throughout, so the second rule does not
see the destination the first rule linked in through `dst_tail`. -/
theorem match_refs_double_binding_empty_remote :
    match_refs (fun _ => none)
      [{ name := "refs/heads/a".toList, old_sha1 := [], new_sha1 := [1], force := 0,
         peer_ref := none },
       { name := "refs/heads/b".toList, old_sha1 := [], new_sha1 := [2], force := 0,
         peer_ref := none }]
      []
      ["a:refs/heads/x".toList, "b:refs/heads/x".toList] 0 =
    outcome.ret (0,
      [{ name := "refs/heads/x".toList, old_sha1 := null_sha1, new_sha1 := null_sha1, force := 0,
         peer_ref := some (peer.node 0) },
       { name := "refs/heads/x".toList, old_sha1 := null_sha1, new_sha1 := null_sha1, force := 0,
         peer_ref := some (peer.node 1) }]) := by decide

theorem find_ref_by_name_abbrev_none (refs : List ref) (name : cstr)
    (h : ∀ r ∈ refs, ref_matches_abbrev name r.name = false) :
    find_ref_by_name_abbrev refs name = none := by
  induction refs with
  | nil => rfl
  | cons x xs ih =>
    rw [find_ref_by_name_abbrev, h x (List.mem_cons_self _ _)]
    simp only [Bool.false_eq_true, if_false]
    exact ih (fun r hr => h r (List.mem_cons_of_mem _ hr))

theorem find_ref_by_name_abbrev_first (pre post : List ref) (r : ref) (name : cstr)
    (hpre : ∀ q ∈ pre, ref_matches_abbrev name q.name = false)
    (hr : ref_matches_abbrev name r.name = true) :
    find_ref_by_name_abbrev (pre ++ r :: post) name = some r := by
  induction pre with
  | nil => simp [find_ref_by_name_abbrev, hr]
  | cons x xs ih =>
    rw [List.cons_append, find_ref_by_name_abbrev, hpre x (List.mem_cons_self _ _)]
    simp only [Bool.false_eq_true, if_false]
    exact ih (fun q hq => hpre q (List.mem_cons_of_mem _ hq))

/-- C10: for a non-glob fetch rule with source `s`, `get_fetch_map` looks up `s`, or
`HEAD` when `s` is empty, among the remote refs under the abbreviation rules of
`ref_matches_abbrev`. If no remote ref matches and `missing_ok` is set it returns 0 and
the map is unchanged; if none matches and `missing_ok` is not set it dies; if a remote
ref matches, a normal return appends exactly one entry, a copy of the first matching
remote ref whose peer is the local ref made from the destination of the rule. -/
theorem get_fetch_map_non_glob (check_ref_format : cstr → Int) (remote_refs : List ref)
    (rs : refspec) (s : cstr) (map : List ref) (missing_ok : Int)
    (hpat : rs.pattern = false) (hs : rs.src = some s) :
    (∀ name, name = (if s ≠ [] then s else "HEAD".toList) →
      (∀ r ∈ remote_refs, ref_matches_abbrev name r.name = false) →
      (missing_ok ≠ 0 →
        get_fetch_map check_ref_format remote_refs rs map missing_ok = outcome.ret (0, map)) ∧
      (missing_ok = 0 →
        get_fetch_map check_ref_format remote_refs rs map missing_ok =
          outcome.died (msg_no_remote_ref name))) ∧
    (∀ name pre r post, name = (if s ≠ [] then s else "HEAD".toList) →
      remote_refs = pre ++ r :: post →
      (∀ q ∈ pre, ref_matches_abbrev name q.name = false) →
      ref_matches_abbrev name r.name = true →
      ∀ out, get_fetch_map check_ref_format remote_refs rs map missing_ok = outcome.ret out →
        out = (0, map ++
          [{ r with
             peer_ref := if rs.force then (get_local_ref rs.dst).map peer_set_force
                         else get_local_ref rs.dst }])) := by
  constructor
  · intro name hname habs
    have hf : get_remote_ref remote_refs name = none :=
      find_ref_by_name_abbrev_none remote_refs name habs
    simp only [ne_eq, ite_not] at hname
    constructor
    · intro hm
      simp only [get_fetch_map, hpat, hs, ne_eq, ite_not, Bool.false_eq_true, if_false]
      rw [← hname, hf]
      simp [hm, check_peers]
    · intro hm
      simp only [get_fetch_map, hpat, hs, ne_eq, ite_not, Bool.false_eq_true, if_false]
      rw [← hname, hf]
      simp [hm]
  · intro name pre r post hname hrem hpre hr out hout
    have hf : get_remote_ref remote_refs name = some r := by
      rw [hrem]
      exact find_ref_by_name_abbrev_first pre post r name hpre hr
    simp only [ne_eq, ite_not] at hname
    simp only [get_fetch_map, hpat, hs, ne_eq, ite_not, Bool.false_eq_true, if_false] at hout
    rw [← hname, hf] at hout
    simp only at hout
    split at hout
    · simp at hout
    · simp at hout
    · simp at hout
    · simp only [outcome.ret.injEq] at hout
      exact hout.symm

/-- C10 at the rule with an empty source and a remote list without `HEAD`: with
`missing_ok` set the map is unchanged, without it the call dies. -/
theorem get_fetch_map_non_glob_witness :
    get_fetch_map (fun _ => 0)
      [{ name := "refs/heads/master".toList, old_sha1 := [1], new_sha1 := [], force := 0,
         peer_ref := none }]
      { force := false, pattern := false, src := some [], dst := none } [] 1 =
      outcome.ret (0, []) ∧
    get_fetch_map (fun _ => 0)
      [{ name := "refs/heads/master".toList, old_sha1 := [1], new_sha1 := [], force := 0,
         peer_ref := none }]
      { force := false, pattern := false, src := some [], dst := none } [] 0 =
      outcome.died (msg_no_remote_ref "HEAD".toList) :=
  ⟨((get_fetch_map_non_glob (fun _ => 0)
      [{ name := "refs/heads/master".toList, old_sha1 := [1], new_sha1 := [], force := 0,
         peer_ref := none }]
      { force := false, pattern := false, src := some [], dst := none } [] [] 1 rfl rfl).1
      "HEAD".toList (by decide) (by decide)).1 (by decide),
   ((get_fetch_map_non_glob (fun _ => 0)
      [{ name := "refs/heads/master".toList, old_sha1 := [1], new_sha1 := [], force := 0,
         peer_ref := none }]
      { force := false, pattern := false, src := some [], dst := none } [] [] 0 rfl rfl).1
      "HEAD".toList (by decide) (by decide)).2 (by decide)⟩

theorem parse_ref_spec_one_src_isSome (str : cstr) : (parse_ref_spec_one str).src.isSome = true := by
  unfold parse_ref_spec_one
  simp only
  split <;> rfl

theorem parse_ref_spec_src_isSome (strs : List cstr) :
    ∀ r ∈ parse_ref_spec strs, r.src.isSome = true := by
  intro r hr
  unfold parse_ref_spec at hr
  obtain ⟨str, _, rfl⟩ := List.mem_map.mp hr
  exact parse_ref_spec_one_src_isSome str

theorem lor_of_le_one (a b : Nat) (hb : b ≤ 1) (hab : a ≤ b) : a ||| b = b := by
  have ha : a ≤ 1 := Nat.le_trans hab hb
  interval_cases a <;> interval_cases b <;> rfl

theorem match_explicit_returns (get_sha1 : cstr → Option (List Nat)) (src : List ref)
    (dst_null : Bool) (dst : List ref) (rs : refspec) (e : Nat)
    (hs : rs.src.isSome = true) (he : e ≤ 1) :
    ∃ e2 out, match_explicit get_sha1 src dst_null dst rs e = outcome.ret (e2, out) ∧
      e2 ≤ 1 ∧ e ≤ e2 := by
  obtain ⟨s, hs⟩ := Option.isSome_iff_exists.mp hs
  unfold match_explicit
  by_cases hp : rs.pattern = true
  · rw [if_pos hp]
    exact ⟨e, dst, rfl, he, Nat.le_refl e⟩
  · rw [if_neg hp]
    simp only [hs]
    generalize match_explicit_src get_sha1 src s = ms
    have hle : e ≤ (if ms.isNone = true then 1 else e) ∧
        (if ms.isNone = true then 1 else e) ≤ 1 := by
      split <;> omega
    generalize (if ms.isNone = true then 1 else e) = e1 at hle
    generalize match_explicit_dst_value rs.dst ms = dv
    cases dv with
    | none => exact ⟨e1, dst, rfl, hle.2, hle.1⟩
    | some v =>
      simp only
      rcases match_explicit_dst dst_null dst v with ⟨_ | ⟨k, d⟩, dst2⟩
      · exact ⟨1, dst2, rfl, Nat.le_refl 1, he⟩
      · simp only
        by_cases h1 : e1 ≠ 0
        · rw [if_pos h1]
          exact ⟨1, dst2, rfl, Nat.le_refl 1, he⟩
        · rw [if_neg h1]
          by_cases h2 : d.peer_ref.isSome = true
          · rw [if_pos h2]
            exact ⟨1, dst2, rfl, Nat.le_refl 1, he⟩
          · rw [if_neg h2]
            exact ⟨e1, _, rfl, hle.2, hle.1⟩

theorem match_explicit_refs_loop_returns (get_sha1 : cstr → Option (List Nat)) (src : List ref)
    (dst_null : Bool) (rs : List refspec) :
    ∀ (e : Nat) (dst : List ref), (∀ r ∈ rs, r.src.isSome = true) → e ≤ 1 →
      ∃ e2 out, match_explicit_refs_loop get_sha1 src dst_null rs e dst = outcome.ret (e2, out) ∧
        e2 ≤ 1 ∧ e ≤ e2 := by
  induction rs with
  | nil => intro e dst _ he; exact ⟨e, dst, rfl, he, Nat.le_refl e⟩
  | cons r rest ih =>
    intro e dst hs he
    obtain ⟨e1, d1, h1, h1le, h1ge⟩ :=
      match_explicit_returns get_sha1 src dst_null dst r e (hs r (List.mem_cons_self _ _)) he
    rw [match_explicit_refs_loop, h1]
    simp only
    rw [lor_of_le_one e e1 h1le h1ge]
    obtain ⟨e2, out, h2, h2le, h2ge⟩ :=
      ih e1 d1 (fun q hq => hs q (List.mem_cons_of_mem _ hq)) h1le
    exact ⟨e2, out, h2, h2le, Nat.le_trans h1ge h2ge⟩

theorem match_explicit_src_unresolved (get_sha1 : cstr → Option (List Nat)) (src : List ref)
    (s : cstr)
    (h : 1 < (count_refspec_match s src).1 ∨
      ((count_refspec_match s src).1 = 0 ∧ s ≠ [] ∧ get_sha1 s = none)) :
    match_explicit_src get_sha1 src s = none := by
  unfold match_explicit_src
  rcases hc : count_refspec_match s src with ⟨n, m⟩
  rw [hc] at h
  simp only at h
  rcases h with h | ⟨h0, hne, hg⟩
  · match n, h with
    | n + 2, _ => rfl
  · subst h0
    simp only [try_explicit_object_name, hne, if_false, hg]

theorem match_explicit_unresolved (get_sha1 : cstr → Option (List Nat)) (src : List ref)
    (dst_null : Bool) (dst : List ref) (rs : refspec) (s : cstr) (e : Nat)
    (hpat : rs.pattern = false) (hs : rs.src = some s)
    (hms : match_explicit_src get_sha1 src s = none) :
    ∃ extra, match_explicit get_sha1 src dst_null dst rs e = outcome.ret (1, dst ++ extra) ∧
      ∀ x ∈ extra, x.peer_ref = none := by
  unfold match_explicit
  rw [if_neg (by simp [hpat])]
  simp only [hs, hms, Option.isNone_none, if_true]
  cases hdv : match_explicit_dst_value rs.dst none with
  | none => exact ⟨[], by simp, by simp⟩
  | some v =>
    simp only
    unfold match_explicit_dst
    rcases count_refspec_match v (dst_seen dst_null dst) with ⟨n, m⟩
    match n with
    | 0 =>
      simp only
      by_cases hv : v.take 5 = "refs/".toList
      · rw [if_pos hv]
        refine ⟨[alloc_ref v], by simp, ?_⟩
        intro x hx
        simp only [List.mem_singleton] at hx
        subst hx
        rfl
      · rw [if_neg hv]
        exact ⟨[], by simp, by simp⟩
    | 1 =>
      simp only
      cases m with
      | none => exact ⟨[], by simp, by simp⟩
      | some kd => exact ⟨[], by simp, by simp⟩
    | n + 2 => exact ⟨[], by simp, by simp⟩

theorem match_explicit_refs_loop_unresolved (get_sha1 : cstr → Option (List Nat))
    (src : List ref) (dst_null : Bool) (bad : refspec) (s : cstr)
    (hpat : bad.pattern = false) (hs : bad.src = some s)
    (hms : match_explicit_src get_sha1 src s = none) (rs : List refspec) :
    ∀ (e : Nat) (dst : List ref), (∀ r ∈ rs, r.src.isSome = true) → e ≤ 1 → bad ∈ rs →
      ∃ out, match_explicit_refs_loop get_sha1 src dst_null rs e dst = outcome.ret (1, out) := by
  induction rs with
  | nil => intro e dst _ _ hb; simp at hb
  | cons r rest ih =>
    intro e dst hsome he hb
    have hrest : ∀ q ∈ rest, q.src.isSome = true :=
      fun q hq => hsome q (List.mem_cons_of_mem _ hq)
    rcases List.mem_cons.mp hb with hbr | hbr
    · subst hbr
      obtain ⟨extra, hx, _⟩ :=
        match_explicit_unresolved get_sha1 src dst_null dst bad s e hpat hs hms
      rw [match_explicit_refs_loop, hx]
      simp only
      rw [lor_of_le_one e 1 (Nat.le_refl 1) he]
      obtain ⟨e2, out, h2, h2le, h2ge⟩ :=
        match_explicit_refs_loop_returns get_sha1 src dst_null rest 1 (dst ++ extra) hrest
          (Nat.le_refl 1)
      have : e2 = 1 := by omega
      subst this
      exact ⟨out, h2⟩
    · obtain ⟨e1, d1, h1, h1le, h1ge⟩ :=
        match_explicit_returns get_sha1 src dst_null dst r e
          (hsome r (List.mem_cons_self _ _)) he
      rw [match_explicit_refs_loop, h1]
      simp only
      rw [lor_of_le_one e e1 h1le h1ge]
      exact ih e1 d1 hrest h1le hbr

/-- C8: a non-glob push rule whose source matches more than one local ref, or whose
non-empty source matches no local ref and is not an object name (`get_sha1` fails),
makes `match_refs` return -1 whatever the other rules are; the call of `match_explicit`
for that rule reports an error, leaves every ref of the remote list as it was, and a
destination it appends stays without a peer. -/
theorem match_refs_unresolved_source (get_sha1 : cstr → Option (List Nat)) (src dst : List ref)
    (strs : List cstr) (all : Int) (str s : cstr) (hmem : str ∈ strs)
    (hpat : (parse_ref_spec_one str).pattern = false)
    (hs : (parse_ref_spec_one str).src = some s)
    (h : 1 < (count_refspec_match s src).1 ∨
      ((count_refspec_match s src).1 = 0 ∧ s ≠ [] ∧ get_sha1 s = none)) :
    (∃ out, match_refs get_sha1 src dst strs all = outcome.ret (-1, out)) ∧
    (∀ (dst_null : Bool) (d0 : List ref) (e : Nat), ∃ extra,
      match_explicit get_sha1 src dst_null d0 (parse_ref_spec_one str) e =
        outcome.ret (1, d0 ++ extra) ∧
      ∀ x ∈ extra, x.peer_ref = none) := by
  have hms := match_explicit_src_unresolved get_sha1 src s h
  constructor
  · have hb : parse_ref_spec_one str ∈ parse_ref_spec strs := List.mem_map.mpr ⟨str, hmem, rfl⟩
    obtain ⟨out, hout⟩ := match_explicit_refs_loop_unresolved get_sha1 src dst.isEmpty
      (parse_ref_spec_one str) s hpat hs hms (parse_ref_spec strs) 0 dst
      (parse_ref_spec_src_isSome strs) (Nat.zero_le 1) hb
    refine ⟨out, ?_⟩
    unfold match_refs match_explicit_refs
    simp only [hout]
    simp
  · intro dst_null d0 e
    exact match_explicit_unresolved get_sha1 src dst_null d0 (parse_ref_spec_one str) s e
      hpat hs hms

/-- C8 at a local list in which the source `x` matches a branch and a tag. -/
theorem match_refs_unresolved_source_witness :
    ∃ out, match_refs (fun _ => none)
      [{ name := "refs/heads/x".toList, old_sha1 := [], new_sha1 := [1], force := 0,
         peer_ref := none },
       { name := "refs/tags/x".toList, old_sha1 := [], new_sha1 := [2], force := 0,
         peer_ref := none }]
      [] ["x:refs/heads/y".toList] 0 = outcome.ret (-1, out) :=
  (match_refs_unresolved_source (fun _ => none)
    [{ name := "refs/heads/x".toList, old_sha1 := [], new_sha1 := [1], force := 0,
       peer_ref := none },
     { name := "refs/tags/x".toList, old_sha1 := [], new_sha1 := [2], force := 0,
       peer_ref := none }]
    [] ["x:refs/heads/y".toList] 0 "x:refs/heads/y".toList "x".toList
    (by decide) (by decide) (by decide) (Or.inl (by decide))).1

theorem find_ref_by_name_some (l : List ref) (name : cstr) :
    ∀ (k : Nat) (d : ref), find_ref_by_name l name = some (k, d) →
      l.get? k = some d ∧ d.name = name := by
  induction l with
  | nil => intro k d h; simp [find_ref_by_name] at h
  | cons x xs ih =>
    intro k d h
    rw [find_ref_by_name] at h
    by_cases hx : x.name = name
    · rw [if_pos hx] at h
      simp only [Option.some.injEq, Prod.mk.injEq] at h
      obtain ⟨rfl, rfl⟩ := h
      exact ⟨rfl, hx⟩
    · rw [if_neg hx] at h
      cases hf : find_ref_by_name xs name with
      | none => simp [hf] at h
      | some kd =>
        obtain ⟨k0, d0⟩ := kd
        rw [hf] at h
        simp only [Option.map_some', Option.some.injEq, Prod.mk.injEq] at h
        obtain ⟨rfl, rfl⟩ := h
        have := ih k0 d0 hf
        exact ⟨by simpa using this.1, this.2⟩

theorem find_ref_by_name_none (l : List ref) (name : cstr)
    (h : find_ref_by_name l name = none) : ∀ d ∈ l, d.name ≠ name := by
  induction l with
  | nil => intro d hd; simp at hd
  | cons x xs ih =>
    rw [find_ref_by_name] at h
    by_cases hx : x.name = name
    · rw [if_pos hx] at h
      simp at h
    · rw [if_neg hx] at h
      have hf : find_ref_by_name xs name = none := by
        cases hf : find_ref_by_name xs name with
        | none => rfl
        | some kd => simp [hf] at h
      intro d hd
      rcases List.mem_cons.mp hd with rfl | hd
      · exact hx
      · exact ih hf d hd

theorem match_refs_step_cases (rs : List refspec) (all : Int) (dst_null : Bool) (i : Nat)
    (s : ref) (cur out : List ref)
    (h : match_refs_step rs all dst_null i s cur = outcome.ret out) :
    out = cur ∨
    (s.peer_ref = none ∧ ∃ pat dst_name, pick_pattern rs s = outcome.ret (some pat) ∧
      remainder_dst_name pat s = outcome.ret dst_name ∧
      ((∃ k d, find_ref_by_name (dst_seen dst_null cur) dst_name = some (k, d) ∧
          d.peer_ref = none ∧
          out = cur.set k { d with peer_ref := some (peer.node i),
                                   force := remainder_force pat d.force }) ∨
       (find_ref_by_name (dst_seen dst_null cur) dst_name = none ∧
          ¬ (rs.length = 0 ∧ all = 0) ∧
          out = cur ++ [{ alloc_ref dst_name with
                          new_sha1 := s.new_sha1,
                          peer_ref := some (peer.node i),
                          force := remainder_force pat 0 }]))) := by
  unfold match_refs_step at h
  by_cases hp : s.peer_ref.isSome = true
  · rw [if_pos hp] at h
    simp only [outcome.ret.injEq] at h
    exact Or.inl h.symm
  · rw [if_neg hp] at h
    have hpn : s.peer_ref = none := by
      cases hs : s.peer_ref with
      | none => rfl
      | some x => simp [hs] at hp
    rcases hpk : pick_pattern rs s with (_ | pat) | msg | _
    · rw [hpk] at h
      simp only [outcome.ret.injEq] at h
      exact Or.inl h.symm
    · rw [hpk] at h
      simp only at h
      rcases hdn : remainder_dst_name pat s with dst_name | msg | _
      · rw [hdn] at h
        simp only at h
        rcases hf : find_ref_by_name (dst_seen dst_null cur) dst_name with _ | ⟨k, d⟩
        · rw [hf] at h
          simp only at h
          by_cases hc : rs.length = 0 ∧ all = 0
          · rw [if_pos hc] at h
            simp only [outcome.ret.injEq] at h
            exact Or.inl h.symm
          · rw [if_neg hc] at h
            simp only [outcome.ret.injEq] at h
            exact Or.inr ⟨hpn, pat, dst_name, rfl, hdn, Or.inr ⟨hf, hc, h.symm⟩⟩
        · rw [hf] at h
          simp only at h
          by_cases hd : d.peer_ref.isSome = true
          · rw [if_pos hd] at h
            simp only [outcome.ret.injEq] at h
            exact Or.inl h.symm
          · rw [if_neg hd] at h
            simp only [outcome.ret.injEq] at h
            have hdn2 : d.peer_ref = none := by
              cases hs : d.peer_ref with
              | none => rfl
              | some x => simp [hs] at hd
            exact Or.inr ⟨hpn, pat, dst_name, rfl, hdn, Or.inl ⟨k, d, hf, hdn2, h.symm⟩⟩
      · rw [hdn] at h
        simp at h
      · rw [hdn] at h
        simp at h
    · rw [hpk] at h
      simp at h
    · rw [hpk] at h
      simp at h

theorem countP_set_of_false (p : ref → Bool) (l : List ref) :
    ∀ (k : Nat) (d x : ref), l.get? k = some d → p d = false →
      (l.set k x).countP p = l.countP p + (if p x = true then 1 else 0) := by
  induction l with
  | nil => intro k d x hk; simp at hk
  | cons y ys ih =>
    intro k d x hk hd
    cases k with
    | zero =>
      simp only [List.get?_cons_zero, Option.some.injEq] at hk
      subst hk
      simp only [List.set_cons_zero, List.countP_cons, hd, Bool.false_eq_true, if_false,
        Nat.add_zero]
    | succ k =>
      simp only [List.get?_cons_succ] at hk
      simp only [List.set_cons_succ, List.countP_cons, ih k d x hk hd]
      omega

theorem match_refs_step_bound (rs : List refspec) (all : Int) (dst_null : Bool) (i : Nat)
    (s : ref) (cur out : List ref)
    (h : match_refs_step rs all dst_null i s cur = outcome.ret out) (j : Nat) :
    bound_to j out = bound_to j cur ∨
    (j = i ∧ s.peer_ref = none ∧ bound_to j out = bound_to j cur + 1) := by
  rcases match_refs_step_cases rs all dst_null i s cur out h with
    rfl | ⟨hs, pat, dst_name, _, _, ⟨k, d, hf, hd, rfl⟩ | ⟨_, _, rfl⟩⟩
  · exact Or.inl rfl
  · have hk : cur.get? k = some d := by
      have := (find_ref_by_name_some (dst_seen dst_null cur) dst_name k d hf).1
      unfold dst_seen at this
      split at this
      · simp at this
      · exact this
    unfold bound_to
    rw [countP_set_of_false _ cur k d _ hk (by simp [hd])]
    by_cases hj : j = i
    · subst hj
      exact Or.inr ⟨rfl, hs, by simp⟩
    · left
      have : ¬ (i = j) := fun e => hj e.symm
      simp [this]
  · unfold bound_to
    rw [List.countP_append]
    by_cases hj : j = i
    · subst hj
      exact Or.inr ⟨rfl, hs, by simp [List.countP_cons]⟩
    · left
      have : ¬ (i = j) := fun e => hj e.symm
      simp [List.countP_cons, this]

theorem match_refs_remainder_bound (rs : List refspec) (all : Int) (dst_null : Bool)
    (l : List ref) :
    ∀ (i0 : Nat) (cur out : List ref),
      match_refs_remainder rs all dst_null i0 l cur = outcome.ret out → ∀ j : Nat,
        bound_to j cur ≤ bound_to j out ∧ bound_to j out ≤ bound_to j cur + 1 ∧
        ((j < i0 ∨ i0 + l.length ≤ j ∨ ∃ s, l.get? (j - i0) = some s ∧ s.peer_ref ≠ none) →
          bound_to j out = bound_to j cur) := by
  induction l with
  | nil =>
    intro i0 cur out h j
    simp only [match_refs_remainder, outcome.ret.injEq] at h
    subst h
    simp
  | cons s rest ih =>
    intro i0 cur out h j
    rw [match_refs_remainder] at h
    rcases hst : match_refs_step rs all dst_null i0 s cur with mid | msg | _
    · rw [hst] at h
      simp only at h
      obtain ⟨hA, hB, hC⟩ := ih (i0 + 1) mid out h j
      rcases match_refs_step_bound rs all dst_null i0 s cur mid hst j with hmid | ⟨hj, hs, hmid⟩
      · refine ⟨by omega, by omega, ?_⟩
        intro hcond
        rw [← hmid]
        apply hC
        rcases hcond with hlt | hge | ⟨t, ht, htp⟩
        · exact Or.inl (by omega)
        · simp only [List.length_cons] at hge
          exact Or.inr (Or.inl (by omega))
        · by_cases hji : j ≤ i0
          · exact Or.inl (by omega)
          · right
            right
            refine ⟨t, ?_, htp⟩
            have e : j - i0 = (j - (i0 + 1)) + 1 := by omega
            rw [e, List.get?_cons_succ] at ht
            exact ht
      · have hrest : bound_to j out = bound_to j mid := hC (Or.inl (by omega))
        refine ⟨by omega, by omega, ?_⟩
        intro hcond
        exfalso
        rcases hcond with hlt | hge | ⟨t, ht, htp⟩
        · omega
        · simp only [List.length_cons] at hge
          omega
        · subst hj
          simp only [Nat.sub_self, List.get?_cons_zero, Option.some.injEq] at ht
          subst ht
          exact htp hs
    · rw [hst] at h
      simp at h
    · rw [hst] at h
      simp at h

/-- C7, as stated, fails: with the local ref `refs/heads/a`, the remote refs
`refs/heads/a` and `refs/heads/b` and the rules `refs/heads/a:refs/heads/b` and
`refs/heads/*:refs/heads/*`, the explicit rule binds `refs/heads/b` to the source and
the glob rule then binds `refs/heads/a` to the same source, which ends as the peer of
two destinations. -/
theorem match_refs_explicit_then_glob :
    match_refs (fun _ => none)
      [{ name := "refs/heads/a".toList, old_sha1 := [], new_sha1 := [1], force := 0,
         peer_ref := none }]
      [{ name := "refs/heads/a".toList, old_sha1 := [2], new_sha1 := [], force := 0,
         peer_ref := none },
       { name := "refs/heads/b".toList, old_sha1 := [3], new_sha1 := [], force := 0,
         peer_ref := none }]
      ["refs/heads/a:refs/heads/b".toList, "refs/heads/*:refs/heads/*".toList] 0 =
    outcome.ret (0,
      [{ name := "refs/heads/a".toList, old_sha1 := [2], new_sha1 := [], force := 0,
         peer_ref := some (peer.node 0) },
       { name := "refs/heads/b".toList, old_sha1 := [3], new_sha1 := [], force := 0,
         peer_ref := some (peer.node 0) }]) ∧
    bound_to 0
      [{ name := "refs/heads/a".toList, old_sha1 := [2], new_sha1 := [], force := 0,
         peer_ref := some (peer.node 0) },
       { name := "refs/heads/b".toList, old_sha1 := [3], new_sha1 := [], force := 0,
         peer_ref := some (peer.node 0) }] = 2 := by
  constructor <;> decide

/-- C7, amended: in `match_refs` the second loop offers to the glob rules the source
refs whose own peer field is unset; the explicit rules set the peer of the destination
only, so a source ref they have bound is offered all the same. When `match_refs`
returns 0, `mid` being the remote list after the explicit rules and `out` the final
one, every source ref is the peer of as many destinations in `out` as in `mid` or of
one more, and of exactly as many when its own peer field is set. -/
theorem match_refs_second_loop_offers (get_sha1 : cstr → Option (List Nat))
    (src dst : List ref) (strs : List cstr) (all : Int) (out : List ref)
    (h : match_refs get_sha1 src dst strs all = outcome.ret (0, out)) :
    ∃ mid, match_explicit_refs get_sha1 src dst.isEmpty dst (parse_ref_spec strs) =
        outcome.ret (0, mid) ∧
      ∀ i s, src.get? i = some s →
        bound_to i mid ≤ bound_to i out ∧ bound_to i out ≤ bound_to i mid + 1 ∧
        (s.peer_ref ≠ none → bound_to i out = bound_to i mid) := by
  unfold match_refs at h
  simp only at h
  rcases hex : match_explicit_refs get_sha1 src dst.isEmpty dst (parse_ref_spec strs) with
    ⟨e, mid⟩ | msg | _
  · rw [hex] at h
    simp only at h
    by_cases he : e ≠ 0
    · rw [if_pos he] at h
      simp at h
    · rw [if_neg he] at h
      have he0 : e = 0 := by
        by_contra hc
        exact he hc
      subst he0
      rcases hrem : match_refs_remainder (parse_ref_spec strs) all dst.isEmpty 0 src mid with
        o | msg | _
      · rw [hrem] at h
        simp only [outcome.ret.injEq, Prod.mk.injEq, true_and] at h
        subst h
        refine ⟨mid, rfl, ?_⟩
        intro i s hi
        obtain ⟨hA, hB, hC⟩ :=
          match_refs_remainder_bound (parse_ref_spec strs) all dst.isEmpty src 0 mid o hrem i
        refine ⟨hA, hB, ?_⟩
        intro hs
        exact hC (Or.inr (Or.inr ⟨s, by simpa using hi, hs⟩))
      · rw [hrem] at h
        simp at h
      · rw [hrem] at h
        simp at h
  · rw [hex] at h
    simp at h
  · rw [hex] at h
    simp at h

/-- C7 amended, at the call in which the explicit rule and the glob rule both bind the
one source ref. -/
theorem match_refs_second_loop_offers_witness :
    ∃ mid, match_explicit_refs (fun _ => none)
        [{ name := "refs/heads/a".toList, old_sha1 := [], new_sha1 := [1], force := 0,
           peer_ref := none }]
        false
        [{ name := "refs/heads/a".toList, old_sha1 := [2], new_sha1 := [], force := 0,
           peer_ref := none },
         { name := "refs/heads/b".toList, old_sha1 := [3], new_sha1 := [], force := 0,
           peer_ref := none }]
        (parse_ref_spec ["refs/heads/a:refs/heads/b".toList, "refs/heads/*:refs/heads/*".toList]) =
        outcome.ret (0, mid) ∧
      ∀ i s,
        List.get?
          [({ name := "refs/heads/a".toList, old_sha1 := [], new_sha1 := [1], force := 0,
              peer_ref := none } : ref)] i = some s →
        bound_to i mid ≤ bound_to i
          [{ name := "refs/heads/a".toList, old_sha1 := [2], new_sha1 := [], force := 0,
             peer_ref := some (peer.node 0) },
           { name := "refs/heads/b".toList, old_sha1 := [3], new_sha1 := [], force := 0,
             peer_ref := some (peer.node 0) }] ∧
        bound_to i
          [{ name := "refs/heads/a".toList, old_sha1 := [2], new_sha1 := [], force := 0,
             peer_ref := some (peer.node 0) },
           { name := "refs/heads/b".toList, old_sha1 := [3], new_sha1 := [], force := 0,
             peer_ref := some (peer.node 0) }] ≤ bound_to i mid + 1 ∧
        (s.peer_ref ≠ none →
          bound_to i
            [{ name := "refs/heads/a".toList, old_sha1 := [2], new_sha1 := [], force := 0,
               peer_ref := some (peer.node 0) },
             { name := "refs/heads/b".toList, old_sha1 := [3], new_sha1 := [], force := 0,
               peer_ref := some (peer.node 0) }] = bound_to i mid) :=
  match_refs_second_loop_offers (fun _ => none)
    [{ name := "refs/heads/a".toList, old_sha1 := [], new_sha1 := [1], force := 0,
       peer_ref := none }]
    [{ name := "refs/heads/a".toList, old_sha1 := [2], new_sha1 := [], force := 0,
       peer_ref := none },
     { name := "refs/heads/b".toList, old_sha1 := [3], new_sha1 := [], force := 0,
       peer_ref := none }]
    ["refs/heads/a:refs/heads/b".toList, "refs/heads/*:refs/heads/*".toList] 0
    [{ name := "refs/heads/a".toList, old_sha1 := [2], new_sha1 := [], force := 0,
       peer_ref := some (peer.node 0) },
     { name := "refs/heads/b".toList, old_sha1 := [3], new_sha1 := [], force := 0,
       peer_ref := some (peer.node 0) }]
    (by decide)

theorem pick_pattern_nil (s : ref) :
    pick_pattern [] s =
      if "refs/heads/".toList <+: s.name then outcome.ret (some none) else outcome.ret none := by
  unfold pick_pattern
  have hl : ¬ (([] : List refspec).length ≠ 0) := fun hne => hne rfl
  by_cases h : "refs/heads/".toList <+: s.name
  · have h0 := (prefixcmp_eq_zero_iff s.name "refs/heads/".toList).mpr h
    rw [if_pos h, if_neg hl, if_neg (fun hne => hne h0)]
  · have h0 : prefixcmp s.name "refs/heads/".toList ≠ 0 :=
      fun e => h ((prefixcmp_eq_zero_iff s.name "refs/heads/".toList).mp e)
    rw [if_neg h, if_neg hl, if_pos h0]

theorem get?_dst_seen (dst_null : Bool) (cur : List ref) (k : Nat) (d : ref)
    (h : (dst_seen dst_null cur).get? k = some d) : cur.get? k = some d := by
  unfold dst_seen at h
  split at h
  · simp at h
  · exact h

theorem match_refs_step_nil_cases (all : Int) (dst_null : Bool) (i : Nat) (s : ref)
    (cur out : List ref) (h : match_refs_step [] all dst_null i s cur = outcome.ret out) :
    out = cur ∨
    (s.peer_ref = none ∧ "refs/heads/".toList <+: s.name ∧
      ((∃ k d, cur.get? k = some d ∧ d.name = s.name ∧ d.peer_ref = none ∧
          out = cur.set k { d with peer_ref := some (peer.node i) }) ∨
       (all ≠ 0 ∧
          out = cur ++ [{ alloc_ref s.name with
                          new_sha1 := s.new_sha1, peer_ref := some (peer.node i) }]))) := by
  rcases match_refs_step_cases [] all dst_null i s cur out h with
    rfl | ⟨hs, pat, dst_name, hpk, hdn, hcase⟩
  · exact Or.inl rfl
  · right
    rw [pick_pattern_nil] at hpk
    by_cases hh : "refs/heads/".toList <+: s.name
    · rw [if_pos hh] at hpk
      simp only [outcome.ret.injEq, Option.some.injEq] at hpk
      subst hpk
      simp only [remainder_dst_name, outcome.ret.injEq] at hdn
      subst hdn
      refine ⟨hs, hh, ?_⟩
      rcases hcase with ⟨k, d, hf, hd, rfl⟩ | ⟨_, hall, rfl⟩
      · left
        obtain ⟨hk, hname⟩ := find_ref_by_name_some (dst_seen dst_null cur) s.name k d hf
        exact ⟨k, d, get?_dst_seen dst_null cur k d hk, hname, hd, rfl⟩
      · right
        refine ⟨?_, rfl⟩
        intro h0
        exact hall ⟨rfl, h0⟩
    · rw [if_neg hh] at hpk
      simp at hpk

theorem match_refs_step_nil_returns (all : Int) (dst_null : Bool) (i : Nat) (s : ref)
    (cur : List ref) : ∃ out, match_refs_step [] all dst_null i s cur = outcome.ret out := by
  unfold match_refs_step
  by_cases hp : s.peer_ref.isSome = true
  · rw [if_pos hp]
    exact ⟨_, rfl⟩
  · rw [if_neg hp, pick_pattern_nil]
    by_cases hh : "refs/heads/".toList <+: s.name
    · rw [if_pos hh]
      simp only [remainder_dst_name]
      rcases find_ref_by_name (dst_seen dst_null cur) s.name with _ | ⟨k, d⟩
      · simp only
        by_cases hc : ([] : List refspec).length = 0 ∧ all = 0
        · rw [if_pos hc]
          exact ⟨_, rfl⟩
        · rw [if_neg hc]
          exact ⟨_, rfl⟩
      · simp only
        by_cases hd : d.peer_ref.isSome = true
        · rw [if_pos hd]
          exact ⟨_, rfl⟩
        · rw [if_neg hd]
          exact ⟨_, rfl⟩
    · rw [if_neg hh]
      exact ⟨_, rfl⟩

theorem map_name_set (cur : List ref) :
    ∀ (k : Nat) (d x : ref), cur.get? k = some d → x.name = d.name →
      (cur.set k x).map ref.name = cur.map ref.name := by
  induction cur with
  | nil => intro k d x hk; simp at hk
  | cons y ys ih =>
    intro k d x hk hx
    cases k with
    | zero =>
      simp only [List.get?_cons_zero, Option.some.injEq] at hk
      subst hk
      simp [hx]
    | succ k =>
      simp only [List.get?_cons_succ] at hk
      simp only [List.set_cons_succ, List.map_cons, ih k d x hk hx]

theorem match_refs_step_nil_names (all : Int) (dst_null : Bool) (i : Nat) (s : ref)
    (cur out : List ref) (h : match_refs_step [] all dst_null i s cur = outcome.ret out) :
    ∃ ext, out.map ref.name = cur.map ref.name ++ ext ∧ (all = 0 → ext = []) := by
  rcases match_refs_step_nil_cases all dst_null i s cur out h with
    rfl | ⟨_, _, ⟨k, d, hk, _, _, rfl⟩ | ⟨hall, rfl⟩⟩
  · exact ⟨[], by simp, fun _ => rfl⟩
  · exact ⟨[], by
      rw [map_name_set cur k d { d with peer_ref := some (peer.node i) } hk rfl]
      simp, fun _ => rfl⟩
  · exact ⟨[s.name], by simp [alloc_ref], fun h0 => absurd h0 hall⟩

theorem match_refs_step_nil_offered (all : Int) (dst_null : Bool) (i : Nat) (s : ref)
    (cur out : List ref) (h : match_refs_step [] all dst_null i s cur = outcome.ret out)
    (hall : all ≠ 0) (hs : s.peer_ref = none) (hh : "refs/heads/".toList <+: s.name) :
    s.name ∈ out.map ref.name := by
  unfold match_refs_step at h
  rw [if_neg (by simp [hs]), pick_pattern_nil, if_pos hh] at h
  simp only [remainder_dst_name] at h
  rcases hf : find_ref_by_name (dst_seen dst_null cur) s.name with _ | ⟨k, d⟩
  · rw [hf] at h
    simp only at h
    rw [if_neg (by simp [hall])] at h
    simp only [outcome.ret.injEq] at h
    subst h
    simp [alloc_ref]
  · rw [hf] at h
    simp only at h
    obtain ⟨hk, hname⟩ := find_ref_by_name_some (dst_seen dst_null cur) s.name k d hf
    have hk2 := get?_dst_seen dst_null cur k d hk
    have hin : s.name ∈ cur.map ref.name := by
      rw [← hname]
      exact List.mem_map.mpr ⟨d, List.get?_mem hk2, rfl⟩
    by_cases hd : d.peer_ref.isSome = true
    · rw [if_pos hd] at h
      simp only [outcome.ret.injEq] at h
      subst h
      exact hin
    · rw [if_neg hd] at h
      simp only [outcome.ret.injEq] at h
      subst h
      rw [map_name_set cur k d
        { d with peer_ref := some (peer.node i), force := remainder_force none d.force } hk2 rfl]
      exact hin

theorem get?_lt_length {α : Type} (l : List α) (k : Nat) (d : α) (hk : l.get? k = some d) :
    k < l.length := by
  by_contra hc
  rw [List.get?_eq_none.mpr (by omega)] at hk
  simp at hk

theorem get?_set_same {α : Type} (l : List α) (k : Nat) (d x : α) (hk : l.get? k = some d) :
    (l.set k x).get? k = some x := by
  have hlt := get?_lt_length l k d hk
  simp [List.getElem?_set, hlt]

theorem get?_set_other {α : Type} (l : List α) (k k0 : Nat) (x : α) (hk : k ≠ k0) :
    (l.set k0 x).get? k = l.get? k := by
  simp [List.getElem?_set, Ne.symm hk]

theorem get?_append_one {α : Type} (l : List α) (k : Nat) (x d : α)
    (h : (l ++ [x]).get? k = some d) : l.get? k = some d ∨ (k = l.length ∧ d = x) := by
  by_cases hlt : k < l.length
  · left
    simp only [List.get?_eq_getElem?, List.getElem?_append_left hlt] at h ⊢
    exact h
  · right
    have hk : k = l.length := by
      have := get?_lt_length (l ++ [x]) k d h
      simp at this
      omega
    subst hk
    simp at h
    exact ⟨rfl, h.symm⟩

theorem get?_append_of_some {α : Type} (l : List α) (k : Nat) (x d : α)
    (h : l.get? k = some d) : (l ++ [x]).get? k = some d := by
  have hlt := get?_lt_length l k d h
  simp only [List.get?_eq_getElem?, List.getElem?_append_left hlt] at h ⊢
  exact h

theorem match_refs_remainder_nil_spec (all : Int) (dst_null : Bool) (l : List ref) :
    ∀ (i0 : Nat) (cur : List ref), ∃ out,
      match_refs_remainder [] all dst_null i0 l cur = outcome.ret out ∧
      (∃ ext, out.map ref.name = cur.map ref.name ++ ext ∧ (all = 0 → ext = [])) ∧
      (∀ k d2, out.get? k = some d2 →
        cur.get? k = some d2 ∨
        ∃ i s, i0 ≤ i ∧ l.get? (i - i0) = some s ∧ d2.peer_ref = some (peer.node i) ∧
          d2.name = s.name ∧ "refs/heads/".toList <+: s.name ∧
          ∀ d, cur.get? k = some d →
            d.peer_ref = none ∧ d2 = { d with peer_ref := some (peer.node i) }) ∧
      (all ≠ 0 → ∀ s ∈ l, s.peer_ref = none → "refs/heads/".toList <+: s.name →
        s.name ∈ out.map ref.name) := by
  induction l with
  | nil =>
    intro i0 cur
    refine ⟨cur, rfl, ⟨[], by simp, fun _ => rfl⟩, fun k d2 hk => Or.inl hk, ?_⟩
    intro _ s hs
    simp at hs
  | cons s rest ih =>
    intro i0 cur
    obtain ⟨mid, hmid⟩ := match_refs_step_nil_returns all dst_null i0 s cur
    obtain ⟨out, hout, ⟨ext2, hN2, hN2z⟩, hA2, hC2⟩ := ih (i0 + 1) mid
    obtain ⟨ext1, hN1, hN1z⟩ := match_refs_step_nil_names all dst_null i0 s cur mid hmid
    have hcases := match_refs_step_nil_cases all dst_null i0 s cur mid hmid
    refine ⟨out, ?_, ⟨ext1 ++ ext2, ?_, ?_⟩, ?_, ?_⟩
    · rw [match_refs_remainder, hmid]
      exact hout
    · rw [hN2, hN1, List.append_assoc]
    · intro h0
      rw [hN1z h0, hN2z h0]
      rfl
    · intro k d2 hk
      rcases hA2 k d2 hk with hm | ⟨i, t, hi, ht, hp, hn, hh, hfr⟩
      · rcases hcases with rfl | ⟨hs, hhs, ⟨k0, d, hk0, hdn, hdp, rfl⟩ | ⟨_, rfl⟩⟩
        · exact Or.inl hm
        · by_cases hkk : k = k0
          · subst hkk
            rw [get?_set_same cur k d _ hk0] at hm
            simp only [Option.some.injEq] at hm
            subst hm
            right
            refine ⟨i0, s, Nat.le_refl i0, by simp, rfl, hdn, hhs, ?_⟩
            intro d3 hd3
            rw [hk0] at hd3
            simp only [Option.some.injEq] at hd3
            subst hd3
            exact ⟨hdp, rfl⟩
          · rw [get?_set_other cur k k0 _ hkk] at hm
            exact Or.inl hm
        · rcases get?_append_one cur k _ d2 hm with hc | ⟨hkl, hd2⟩
          · exact Or.inl hc
          · right
            subst hd2
            refine ⟨i0, s, Nat.le_refl i0, by simp, rfl, rfl, hhs, ?_⟩
            intro d3 hd3
            have := get?_lt_length cur k d3 hd3
            omega
      · right
        have e : i - i0 = (i - (i0 + 1)) + 1 := by omega
        refine ⟨i, t, by omega, by rw [e, List.get?_cons_succ]; exact ht, hp, hn, hh, ?_⟩
        intro d3 hd3
        rcases hcases with rfl | ⟨hs, hhs, ⟨k0, d, hk0, hdn, hdp, rfl⟩ | ⟨_, rfl⟩⟩
        · exact hfr d3 hd3
        · by_cases hkk : k = k0
          · subst hkk
            have hx := (hfr _ (get?_set_same cur k d _ hk0)).1
            simp at hx
          · apply hfr d3
            rw [get?_set_other cur k k0 _ hkk]
            exact hd3
        · exact hfr d3 (get?_append_of_some cur k _ d3 hd3)
    · intro hall t ht hp hh
      rcases List.mem_cons.mp ht with rfl | ht
      · have := match_refs_step_nil_offered all dst_null i0 t cur mid hmid hall hp hh
        rw [hN2]
        exact List.mem_append_left _ this
      · exact hC2 hall t ht hp hh

theorem match_refs_nil_eq (get_sha1 : cstr → Option (List Nat)) (src dst : List ref)
    (all : Int) (out : List ref)
    (h : match_refs_remainder [] all dst.isEmpty 0 src dst = outcome.ret out) :
    match_refs get_sha1 src dst [] all = outcome.ret (0, out) := by
  unfold match_refs
  simp only [parse_ref_spec, List.map_nil, match_explicit_refs, match_explicit_refs_loop]
  simp [h]

/-- C9: with no refspecs `match_refs` returns 0. Every ref of the resulting remote list
is either the ref the list had at that position or is bound to a local ref of the same
name that lies under `refs/heads/`, an existing ref being changed in its peer only and
only when it had none. With the all flag off the names of the list are unchanged, so
no ref is appended and a local branch absent remotely is skipped; with the all flag on,
an unbound local branch whose name no remote ref has gets an appended destination of
its name, bound to a local ref of that name. -/
theorem match_refs_no_refspec (get_sha1 : cstr → Option (List Nat)) (src dst : List ref)
    (all : Int) :
    ∃ out, match_refs get_sha1 src dst [] all = outcome.ret (0, out) ∧
      (∀ k d2, out.get? k = some d2 →
        dst.get? k = some d2 ∨
        ∃ i s, src.get? i = some s ∧ d2.peer_ref = some (peer.node i) ∧
          d2.name = s.name ∧ "refs/heads/".toList <+: s.name ∧
          ∀ d, dst.get? k = some d →
            d.peer_ref = none ∧ d2 = { d with peer_ref := some (peer.node i) }) ∧
      (all = 0 → out.map ref.name = dst.map ref.name) ∧
      (all ≠ 0 → ∀ s ∈ src, s.peer_ref = none → "refs/heads/".toList <+: s.name →
        (∀ d ∈ dst, d.name ≠ s.name) →
        ∃ k d2 j t, dst.length ≤ k ∧ out.get? k = some d2 ∧ d2.name = s.name ∧
          src.get? j = some t ∧ t.name = s.name ∧ d2.peer_ref = some (peer.node j)) := by
  obtain ⟨out, hout, ⟨ext, hN, hNz⟩, hA, hC⟩ :=
    match_refs_remainder_nil_spec all dst.isEmpty src 0 dst
  have hA2 : ∀ k d2, out.get? k = some d2 →
      dst.get? k = some d2 ∨
      ∃ i s, src.get? i = some s ∧ d2.peer_ref = some (peer.node i) ∧
        d2.name = s.name ∧ "refs/heads/".toList <+: s.name ∧
        ∀ d, dst.get? k = some d →
          d.peer_ref = none ∧ d2 = { d with peer_ref := some (peer.node i) } := by
    intro k d2 hk
    rcases hA k d2 hk with h | ⟨i, s, _, hs, hrest⟩
    · exact Or.inl h
    · exact Or.inr ⟨i, s, by simpa using hs, hrest⟩
  refine ⟨out, match_refs_nil_eq get_sha1 src dst all out hout, hA2, ?_, ?_⟩
  · intro h0
    rw [hN, hNz h0, List.append_nil]
  · intro hall s hs hp hh hno
    have hin := hC hall s hs hp hh
    rw [hN, List.mem_append] at hin
    rcases hin with hin | hin
    · obtain ⟨d, hd, hdn⟩ := List.mem_map.mp hin
      exact absurd hdn (hno d hd)
    · obtain ⟨n, hn⟩ := List.mem_iff_get?.mp hin
      have hk : (out.map ref.name).get? (dst.length + n) = some s.name := by
        rw [hN]
        simp only [List.get?_eq_getElem?] at hn ⊢
        rw [List.getElem?_append_right (by simp)]
        simpa using hn
      simp only [List.get?_eq_getElem?, List.getElem?_map] at hk
      rcases hd2 : out.get? (dst.length + n) with _ | d2
      · rw [List.get?_eq_getElem?] at hd2
        rw [hd2] at hk
        simp at hk
      · have hd3 := hd2
        rw [List.get?_eq_getElem?] at hd3
        rw [hd3] at hk
        simp only [Option.map_some', Option.some.injEq] at hk
        rcases hA2 (dst.length + n) d2 hd2 with h | ⟨j, t, ht, hpj, hnm, _, _⟩
        · have := get?_lt_length dst _ d2 h
          omega
        · exact ⟨dst.length + n, d2, j, t, Nat.le_add_right _ _, hd2, hk, ht,
            by rw [← hnm]; exact hk, hpj⟩

/-- C9 at one local branch, an empty remote list and the all flag on: the call
returns 0 and the branch gets an appended destination of its name. -/
theorem match_refs_no_refspec_witness :
    ∃ out, match_refs (fun _ => none)
        [{ name := "refs/heads/topic".toList, old_sha1 := [], new_sha1 := [1], force := 0,
           peer_ref := none }] [] [] 1 = outcome.ret (0, out) ∧
      ∃ k d2 j t, 0 ≤ k ∧ out.get? k = some d2 ∧ d2.name = "refs/heads/topic".toList ∧
        List.get?
          [({ name := "refs/heads/topic".toList, old_sha1 := [], new_sha1 := [1], force := 0,
              peer_ref := none } : ref)] j = some t ∧
        t.name = "refs/heads/topic".toList ∧ d2.peer_ref = some (peer.node j) :=
  let ⟨out, h, _, _, hc⟩ := match_refs_no_refspec (fun _ => none)
    [{ name := "refs/heads/topic".toList, old_sha1 := [], new_sha1 := [1], force := 0,
       peer_ref := none }] [] 1
  ⟨out, h, hc (by decide) _ (List.mem_singleton.mpr rfl) rfl (by decide) (by simp)⟩

theorem ref_at_cons_succ (i : Nat) (x : ref) (xs : List ref) (j : Nat) :
    ref_at i (x :: xs) (j + 1) = ref_at (i + 1) xs j := by
  unfold ref_at
  simp only [List.get?_cons_succ]
  cases xs.get? j with
  | none => rfl
  | some r =>
    simp only [Option.map_some', Option.some.injEq, Prod.mk.injEq, and_true]
    omega

theorem count_refspec_match_loop_char (pattern : cstr) (l : List ref) :
    ∀ (i : Nat) (st : match_state),
      (count_refspec_match_loop pattern i l st).matched =
        (match last_idx (strongb pattern) (l.map ref.name) with
         | some j => ref_at i l j
         | none => st.matched) ∧
      (count_refspec_match_loop pattern i l st).matched_weak =
        (match last_idx (weakb pattern) (l.map ref.name) with
         | some j => ref_at i l j
         | none => st.matched_weak) ∧
      (count_refspec_match_loop pattern i l st).strong_match =
        st.strong_match + (l.map ref.name).countP (strongb pattern) ∧
      (count_refspec_match_loop pattern i l st).weak_match =
        st.weak_match + (l.map ref.name).countP (weakb pattern) := by
  induction l with
  | nil => intro i st; simp [count_refspec_match_loop, last_idx]
  | cons x xs ih =>
    intro i st
    simp only [List.map_cons, last_idx, List.countP_cons]
    by_cases hm : is_refspec_match pattern x.name
    · by_cases hw : is_weak_match pattern x.name
      · have hsb : strongb pattern x.name = false := by
          simp [strongb, is_strong_match, hm, hw]
        have hwb : weakb pattern x.name = true := by
          simp [weakb, hm, hw]
        rw [count_refspec_match_loop_weak pattern i x xs st hm hw]
        obtain ⟨h1, h2, h3, h4⟩ := ih (i + 1)
          { st with matched_weak := some (i, x), weak_match := st.weak_match + 1 }
        rw [h1, h2, h3, h4, hsb, hwb]
        refine ⟨?_, ?_, by simp, by simp; omega⟩
        · cases last_idx (strongb pattern) (xs.map ref.name) with
          | none => simp
          | some j => simp only [ref_at_cons_succ]
        · cases last_idx (weakb pattern) (xs.map ref.name) with
          | none => simp [ref_at]
          | some j => simp only [ref_at_cons_succ]
      · have hsb : strongb pattern x.name = true := by
          simp [strongb, is_strong_match, hm, hw]
        have hwb : weakb pattern x.name = false := by
          simp [weakb, hw]
        rw [count_refspec_match_loop_strong pattern i x xs st ⟨hm, hw⟩]
        obtain ⟨h1, h2, h3, h4⟩ := ih (i + 1)
          { st with matched := some (i, x), strong_match := st.strong_match + 1 }
        rw [h1, h2, h3, h4, hsb, hwb]
        refine ⟨?_, ?_, by simp; omega, by simp⟩
        · cases last_idx (strongb pattern) (xs.map ref.name) with
          | none => simp [ref_at]
          | some j => simp only [ref_at_cons_succ]
        · cases last_idx (weakb pattern) (xs.map ref.name) with
          | none => simp
          | some j => simp only [ref_at_cons_succ]
    · have hsb : strongb pattern x.name = false := by
        simp [strongb, is_strong_match, hm]
      have hwb : weakb pattern x.name = false := by
        simp [weakb, hm]
      rw [count_refspec_match_loop_skip pattern i x xs st hm]
      obtain ⟨h1, h2, h3, h4⟩ := ih (i + 1) st
      rw [h1, h2, h3, h4, hsb, hwb]
      refine ⟨?_, ?_, by simp, by simp⟩
      · cases last_idx (strongb pattern) (xs.map ref.name) with
        | none => simp
        | some j => simp only [ref_at_cons_succ]
      · cases last_idx (weakb pattern) (xs.map ref.name) with
        | none => simp
        | some j => simp only [ref_at_cons_succ]

theorem last_idx_lt (q : cstr → Bool) (ns : List cstr) :
    ∀ j, last_idx q ns = some j → j < ns.length := by
  induction ns with
  | nil => intro j h; simp [last_idx] at h
  | cons n ns ih =>
    intro j h
    rw [last_idx] at h
    cases hl : last_idx q ns with
    | some k =>
      rw [hl] at h
      simp only [Option.some.injEq] at h
      have := ih k hl
      simp only [List.length_cons]
      omega
    | none =>
      rw [hl] at h
      simp only at h
      split at h
      · simp only [Option.some.injEq] at h
        simp only [List.length_cons]
        omega
      · simp at h

theorem last_idx_none_iff (q : cstr → Bool) (ns : List cstr) :
    last_idx q ns = none ↔ ns.countP q = 0 := by
  induction ns with
  | nil => simp [last_idx]
  | cons n ns ih =>
    rw [last_idx, List.countP_cons]
    cases hl : last_idx q ns with
    | some k =>
      have hne : ns.countP q ≠ 0 := fun h0 => by
        rw [ih.mpr h0] at hl
        simp at hl
      simp only [false_iff, reduceCtorEq]
      omega
    | none =>
      have h0 := ih.mp hl
      by_cases hq : q n = true
      · simp [hq]
      · simp [hq, h0]

theorem last_idx_append_one (q : cstr → Bool) (ns : List cstr) (n : cstr) :
    last_idx q (ns ++ [n]) = if q n then some ns.length else last_idx q ns := by
  induction ns with
  | nil => simp only [List.nil_append, last_idx, List.length_nil]
  | cons m ms ih =>
    rw [List.cons_append, last_idx, ih]
    by_cases hq : q n = true
    · simp [hq]
    · simp only [hq, Bool.false_eq_true, if_false]
      rfl

theorem count_refspec_match_char (pattern : cstr) (l : List ref) :
    count_refspec_match pattern l =
      match last_idx (strongb pattern) (l.map ref.name) with
      | some j => ((l.map ref.name).countP (strongb pattern), ref_at 0 l j)
      | none =>
        ((l.map ref.name).countP (weakb pattern),
          match last_idx (weakb pattern) (l.map ref.name) with
          | some j => ref_at 0 l j
          | none => none) := by
  obtain ⟨h1, h2, h3, h4⟩ := count_refspec_match_loop_char pattern l 0
    { matched_weak := none, matched := none, weak_match := 0, strong_match := 0 }
  unfold count_refspec_match
  simp only [h1, h2, h3, h4, Nat.zero_add]
  cases hl : last_idx (strongb pattern) (l.map ref.name) with
  | none => rfl
  | some j =>
    have hlt := last_idx_lt _ _ j hl
    simp only [List.length_map] at hlt
    simp only [ref_at, List.get?_eq_getElem?, List.getElem?_eq_getElem hlt, Option.map_some']

theorem count_refspec_match_valid (pattern : cstr) (l : List ref) (n k : Nat) (d : ref)
    (h : count_refspec_match pattern l = (n, some (k, d))) : l.get? k = some d := by
  rw [count_refspec_match_char] at h
  have key : ∀ j, ref_at 0 l j = some (k, d) → l.get? k = some d := by
    intro j hj
    unfold ref_at at hj
    cases hg : l.get? j with
    | none =>
      rw [hg] at hj
      simp at hj
    | some r =>
      rw [hg] at hj
      simp only [Option.map_some', Nat.zero_add, Option.some.injEq, Prod.mk.injEq] at hj
      obtain ⟨rfl, rfl⟩ := hj
      exact hg
  cases hl : last_idx (strongb pattern) (l.map ref.name) with
  | some j =>
    rw [hl] at h
    simp only [Prod.mk.injEq] at h
    exact key j h.2
  | none =>
    rw [hl] at h
    simp only [Prod.mk.injEq] at h
    cases hw : last_idx (weakb pattern) (l.map ref.name) with
    | some j =>
      rw [hw] at h
      exact key j h.2
    | none =>
      rw [hw] at h
      simp at h

theorem count_refspec_match_set (pattern : cstr) (l : List ref) (n k : Nat) (d x : ref)
    (h : count_refspec_match pattern l = (n, some (k, d))) (hx : x.name = d.name) :
    count_refspec_match pattern (l.set k x) = (n, some (k, x)) := by
  have hk := count_refspec_match_valid pattern l n k d h
  have hnames := map_name_set l k d x hk hx
  rw [count_refspec_match_char] at h ⊢
  rw [hnames]
  have key : ∀ j, ref_at 0 l j = some (k, d) → ref_at 0 (l.set k x) j = some (k, x) := by
    intro j hj
    unfold ref_at at hj ⊢
    cases hg : l.get? j with
    | none =>
      rw [hg] at hj
      simp at hj
    | some r =>
      rw [hg] at hj
      simp only [Option.map_some', Nat.zero_add, Option.some.injEq, Prod.mk.injEq] at hj
      obtain ⟨rfl, rfl⟩ := hj
      rw [get?_set_same l j r x hg]
      simp
  cases hl : last_idx (strongb pattern) (l.map ref.name) with
  | some j =>
    rw [hl] at h
    simp only [Prod.mk.injEq] at h ⊢
    exact ⟨h.1, key j h.2⟩
  | none =>
    rw [hl] at h
    simp only [Prod.mk.injEq] at h ⊢
    refine ⟨h.1, ?_⟩
    cases hw : last_idx (weakb pattern) (l.map ref.name) with
    | some j =>
      rw [hw] at h
      exact key j h.2
    | none =>
      rw [hw] at h
      simp at h

theorem strongb_self (pattern : cstr) : strongb pattern pattern = true := by
  simp [strongb, is_strong_match, is_refspec_match, is_weak_match]

theorem count_refspec_match_append_new (pattern : cstr) (l : List ref) (x : ref)
    (h : (count_refspec_match pattern l).1 = 0) (hx : x.name = pattern) :
    count_refspec_match pattern (l ++ [x]) = (1, some (l.length, x)) := by
  rw [count_refspec_match_char] at h ⊢
  have hs : last_idx (strongb pattern) (l.map ref.name) = none := by
    cases hl : last_idx (strongb pattern) (l.map ref.name) with
    | none => rfl
    | some j =>
      rw [hl] at h
      simp only at h
      have := (last_idx_none_iff (strongb pattern) (l.map ref.name)).mpr h
      rw [hl] at this
      simp at this
  have hc := (last_idx_none_iff (strongb pattern) (l.map ref.name)).mp hs
  simp only [List.map_append, List.map_cons, List.map_nil, last_idx_append_one, hx,
    strongb_self, if_true, List.length_map, List.countP_append, hc, List.countP_cons,
    List.countP_nil]
  simp [ref_at]

theorem set_length_append_one {α : Type} (l : List α) (a x : α) :
    (l ++ [a]).set l.length x = l ++ [x] := by
  induction l with
  | nil => rfl
  | cons y ys ih => simp only [List.cons_append, List.length_cons, List.set_cons_succ, ih]

theorem match_explicit_bound_after (get_sha1 : cstr → Option (List Nat)) (src dst : List ref)
    (rs : refspec) (s X : cstr) (dst1 : List ref)
    (hpat : rs.pattern = false) (hs : rs.src = some s) (hd : rs.dst = some X)
    (h : match_explicit get_sha1 src false dst rs 0 = outcome.ret (0, dst1)) :
    ∃ k d, count_refspec_match X dst1 = (1, some (k, d)) ∧ d.peer_ref.isSome = true := by
  unfold match_explicit at h
  rw [if_neg (by simp [hpat])] at h
  simp only [hs, hd, match_explicit_dst_value] at h
  rcases hms : match_explicit_src get_sha1 src s with _ | ⟨p, nm⟩
  · rw [hms] at h
    simp only [Option.isNone_none, if_true] at h
    split at h
    · simp at h
    · simp at h
  · rw [hms] at h
    simp only [Option.isNone_some, Bool.false_eq_true, if_false, Option.map_some'] at h
    unfold match_explicit_dst at h
    rw [show dst_seen false dst = dst from rfl] at h
    rcases hc : count_refspec_match X dst with ⟨n, m⟩
    rw [hc] at h
    match n, m, hc, h with
    | 0, m, hc, h =>
      simp only at h
      by_cases hv : X.take 5 = "refs/".toList
      · rw [if_pos hv] at h
        simp only [ne_eq, not_true_eq_false, if_false] at h
        rw [if_neg (by simp [alloc_ref])] at h
        simp only [outcome.ret.injEq, Prod.mk.injEq, true_and] at h
        subst h
        rw [set_length_append_one]
        exact ⟨dst.length, _, count_refspec_match_append_new X dst _ (by rw [hc]) rfl, rfl⟩
      · rw [if_neg hv] at h
        simp at h
    | 1, none, hc, h => simp at h
    | 1, some (k, d), hc, h =>
      simp only [ne_eq, not_true_eq_false, if_false] at h
      by_cases hdp : d.peer_ref.isSome = true
      · rw [if_pos hdp] at h
        simp at h
      · rw [if_neg hdp] at h
        simp only [outcome.ret.injEq, Prod.mk.injEq, true_and] at h
        subst h
        exact ⟨k, _, count_refspec_match_set X dst 1 k d _ hc rfl, rfl⟩
    | n + 2, m, hc, h => simp at h

theorem match_explicit_dst_taken (get_sha1 : cstr → Option (List Nat)) (src dst : List ref)
    (rs : refspec) (s X : cstr) (e k : Nat) (d : ref)
    (hpat : rs.pattern = false) (hs : rs.src = some s) (hd : rs.dst = some X)
    (hc : count_refspec_match X dst = (1, some (k, d))) (hp : d.peer_ref.isSome = true) :
    match_explicit get_sha1 src false dst rs e = outcome.ret (1, dst) := by
  unfold match_explicit
  rw [if_neg (by simp [hpat])]
  simp only [hs, hd, match_explicit_dst_value]
  unfold match_explicit_dst
  rw [show dst_seen false dst = dst from rfl, hc]
  simp only [hp, if_true]
  split
  · rfl
  · split <;> rfl

/-- Two rules with the same destination on a remote list that is not empty: the
explicit pass ends with an error, whatever the sources are. -/
theorem match_explicit_refs_same_dst (get_sha1 : cstr → Option (List Nat)) (src dst : List ref)
    (r1 r2 : refspec) (s1 s2 X : cstr)
    (hp1 : r1.pattern = false) (hs1 : r1.src = some s1) (hd1 : r1.dst = some X)
    (hp2 : r2.pattern = false) (hs2 : r2.src = some s2) (hd2 : r2.dst = some X) :
    ∃ out, match_explicit_refs get_sha1 src false dst [r1, r2] = outcome.ret (-1, out) := by
  obtain ⟨e1, d1, h1, h1le, _⟩ :=
    match_explicit_returns get_sha1 src false dst r1 0 (by simp [hs1]) (Nat.zero_le 1)
  unfold match_explicit_refs
  rw [match_explicit_refs_loop, h1]
  simp only [Nat.zero_or]
  rw [match_explicit_refs_loop]
  by_cases he : e1 = 0
  · subst he
    obtain ⟨k, d, hc, hp⟩ :=
      match_explicit_bound_after get_sha1 src dst r1 s1 X d1 hp1 hs1 hd1 h1
    rw [match_explicit_dst_taken get_sha1 src d1 r2 s2 X 0 k d hp2 hs2 hd2 hc hp]
    exact ⟨d1, by simp [match_explicit_refs_loop]⟩
  · have he1 : e1 = 1 := by omega
    subst he1
    obtain ⟨e2, d2, h2, h2le, h2ge⟩ :=
      match_explicit_returns get_sha1 src false d1 r2 1 (by simp [hs2]) (Nat.le_refl 1)
    have : e2 = 1 := by omega
    subst this
    rw [h2]
    exact ⟨d2, by simp [match_explicit_refs_loop]⟩

/-- C6 on every remote list that is not empty: for any local list, the rules
`a:refs/heads/x` and `b:refs/heads/x` make `match_refs` return -1. -/
theorem match_refs_double_binding_nonempty_remote (get_sha1 : cstr → Option (List Nat))
    (src dst : List ref) (all : Int) (hne : dst ≠ []) :
    ∃ out, match_refs get_sha1 src dst ["a:refs/heads/x".toList, "b:refs/heads/x".toList] all =
      outcome.ret (-1, out) := by
  have hp : parse_ref_spec ["a:refs/heads/x".toList, "b:refs/heads/x".toList] =
      [{ force := false, pattern := false, src := some "a".toList,
         dst := some "refs/heads/x".toList },
       { force := false, pattern := false, src := some "b".toList,
         dst := some "refs/heads/x".toList }] := by decide
  have hemp : dst.isEmpty = false := by
    cases dst with
    | nil => exact absurd rfl hne
    | cons x xs => rfl
  obtain ⟨out, hout⟩ := match_explicit_refs_same_dst get_sha1 src dst
    { force := false, pattern := false, src := some "a".toList,
      dst := some "refs/heads/x".toList }
    { force := false, pattern := false, src := some "b".toList,
      dst := some "refs/heads/x".toList }
    "a".toList "b".toList "refs/heads/x".toList rfl rfl rfl rfl rfl rfl
  refine ⟨out, ?_⟩
  unfold match_refs
  rw [hp]
  simp only [hemp]
  rw [hout]
  simp

/-! ### parse_ref_spec -/

theorem strchr_some_spec (s : cstr) (c : Char) : ∀ k, strchr s c = some k →
    s = s.take k ++ c :: s.drop (k + 1) ∧ c ∉ s.take k := by
  induction s with
  | nil => intro k h; simp [strchr] at h
  | cons x xs ih =>
    intro k h
    rw [strchr] at h
    by_cases hx : x = c
    · rw [if_pos hx] at h
      simp only [Option.some.injEq] at h
      subst h
      simp [hx]
    · rw [if_neg hx] at h
      cases hs : strchr xs c with
      | none => simp [hs] at h
      | some j =>
        rw [hs] at h
        simp only [Option.map_some', Option.some.injEq] at h
        subst h
        obtain ⟨h1, h2⟩ := ih j hs
        constructor
        · simp only [List.take_succ_cons, List.drop_succ_cons, List.cons_append]
          rw [← h1]
        · simp only [List.take_succ_cons, List.mem_cons, not_or]
          exact ⟨fun e => hx e.symm, h2⟩

theorem strchr_append_of_not_mem (a b : cstr) (c : Char) (h : c ∉ a) :
    strchr (a ++ b) c = (strchr b c).map (fun k => a.length + k) := by
  induction a with
  | nil => simp
  | cons x xs ih =>
    simp only [List.mem_cons, not_or] at h
    rw [List.cons_append, strchr, if_neg (fun e => h.1 e.symm), ih h.2]
    cases strchr b c with
    | none => rfl
    | some k => simp; omega

theorem takeWhile_of_strchr (s : cstr) (c : Char) :
    s.takeWhile (fun x => x != c) =
      match strchr s c with
      | some k => s.take k
      | none => s := by
  induction s with
  | nil => simp [strchr]
  | cons x xs ih =>
    rw [strchr]
    by_cases hx : x = c
    · simp [hx]
    · rw [if_neg hx]
      simp only [List.takeWhile_cons, bne_iff_ne, ne_eq, hx, not_false_eq_true, decide_True,
        if_true, ih]
      cases strchr xs c with
      | none => rfl
      | some k => rfl

theorem dropWhile_of_strchr (s : cstr) (c : Char) :
    s.dropWhile (fun x => x != c) =
      match strchr s c with
      | some k => s.drop k
      | none => [] := by
  induction s with
  | nil => simp [strchr]
  | cons x xs ih =>
    rw [strchr]
    by_cases hx : x = c
    · simp [hx]
    · rw [if_neg hx]
      simp only [List.dropWhile_cons, bne_iff_ne, ne_eq, hx, not_false_eq_true, decide_True,
        if_true, ih]
      cases strchr xs c with
      | none => rfl
      | some k => rfl

theorem parse_ref_spec_one_eq_body (s : cstr) :
    parse_ref_spec_one s = parse_ref_spec_body (has_plus s) (after_plus s) := rfl

theorem parse_ref_spec_body_force (f : Bool) (sp : cstr) :
    (parse_ref_spec_body f sp).force = f := by
  unfold parse_ref_spec_body
  simp only
  split <;> rfl

theorem parse_ref_spec_body_src (f : Bool) (sp : cstr) :
    ∃ src, (parse_ref_spec_body f sp).src = some src ∧ src <+: sp := by
  unfold parse_ref_spec_body
  simp only
  split
  · exact ⟨_, rfl, List.take_prefix _ _⟩
  · exact ⟨_, rfl, List.take_prefix _ _⟩

/-- C13: `parse_ref_spec` sets the force flag of a rule exactly when its string begins
with `+`, and the source of the rule is taken from the text after that `+` (it is an
initial part of the string without its leading `+`). -/
theorem parse_ref_spec_one_force (s : cstr) :
    ((parse_ref_spec_one s).force = true ↔ s.head? = some '+') ∧
    ∃ src, (parse_ref_spec_one s).src = some src ∧
      src <+: (if s.head? = some '+' then s.drop 1 else s) := by
  rw [parse_ref_spec_one_eq_body, parse_ref_spec_body_force]
  refine ⟨by simp [has_plus], ?_⟩
  obtain ⟨src, h1, h2⟩ := parse_ref_spec_body_src (has_plus s) (after_plus s)
  refine ⟨src, h1, ?_⟩
  unfold after_plus has_plus at h2
  simpa using h2

theorem parse_ref_spec_body_no_colon (f : Bool) (sp : cstr) (hc : strchr sp ':' = none) :
    parse_ref_spec_body f sp =
      match strchr sp '*' with
      | some g => { force := f, pattern := true, src := some (sp.take g), dst := none }
      | none => { force := f, pattern := false, src := some sp, dst := none } := by
  unfold parse_ref_spec_body
  simp only [hc]
  cases strchr sp '*' with
  | none => simp
  | some g => rfl

theorem parse_ref_spec_body_colon_last (f : Bool) (sp : cstr) (e : Nat)
    (hc : strchr sp ':' = some e) (ha : sp.drop (e + 1) = []) :
    parse_ref_spec_body f sp =
      match strchr sp '*' with
      | some g =>
        if g > e then { force := f, pattern := false, src := some (sp.take e), dst := none }
        else { force := f, pattern := true, src := some (sp.take g), dst := none }
      | none => { force := f, pattern := false, src := some (sp.take e), dst := none } := by
  unfold parse_ref_spec_body
  simp only [hc, ha]
  cases strchr sp '*' with
  | none => simp
  | some g =>
    by_cases hg : g > e
    · simp [hg]
    · simp [hg]

theorem parse_ref_spec_body_colon (f : Bool) (sp : cstr) (e : Nat)
    (hc : strchr sp ':' = some e) (ha : sp.drop (e + 1) ≠ []) :
    parse_ref_spec_body f sp =
      match strchr (sp.drop (e + 1)) '*' with
      | none =>
        { force := f, pattern := false, src := some (sp.take e), dst := some (sp.drop (e + 1)) }
      | some k =>
        match strchr sp '*' with
        | some g =>
          if g > e then
            { force := f, pattern := false, src := some (sp.take e),
              dst := some (sp.drop (e + 1)) }
          else
            { force := f, pattern := true, src := some (sp.take g),
              dst := some ((sp.drop (e + 1)).take k) }
        | none =>
          { force := f, pattern := false, src := some (sp.take e),
            dst := some (sp.drop (e + 1)) } := by
  unfold parse_ref_spec_body
  simp only [hc, ha, ne_eq, not_false_eq_true, if_true]
  cases strchr (sp.drop (e + 1)) '*' with
  | none => simp
  | some k =>
    cases strchr sp '*' with
    | none => simp
    | some g =>
      by_cases hg : g > e
      · simp [hg]
      · simp [hg]

theorem not_mem_after_plus (s : cstr) (c : Char) (h : c ∉ s) : c ∉ after_plus s := by
  unfold after_plus
  split
  · exact fun hc => h (List.mem_of_mem_drop hc)
  · exact h

/-- C14: for a refspec string without `*`, `parse_ref_spec` gives a rule that is not a
pattern, whose source is the text after the optional leading `+` up to the first `:`
(all of it when there is no `:`), and whose destination is the text after the first
`:`, unset when there is no `:` or nothing follows it. The string `:refs/heads/stale`
parses to an empty source with the destination `refs/heads/stale`. -/
theorem parse_ref_spec_one_no_glob (s : cstr) (h : '*' ∉ s) :
    parse_ref_spec_one s =
      { force := has_plus s, pattern := false,
        src := some ((after_plus s).takeWhile (fun c => c != ':')),
        dst := if ((after_plus s).dropWhile (fun c => c != ':')).drop 1 = [] then none
               else some (((after_plus s).dropWhile (fun c => c != ':')).drop 1) } ∧
    parse_ref_spec_one ":refs/heads/stale".toList =
      { force := false, pattern := false, src := some [],
        dst := some "refs/heads/stale".toList } := by
  refine ⟨?_, by decide⟩
  rw [parse_ref_spec_one_eq_body]
  have hsp := not_mem_after_plus s '*' h
  generalize after_plus s = sp at hsp
  have hstar : strchr sp '*' = none := (strchr_eq_none_iff sp '*').mpr hsp
  rw [takeWhile_of_strchr, dropWhile_of_strchr]
  cases hc : strchr sp ':' with
  | none =>
    rw [parse_ref_spec_body_no_colon _ sp hc, hstar]
    simp
  | some e =>
    simp only [List.drop_drop]
    by_cases ha : sp.drop (e + 1) = []
    · rw [parse_ref_spec_body_colon_last _ sp e hc ha, hstar]
      simp [ha]
    · have hstar2 : strchr (sp.drop (e + 1)) '*' = none :=
        (strchr_eq_none_iff _ '*').mpr (fun hm => hsp (List.mem_of_mem_drop hm))
      rw [parse_ref_spec_body_colon _ sp e hc ha, hstar2]
      simp [ha]

/-- C14 at the string `+refs/heads/a:refs/heads/b`. -/
theorem parse_ref_spec_one_no_glob_witness :
    parse_ref_spec_one "+refs/heads/a:refs/heads/b".toList =
      { force := true, pattern := false, src := some "refs/heads/a".toList,
        dst := some "refs/heads/b".toList } :=
  (parse_ref_spec_one_no_glob "+refs/heads/a:refs/heads/b".toList (by decide)).1

theorem strchr_get (s : cstr) (c : Char) : ∀ k, strchr s c = some k → s.get? k = some c := by
  induction s with
  | nil => intro k h; simp [strchr] at h
  | cons x xs ih =>
    intro k h
    rw [strchr] at h
    by_cases hx : x = c
    · rw [if_pos hx] at h
      simp only [Option.some.injEq] at h
      subst h
      simp [hx]
    · rw [if_neg hx] at h
      cases hs : strchr xs c with
      | none => simp [hs] at h
      | some j =>
        rw [hs] at h
        simp only [Option.map_some', Option.some.injEq] at h
        subst h
        simpa using ih j hs

theorem mem_take_iff_strchr (s : cstr) (c : Char) (g e : Nat) (h : strchr s c = some g) :
    c ∈ s.take e ↔ g < e := by
  obtain ⟨hsplit, hnot⟩ := strchr_some_spec s c g h
  constructor
  · intro hm
    by_contra hge
    have hpre : s.take e <+: s.take g := by
      have : s.take e = (s.take g).take e := by
        rw [List.take_take]
        congr 1
        omega
      rw [this]
      exact List.take_prefix _ _
    exact hnot (hpre.subset hm)
  · intro hlt
    have hg := strchr_get s c g h
    have hlen : g < s.length := get?_lt_length s g c hg
    rw [List.mem_iff_get?]
    refine ⟨g, ?_⟩
    simp only [List.get?_eq_getElem?] at hg ⊢
    rw [List.getElem?_take_of_lt hlt]
    exact hg

theorem parse_ref_spec_body_pattern_iff (f : Bool) (sp : cstr) :
    (parse_ref_spec_body f sp).pattern = true ↔
      '*' ∈ src_half sp ∧ (dst_half sp = [] ∨ '*' ∈ dst_half sp) := by
  unfold src_half dst_half
  rw [takeWhile_of_strchr, dropWhile_of_strchr]
  cases hc : strchr sp ':' with
  | none =>
    rw [parse_ref_spec_body_no_colon f sp hc]
    cases hs : strchr sp '*' with
    | none =>
      have := (strchr_eq_none_iff sp '*').mp hs
      simp [this]
    | some g =>
      have : '*' ∈ sp := by
        by_contra hn
        rw [(strchr_eq_none_iff sp '*').mpr hn] at hs
        simp at hs
      simp [this]
  | some e =>
    simp only [List.drop_drop]
    have he := strchr_get sp ':' e hc
    cases hs : strchr sp '*' with
    | none =>
      have hn := (strchr_eq_none_iff sp '*').mp hs
      have hn1 : '*' ∉ sp.take e := fun hm => hn (List.mem_of_mem_take hm)
      by_cases ha : sp.drop (e + 1) = []
      · rw [parse_ref_spec_body_colon_last f sp e hc ha, hs]
        simp [hn1]
      · have hs2 : strchr (sp.drop (e + 1)) '*' = none :=
          (strchr_eq_none_iff _ '*').mpr (fun hm => hn (List.mem_of_mem_drop hm))
        rw [parse_ref_spec_body_colon f sp e hc ha, hs2]
        simp [hn1]
    | some g =>
      have hg := strchr_get sp '*' g hs
      have hne : g ≠ e := by
        intro heq
        subst heq
        rw [hg] at he
        simp at he
      have hmem := mem_take_iff_strchr sp '*' g e hs
      by_cases ha : sp.drop (e + 1) = []
      · rw [parse_ref_spec_body_colon_last f sp e hc ha, hs]
        by_cases hge : g > e
        · have : ¬ g < e := by omega
          simp [hge, hmem, this]
        · have : g < e := by omega
          simp [hge, hmem, this, ha]
      · rw [parse_ref_spec_body_colon f sp e hc ha]
        cases hs2 : strchr (sp.drop (e + 1)) '*' with
        | none =>
          have hn2 := (strchr_eq_none_iff _ '*').mp hs2
          simp [ha, hn2]
        | some k =>
          simp only [hs]
          have hin : '*' ∈ sp.drop (e + 1) := by
            by_contra hn
            rw [(strchr_eq_none_iff _ '*').mpr hn] at hs2
            simp at hs2
          by_cases hge : g > e
          · have : ¬ g < e := by omega
            simp [hge, hmem, this]
          · have : g < e := by omega
            simp [hge, hmem, this, hin]

/-- C15, as stated, fails: a single `*` in the destination half only, or in the source
half only beside a destination without `*`, leaves the rule a plain one. -/
theorem parse_ref_spec_one_star_one_side :
    (parse_ref_spec_one "refs/heads/master:refs/remotes/origin/*".toList).pattern = false ∧
    (parse_ref_spec_one "refs/heads/*:refs/remotes/origin/master".toList).pattern = false := by
  decide

/-- C15, amended: `parse_ref_spec` marks a rule as a pattern exactly when the source
half of its text (what stands before the first `:`, after an optional leading `+`)
contains a `*` and the destination half (what follows the first `:`) is empty or
contains a `*` as well. -/
theorem parse_ref_spec_one_pattern_iff (s : cstr) :
    (parse_ref_spec_one s).pattern = true ↔
      '*' ∈ src_half (after_plus s) ∧
      (dst_half (after_plus s) = [] ∨ '*' ∈ dst_half (after_plus s)) := by
  rw [parse_ref_spec_one_eq_body]
  exact parse_ref_spec_body_pattern_iff (has_plus s) (after_plus s)

theorem set_append_cons_at_length {α : Type} (A : List α) (a x : α) (B : List α) :
    (A ++ a :: B).set A.length x = A ++ x :: B := by
  induction A with
  | nil => rfl
  | cons y ys ih => simp only [List.cons_append, List.length_cons, List.set_cons_succ, ih]

theorem take_succ_of_get? {α : Type} (l : List α) (i : Nat) (x : α) (h : l.get? i = some x) :
    l.take (i + 1) = l.take i ++ [x] := by
  rw [List.take_succ]
  simp only [List.get?_eq_getElem?] at h
  rw [h]
  rfl

theorem parse_ref_spec_loop_eq (strs : List cstr) :
    ∀ (n i : Nat), i + n = strs.length →
      parse_ref_spec_loop strs n i
        ((strs.take i).map parse_ref_spec_one ++ List.replicate n refspec_zero) =
      strs.map parse_ref_spec_one := by
  intro n
  induction n with
  | zero =>
    intro i hi
    simp only [Nat.add_zero] at hi
    simp [parse_ref_spec_loop, hi]
  | succ n ih =>
    intro i hi
    have hlt : i < strs.length := by omega
    have hget : strs.get? i = some (strs.get ⟨i, hlt⟩) := List.get?_eq_get hlt
    rw [parse_ref_spec_loop, hget]
    simp only
    have hlen : ((strs.take i).map parse_ref_spec_one).length = i := by
      simp only [List.length_map, List.length_take]
      omega
    have hset : ((strs.take i).map parse_ref_spec_one ++
          List.replicate (n + 1) refspec_zero).set i
          (parse_ref_spec_one (strs.get ⟨i, hlt⟩)) =
        (strs.take (i + 1)).map parse_ref_spec_one ++ List.replicate n refspec_zero := by
      rw [List.replicate_succ]
      have := set_append_cons_at_length ((strs.take i).map parse_ref_spec_one) refspec_zero
        (parse_ref_spec_one (strs.get ⟨i, hlt⟩)) (List.replicate n refspec_zero)
      rw [hlen] at this
      rw [this, take_succ_of_get? strs i _ hget, List.map_append, List.append_assoc]
      rfl
    rw [hset]
    exact ih (i + 1) (by omega)

theorem parse_ref_spec_array_eq_map (strs : List cstr) :
    parse_ref_spec_array strs = strs.map parse_ref_spec_one := by
  unfold parse_ref_spec_array
  have := parse_ref_spec_loop_eq strs strs.length 0 (by simp)
  simpa using this

/-- C16: `parse_ref_spec` has no failing path: for every list of strings the loop
returns as many rules as there are strings, in the same order, rule `i` being the rule
parsed from string `i` on its own; replacing another string changes no other rule, and
the result is the map of the strings under the parse of one string, which is the form
`match_refs` uses. -/
theorem parse_ref_spec_independent (strs : List cstr) :
    parse_ref_spec_array strs = strs.map parse_ref_spec_one ∧
    (parse_ref_spec_array strs).length = strs.length ∧
    (∀ i, (parse_ref_spec_array strs).get? i = (strs.get? i).map parse_ref_spec_one) ∧
    (∀ i j bad, i ≠ j →
      (parse_ref_spec_array (strs.set j bad)).get? i = (parse_ref_spec_array strs).get? i) ∧
    parse_ref_spec strs = parse_ref_spec_array strs := by
  refine ⟨parse_ref_spec_array_eq_map strs, ?_, ?_, ?_, ?_⟩
  · rw [parse_ref_spec_array_eq_map, List.length_map]
  · intro i
    rw [parse_ref_spec_array_eq_map]
    simp
  · intro i j bad hij
    rw [parse_ref_spec_array_eq_map, parse_ref_spec_array_eq_map]
    simp only [List.get?_eq_getElem?, List.getElem?_map]
    rw [List.getElem?_set_ne (fun e => hij e.symm)]
  · rw [parse_ref_spec_array_eq_map]
    rfl

/-- C16 at a list whose second string is replaced by a malformed one. -/
theorem parse_ref_spec_independent_witness :
    (parse_ref_spec_array (["a:b".toList, "c".toList].set 1 "*:*:*".toList)).get? 0 =
      (parse_ref_spec_array ["a:b".toList, "c".toList]).get? 0 :=
  (parse_ref_spec_independent ["a:b".toList, "c".toList]).2.2.2.1 0 1 "*:*:*".toList
    (by decide)

theorem plus_after_plus (s : cstr) :
    s = (if has_plus s = true then ['+'] else []) ++ after_plus s := by
  unfold after_plus
  cases s with
  | nil => simp [has_plus]
  | cons x xs =>
    by_cases hx : x = '+'
    · subst hx
      simp [has_plus]
    · simp [has_plus, hx]

theorem has_plus_rebuild (f : Bool) (t : cstr) (h : f = true ∨ has_plus t = false) :
    has_plus ((if f = true then ['+'] else []) ++ t) = f ∧
    after_plus ((if f = true then ['+'] else []) ++ t) = t := by
  cases f with
  | true => simp [has_plus, after_plus]
  | false =>
    have ht : has_plus t = false := by
      rcases h with h | h
      · simp at h
      · exact h
    simp [after_plus, ht]

theorem has_plus_take (s : cstr) (e : Nat) (h : has_plus s = false) :
    has_plus (s.take e) = false := by
  cases s with
  | nil => simp [has_plus]
  | cons x xs =>
    cases e with
    | zero => simp [has_plus]
    | succ e =>
      simp only [has_plus, List.head?_cons, Option.some.injEq, decide_eq_false_iff_not] at h
      simp [has_plus, h]

theorem after_plus_of_not (s : cstr) (h : has_plus s = false) : after_plus s = s := by
  simp [after_plus, h]

/-- C17: round trip for non-glob refspecs: when `parse_ref_spec` parses a string to a
rule that is not a pattern, writing the rule back as optional `+`, source, and `:` plus
destination when it is set, and parsing that string again gives the same rule (source,
destination, force and pattern), hence the same outcome in any matching. -/
theorem parse_ref_spec_round_trip (s : cstr)
    (hp : (parse_ref_spec_one s).pattern = false) :
    parse_ref_spec_one (refspec_serialize (parse_ref_spec_one s)) = parse_ref_spec_one s := by
  have hsplit := plus_after_plus s
  have hnp : has_plus s = false → after_plus s = s := after_plus_of_not s
  rw [parse_ref_spec_one_eq_body] at hp
  have hpat := parse_ref_spec_body_pattern_iff (has_plus s) (after_plus s)
  rw [parse_ref_spec_one_eq_body s]
  generalize hf : has_plus s = f at *
  generalize hsp : after_plus s = sp at *
  have same : ∀ r : refspec, parse_ref_spec_body f sp = r →
      refspec_serialize r = s → parse_ref_spec_one (refspec_serialize r) = r := by
    intro r hr hs
    rw [hs, parse_ref_spec_one_eq_body, hf, hsp]
    exact hr
  cases hc : strchr sp ':' with
  | none =>
    have hb := parse_ref_spec_body_no_colon f sp hc
    cases hs : strchr sp '*' with
    | some g =>
      rw [hb, hs] at hp
      simp at hp
    | none =>
      rw [hs] at hb
      rw [hb]
      apply same _ hb
      simp only [refspec_serialize, List.append_nil]
      exact hsplit.symm
  | some e =>
    obtain ⟨hcut, hnc⟩ := strchr_some_spec sp ':' e hc
    by_cases ha : sp.drop (e + 1) = []
    · have hdst : dst_half sp = [] := by
        unfold dst_half
        rw [dropWhile_of_strchr, hc]
        simpa [List.drop_drop] using ha
      have hsrc : src_half sp = sp.take e := by
        unfold src_half
        rw [takeWhile_of_strchr, hc]
      have hnostar : '*' ∉ sp.take e := by
        intro hm
        have : (parse_ref_spec_body f sp).pattern = true :=
          hpat.mpr ⟨by rw [hsrc]; exact hm, Or.inl hdst⟩
        rw [this] at hp
        simp at hp
      have hb : parse_ref_spec_body f sp =
          { force := f, pattern := false, src := some (sp.take e), dst := none } := by
        rw [parse_ref_spec_body_colon_last f sp e hc ha]
        cases hs : strchr sp '*' with
        | none => rfl
        | some g =>
          have := (mem_take_iff_strchr sp '*' g e hs).not.mp hnostar
          have hg := strchr_get sp '*' g hs
          have he := strchr_get sp ':' e hc
          have hne : g ≠ e := by
            intro heq
            subst heq
            rw [hg] at he
            simp at he
          have hgt : g > e := by omega
          simp [hgt]
      rw [hb]
      simp only [refspec_serialize, List.append_nil]
      have hcond : f = true ∨ has_plus (sp.take e) = false := by
        cases f with
        | true => exact Or.inl rfl
        | false =>
          right
          rw [hnp rfl]
          exact has_plus_take s e hf
      obtain ⟨h1, h2⟩ := has_plus_rebuild f (sp.take e) hcond
      rw [parse_ref_spec_one_eq_body, h1, h2]
      rw [parse_ref_spec_body_no_colon f (sp.take e) ((strchr_eq_none_iff _ ':').mpr hnc),
        (strchr_eq_none_iff _ '*').mpr hnostar]
    · have hb : parse_ref_spec_body f sp =
          { force := f, pattern := false, src := some (sp.take e),
            dst := some (sp.drop (e + 1)) } := by
        have := parse_ref_spec_body_colon f sp e hc ha
        rw [this] at hp ⊢
        cases hs2 : strchr (sp.drop (e + 1)) '*' with
        | none => rfl
        | some k =>
          rw [hs2] at hp
          cases hs : strchr sp '*' with
          | none => rfl
          | some g =>
            rw [hs] at hp
            by_cases hg : g > e
            · simp [hg]
            · simp [hg] at hp
      rw [hb]
      apply same _ hb
      simp only [refspec_serialize]
      rw [List.append_assoc, ← hcut]
      exact hsplit.symm

/-- C17 at a string whose destination is empty: it is written back without the `:`. -/
theorem parse_ref_spec_round_trip_witness :
    parse_ref_spec_one (refspec_serialize (parse_ref_spec_one "+a:".toList)) =
      parse_ref_spec_one "+a:".toList :=
  parse_ref_spec_round_trip "+a:".toList (by decide)

/-! ### get_fetch_map: the check of the peer names -/

theorem get_fetch_map_eq (check_ref_format : cstr → Int) (remote_refs : List ref)
    (rs : refspec) (map : List ref) (missing_ok : Int) :
    get_fetch_map check_ref_format remote_refs rs map missing_ok =
      match get_fetch_map_refs remote_refs rs missing_ok with
      | outcome.died msg => outcome.died msg
      | outcome.fault => outcome.fault
      | outcome.ret ref_map =>
        match check_peers check_ref_format ref_map with
        | outcome.died msg => outcome.died msg
        | outcome.fault => outcome.fault
        | outcome.ret (some name) => outcome.died (msg_funny_ref name)
        | outcome.ret none => outcome.ret (0, map ++ ref_map) := rfl

theorem check_peers_none (check_ref_format : cstr → Int) (l : List ref)
    (h : check_peers check_ref_format l = outcome.ret none) :
    ∀ rm ∈ l, ∀ n o w f, rm.peer_ref = some (peer.obj n o w f) →
      5 ≤ n.length ∧ check_ref_format (n.drop 5) = 0 := by
  induction l with
  | nil => intro rm hrm; simp at hrm
  | cons x xs ih =>
    rw [check_peers] at h
    rcases hx : x.peer_ref with _ | (i | ⟨n, o, w, f⟩)
    · rw [hx] at h
      simp only at h
      intro rm hrm n o w f hp
      rcases List.mem_cons.mp hrm with rfl | hrm
      · rw [hx] at hp
        simp at hp
      · exact ih h rm hrm n o w f hp
    · rw [hx] at h
      simp at h
    · rw [hx] at h
      simp only at h
      by_cases hlen : n.length < 5
      · rw [if_pos hlen] at h
        simp at h
      · rw [if_neg hlen] at h
        by_cases hc : check_ref_format (n.drop 5) ≠ 0
        · rw [if_pos hc] at h
          simp at h
        · rw [if_neg hc] at h
          intro rm hrm n2 o2 w2 f2 hp
          rcases List.mem_cons.mp hrm with rfl | hrm
          · rw [hx] at hp
            simp only [Option.some.injEq, peer.obj.injEq] at hp
            obtain ⟨rfl, _, _, _⟩ := hp
            exact ⟨by omega, by simpa using hc⟩
          · exact ih h rm hrm n2 o2 w2 f2 hp

theorem check_peers_fail (check_ref_format : cstr → Int) (l : List ref)
    (hobj : ∀ rm ∈ l, ∀ i, rm.peer_ref ≠ some (peer.node i))
    (hlen : ∀ rm ∈ l, ∀ n o w f, rm.peer_ref = some (peer.obj n o w f) → 5 ≤ n.length)
    (hbad : ∃ rm ∈ l, ∃ n o w f, rm.peer_ref = some (peer.obj n o w f) ∧
      check_ref_format (n.drop 5) ≠ 0) :
    ∃ rm ∈ l, ∃ n o w f, rm.peer_ref = some (peer.obj n o w f) ∧
      check_ref_format (n.drop 5) ≠ 0 ∧
      check_peers check_ref_format l = outcome.ret (some n) := by
  induction l with
  | nil =>
    obtain ⟨rm, hrm, _⟩ := hbad
    simp at hrm
  | cons x xs ih =>
    have ihx := ih (fun rm hrm => hobj rm (List.mem_cons_of_mem _ hrm))
      (fun rm hrm => hlen rm (List.mem_cons_of_mem _ hrm))
    rw [check_peers]
    rcases hx : x.peer_ref with _ | (i | ⟨n, o, w, f⟩)
    · simp only
      obtain ⟨rm, hrm, n, o, w, f, hp, hc⟩ := hbad
      rcases List.mem_cons.mp hrm with rfl | hrm
      · rw [hx] at hp
        simp at hp
      · obtain ⟨rm2, hrm2, h2⟩ := ihx ⟨rm, hrm, n, o, w, f, hp, hc⟩
        exact ⟨rm2, List.mem_cons_of_mem _ hrm2, h2⟩
    · exact absurd hx (hobj x (List.mem_cons_self _ _) i)
    · simp only
      have hl := hlen x (List.mem_cons_self _ _) n o w f hx
      rw [if_neg (by omega)]
      by_cases hc : check_ref_format (n.drop 5) ≠ 0
      · rw [if_pos hc]
        exact ⟨x, List.mem_cons_self _ _, n, o, w, f, hx, hc, rfl⟩
      · rw [if_neg hc]
        obtain ⟨rm, hrm, n2, o2, w2, f2, hp, hc2⟩ := hbad
        rcases List.mem_cons.mp hrm with rfl | hrm
        · rw [hx] at hp
          simp only [Option.some.injEq, peer.obj.injEq] at hp
          obtain ⟨rfl, _, _, _⟩ := hp
          exact absurd hc2 hc
        · obtain ⟨rm2, hrm2, h2⟩ := ihx ⟨rm, hrm, n2, o2, w2, f2, hp, hc2⟩
          exact ⟨rm2, List.mem_cons_of_mem _ hrm2, h2⟩

theorem get_local_ref_name (d : Option cstr) (p : peer) (h : get_local_ref d = some p) :
    ∃ n, p = peer.obj n null_sha1 null_sha1 0 ∧ "refs/".toList <+: n := by
  unfold get_local_ref at h
  cases d with
  | none => simp at h
  | some name =>
    simp only at h
    by_cases h1 : prefixcmp name "refs/".toList = 0
    · rw [if_pos h1] at h
      simp only [Option.some.injEq] at h
      exact ⟨name, h.symm, (prefixcmp_eq_zero_iff _ _).mp h1⟩
    · rw [if_neg h1] at h
      split at h
      · simp only [Option.some.injEq] at h
        exact ⟨_, h.symm, List.prefix_append _ _⟩
      · simp only [Option.some.injEq] at h
        refine ⟨_, h.symm, ?_⟩
        exact ⟨"heads/".toList ++ name, by simp⟩

theorem get_fetch_map_refs_plain (remote_refs : List ref) (rs : refspec) (missing_ok : Int)
    (ref_map : List ref) (hpat : rs.pattern = false)
    (h : get_fetch_map_refs remote_refs rs missing_ok = outcome.ret ref_map) :
    ∀ rm ∈ ref_map, rm.peer_ref = none ∨
      ∃ n f, rm.peer_ref = some (peer.obj n null_sha1 null_sha1 f) ∧ "refs/".toList <+: n := by
  unfold get_fetch_map_refs at h
  rw [if_neg (by simp [hpat])] at h
  cases hs : rs.src with
  | none => simp [hs] at h
  | some s =>
    simp only [hs] at h
    split at h
    · split at h
      · simp at h
      · simp only [outcome.ret.injEq] at h
        subst h
        intro rm hrm
        simp at hrm
    · simp only [outcome.ret.injEq] at h
      subst h
      intro rm hrm
      simp only [List.mem_singleton] at hrm
      subst hrm
      simp only
      cases hl : get_local_ref rs.dst with
      | none => simp
      | some p =>
        obtain ⟨n, rfl, hn⟩ := get_local_ref_name rs.dst p hl
        right
        by_cases hf : rs.force = true
        · exact ⟨n, 1, by simp [hf, peer_set_force], hn⟩
        · exact ⟨n, 0, by simp [hf], hn⟩

theorem get_fetch_map_refs_no_node (remote_refs : List ref) (rs : refspec) (missing_ok : Int)
    (ref_map : List ref)
    (h : get_fetch_map_refs remote_refs rs missing_ok = outcome.ret ref_map) :
    ∀ rm ∈ ref_map, ∀ i, rm.peer_ref ≠ some (peer.node i) := by
  by_cases hpat : rs.pattern = true
  · unfold get_fetch_map_refs at h
    rw [if_pos hpat] at h
    unfold get_expanded_map at h
    cases hs : rs.src with
    | none => simp [hs] at h
    | some S =>
      cases hd : rs.dst with
      | none => simp [hs, hd] at h
      | some D =>
        simp only [hs, hd, get_expanded_map_loop_eq, outcome.ret.injEq] at h
        subst h
        intro rm hrm i
        simp only [List.mem_map] at hrm
        obtain ⟨r, _, rfl⟩ := hrm
        simp
  · intro rm hrm i hp
    have hpat2 : rs.pattern = false := by simpa using hpat
    rcases get_fetch_map_refs_plain remote_refs rs missing_ok ref_map hpat2 h rm hrm with
      hn | ⟨n, f, hn, _⟩
    · rw [hn] at hp
      simp at hp
    · rw [hn] at hp
      simp at hp

/-- C11: `get_fetch_map` returns normally only if every peer name it produced has
passed `check_ref_format`, which is applied to the name without its first five
characters (the `refs/` of a local ref name); the value is then 0 and the produced
entries are appended to the map. If a produced name fails the check, every produced
name having those five characters, the call dies with the message about a funny ref:
the entries are linked into the map only after the last check, so a call that dies has
appended nothing. The peer a plain rule produces always begins with `refs/`. -/
theorem get_fetch_map_checks_peers (check_ref_format : cstr → Int) (remote_refs : List ref)
    (rs : refspec) (map : List ref) (missing_ok : Int) :
    (∀ v out, get_fetch_map check_ref_format remote_refs rs map missing_ok =
        outcome.ret (v, out) →
      v = 0 ∧ ∃ ref_map, get_fetch_map_refs remote_refs rs missing_ok = outcome.ret ref_map ∧
        out = map ++ ref_map ∧
        ∀ rm ∈ ref_map, ∀ n o w f, rm.peer_ref = some (peer.obj n o w f) →
          5 ≤ n.length ∧ check_ref_format (n.drop 5) = 0) ∧
    (∀ ref_map, get_fetch_map_refs remote_refs rs missing_ok = outcome.ret ref_map →
      (∀ rm ∈ ref_map, ∀ n o w f, rm.peer_ref = some (peer.obj n o w f) → 5 ≤ n.length) →
      (∃ rm ∈ ref_map, ∃ n o w f, rm.peer_ref = some (peer.obj n o w f) ∧
        check_ref_format (n.drop 5) ≠ 0) →
      ∃ rm ∈ ref_map, ∃ n o w f, rm.peer_ref = some (peer.obj n o w f) ∧
        check_ref_format (n.drop 5) ≠ 0 ∧
        get_fetch_map check_ref_format remote_refs rs map missing_ok =
          outcome.died (msg_funny_ref n)) ∧
    (rs.pattern = false →
      ∀ ref_map, get_fetch_map_refs remote_refs rs missing_ok = outcome.ret ref_map →
        ∀ rm ∈ ref_map, ∀ n o w f, rm.peer_ref = some (peer.obj n o w f) →
          "refs/".toList <+: n) := by
  refine ⟨?_, ?_, ?_⟩
  · intro v out h
    rw [get_fetch_map_eq] at h
    rcases hr : get_fetch_map_refs remote_refs rs missing_ok with ref_map | msg | _
    · rw [hr] at h
      simp only at h
      rcases hc : check_peers check_ref_format ref_map with (_ | n) | msg | _
      · rw [hc] at h
        simp only [outcome.ret.injEq, Prod.mk.injEq] at h
        exact ⟨h.1.symm, ref_map, rfl, h.2.symm, check_peers_none check_ref_format ref_map hc⟩
      · rw [hc] at h
        simp at h
      · rw [hc] at h
        simp at h
      · rw [hc] at h
        simp at h
    · rw [hr] at h
      simp at h
    · rw [hr] at h
      simp at h
  · intro ref_map hr hlen hbad
    obtain ⟨rm, hrm, n, o, w, f, hp, hc, hcheck⟩ := check_peers_fail check_ref_format ref_map
      (get_fetch_map_refs_no_node remote_refs rs missing_ok ref_map hr) hlen hbad
    refine ⟨rm, hrm, n, o, w, f, hp, hc, ?_⟩
    rw [get_fetch_map_eq, hr]
    simp only [hcheck]
  · intro hpat ref_map hr rm hrm n o w f hp
    rcases get_fetch_map_refs_plain remote_refs rs missing_ok ref_map hpat hr rm hrm with
      hn | ⟨n2, f2, hn, hpre⟩
    · rw [hn] at hp
      simp at hp
    · rw [hn] at hp
      simp only [Option.some.injEq, peer.obj.injEq] at hp
      obtain ⟨rfl, _, _, _⟩ := hp
      exact hpre

/-- C11 at a plain rule whose destination `refs/heads/a..b` fails the check: the call
dies. -/
theorem get_fetch_map_checks_peers_witness :
    ∃ rm ∈ [({ name := "refs/heads/master".toList, old_sha1 := [1], new_sha1 := [], force := 0,
               peer_ref := some (peer.obj "refs/heads/a..b".toList null_sha1 null_sha1 0) } : ref)],
      ∃ n o w f, rm.peer_ref = some (peer.obj n o w f) ∧
        (fun x : cstr => if x = "heads/master".toList then (0 : Int) else -1) (n.drop 5) ≠ 0 ∧
        get_fetch_map (fun x : cstr => if x = "heads/master".toList then (0 : Int) else -1)
          [{ name := "refs/heads/master".toList, old_sha1 := [1], new_sha1 := [], force := 0,
             peer_ref := none }]
          { force := false, pattern := false, src := some "refs/heads/master".toList,
            dst := some "refs/heads/a..b".toList } [] 0 =
          outcome.died (msg_funny_ref n) :=
  (get_fetch_map_checks_peers (fun x : cstr => if x = "heads/master".toList then (0 : Int) else -1)
    [{ name := "refs/heads/master".toList, old_sha1 := [1], new_sha1 := [], force := 0,
       peer_ref := none }]
    { force := false, pattern := false, src := some "refs/heads/master".toList,
      dst := some "refs/heads/a..b".toList } [] 0).2.1
    [{ name := "refs/heads/master".toList, old_sha1 := [1], new_sha1 := [], force := 0,
       peer_ref := some (peer.obj "refs/heads/a..b".toList null_sha1 null_sha1 0) }]
    (by decide)
    (by
      intro rm hrm n o w f hp
      simp only [List.mem_singleton] at hrm
      subst hrm
      simp only [Option.some.injEq, peer.obj.injEq] at hp
      obtain ⟨rfl, _, _, _⟩ := hp
      decide)
    ⟨_, List.mem_singleton.mpr rfl, "refs/heads/a..b".toList, null_sha1, null_sha1, 0, rfl,
      by decide⟩

/-! ### ref_remove_duplicates -/

theorem ref_remove_duplicates_cons_none (node_name : Nat → cstr) (r : ref) (rest : List ref)
    (h : r.peer_ref = none) :
    ref_remove_duplicates node_name (r :: rest) =
      outcome_cons r (ref_remove_duplicates node_name rest) := by
  rw [ref_remove_duplicates]
  split
  · rfl
  · rename_i p hp
    rw [h] at hp
    simp at hp

theorem ref_remove_duplicates_cons_some (node_name : Nat → cstr) (r : ref) (rest : List ref)
    (p : peer) (h : r.peer_ref = some p) :
    ref_remove_duplicates node_name (r :: rest) =
      match remove_later_duplicates node_name r.name (peer_ref_name node_name p) rest with
      | outcome.ret kept => outcome_cons r (ref_remove_duplicates node_name kept)
      | outcome.died msg => outcome.died msg
      | outcome.fault => outcome.fault := by
  rw [ref_remove_duplicates]
  split
  · rename_i hp
    rw [h] at hp
    simp at hp
  · rename_i p2 hp
    rw [h] at hp
    simp only [Option.some.injEq] at hp
    subst hp
    split <;> rename_i heq <;> rw [heq]

theorem remove_later_duplicates_ok (node_name : Nat → cstr) (name pn : cstr) (l : List ref)
    (h : ∀ q ∈ l, has_peer_named node_name pn q = true → q.name = name) :
    remove_later_duplicates node_name name pn l =
      outcome.ret (l.filter (fun q => !has_peer_named node_name pn q)) := by
  induction l with
  | nil => rfl
  | cons q qs ih =>
    have ihq := ih (fun x hx => h x (List.mem_cons_of_mem _ hx))
    have hq := h q (List.mem_cons_self _ _)
    rw [remove_later_duplicates]
    cases hp : q.peer_ref with
    | none =>
      have : has_peer_named node_name pn q = false := by simp [has_peer_named, hp]
      simp only [ihq, outcome_cons, List.filter_cons, this, Bool.not_false, if_true]
    | some p =>
      simp only
      by_cases hn : peer_ref_name node_name p = pn
      · have ht : has_peer_named node_name pn q = true := by simp [has_peer_named, hp, hn]
        rw [if_pos hn, if_neg (by simp [hq ht]), ihq]
        simp [List.filter_cons, ht]
      · have ht : has_peer_named node_name pn q = false := by simp [has_peer_named, hp, hn]
        rw [if_neg hn, ihq]
        simp [outcome_cons, List.filter_cons, ht]

theorem remove_later_duplicates_dies (node_name : Nat → cstr) (name pn : cstr) (l : List ref)
    (h : ∃ q ∈ l, has_peer_named node_name pn q = true ∧ q.name ≠ name) :
    ∃ msg, remove_later_duplicates node_name name pn l = outcome.died msg := by
  induction l with
  | nil =>
    obtain ⟨q, hq, _⟩ := h
    simp at hq
  | cons q qs ih =>
    rw [remove_later_duplicates]
    by_cases hbad : has_peer_named node_name pn q = true ∧ q.name ≠ name
    · obtain ⟨ht, hne⟩ := hbad
      cases hp : q.peer_ref with
      | none => simp [has_peer_named, hp] at ht
      | some p =>
        simp only [has_peer_named, hp, decide_eq_true_eq] at ht
        simp only
        rw [if_pos ht, if_pos hne]
        exact ⟨_, rfl⟩
    · have hrest : ∃ x ∈ qs, has_peer_named node_name pn x = true ∧ x.name ≠ name := by
        obtain ⟨x, hx, hxb⟩ := h
        rcases List.mem_cons.mp hx with rfl | hx
        · exact absurd hxb hbad
        · exact ⟨x, hx, hxb⟩
      obtain ⟨msg, hmsg⟩ := ih hrest
      cases hp : q.peer_ref with
      | none =>
        simp only [hmsg, outcome_cons]
        exact ⟨_, rfl⟩
      | some p =>
        simp only
        by_cases hn : peer_ref_name node_name p = pn
        · rw [if_pos hn]
          by_cases hne : q.name ≠ name
          · rw [if_pos hne]
            exact ⟨_, rfl⟩
          · rw [if_neg hne]
            exact ⟨msg, hmsg⟩
        · rw [if_neg hn, hmsg]
          exact ⟨_, rfl⟩

theorem pairwise_of_filter_peer (node_name : Nat → cstr) (name pn : cstr) (l : List ref)
    (h : ∀ q ∈ l, has_peer_named node_name pn q = true → q.name = name)
    (hp : (l.filter (fun q => !has_peer_named node_name pn q)).Pairwise
      (fun a b => ¬ tracks_conflict node_name a b)) :
    l.Pairwise (fun a b => ¬ tracks_conflict node_name a b) := by
  induction l with
  | nil => exact List.Pairwise.nil
  | cons x xs ih =>
    have hxs : ∀ q ∈ xs, has_peer_named node_name pn q = true → q.name = name :=
      fun q hq => h q (List.mem_cons_of_mem _ hq)
    by_cases hx : has_peer_named node_name pn x = true
    · have hxn := h x (List.mem_cons_self _ _) hx
      simp only [List.filter_cons, hx, Bool.not_true, Bool.false_eq_true, if_false] at hp
      refine List.pairwise_cons.mpr ⟨?_, ih hxs hp⟩
      intro b hb ⟨pa, pb, ha, hbp, hsame, hne⟩
      have hpa : peer_ref_name node_name pa = pn := by
        simpa [has_peer_named, ha] using hx
      have hbt : has_peer_named node_name pn b = true := by
        simp [has_peer_named, hbp, ← hsame, hpa]
      exact hne (by rw [hxn, hxs b hb hbt])
    · have hxf : has_peer_named node_name pn x = false := by simpa using hx
      simp only [List.filter_cons, hxf, Bool.not_false, if_true] at hp
      obtain ⟨h1, h2⟩ := List.pairwise_cons.mp hp
      refine List.pairwise_cons.mpr ⟨?_, ih hxs h2⟩
      intro b hb hconf
      by_cases hbt : has_peer_named node_name pn b = true
      · obtain ⟨pa, pb, ha, hbp, hsame, _⟩ := hconf
        have hpb : peer_ref_name node_name pb = pn := by
          simpa [has_peer_named, hbp] using hbt
        have : has_peer_named node_name pn x = true := by
          simp [has_peer_named, ha, hsame, hpb]
        exact hx this
      · exact h1 b (List.mem_filter.mpr ⟨hb, by simpa using hbt⟩) hconf

theorem outcome_cons_ret (r : ref) (o : outcome (List ref)) :
    (∃ out, o = outcome.ret out) → ∃ out, outcome_cons r o = outcome.ret out := by
  rintro ⟨out, rfl⟩
  exact ⟨_, rfl⟩

theorem outcome_cons_died (r : ref) (o : outcome (List ref)) :
    (∃ msg, o = outcome.died msg) → ∃ msg, outcome_cons r o = outcome.died msg := by
  rintro ⟨msg, rfl⟩
  exact ⟨_, rfl⟩

theorem ref_remove_duplicates_pairwise (node_name : Nat → cstr) :
    ∀ (n : Nat) (l : List ref), l.length ≤ n →
      (l.Pairwise (fun a b => ¬ tracks_conflict node_name a b) →
        ∃ out, ref_remove_duplicates node_name l = outcome.ret out) ∧
      (¬ l.Pairwise (fun a b => ¬ tracks_conflict node_name a b) →
        ∃ msg, ref_remove_duplicates node_name l = outcome.died msg) := by
  intro n
  induction n with
  | zero =>
    intro l hl
    have : l = [] := List.length_eq_zero.mp (Nat.le_zero.mp hl)
    subst this
    refine ⟨fun _ => ⟨[], by rw [ref_remove_duplicates]⟩, fun h => absurd List.Pairwise.nil h⟩
  | succ n ih =>
    intro l hl
    cases l with
    | nil =>
      refine ⟨fun _ => ⟨[], by rw [ref_remove_duplicates]⟩, fun h => absurd List.Pairwise.nil h⟩
    | cons r rest =>
      have hrest : rest.length ≤ n := by
        simp only [List.length_cons] at hl
        omega
      cases hp : r.peer_ref with
      | none =>
        have hno : ∀ b ∈ rest, ¬ tracks_conflict node_name r b := by
          intro b _ ⟨pa, _, ha, _⟩
          rw [hp] at ha
          simp at ha
        rw [ref_remove_duplicates_cons_none node_name r rest hp]
        obtain ⟨ih1, ih2⟩ := ih rest hrest
        constructor
        · intro hpw
          exact outcome_cons_ret r _ (ih1 (List.pairwise_cons.mp hpw).2)
        · intro hpw
          apply outcome_cons_died r _ (ih2 _)
          intro hpr
          exact hpw (List.pairwise_cons.mpr ⟨hno, hpr⟩)
      | some p =>
        rw [ref_remove_duplicates_cons_some node_name r rest p hp]
        by_cases hbad : ∃ q ∈ rest,
            has_peer_named node_name (peer_ref_name node_name p) q = true ∧ q.name ≠ r.name
        · obtain ⟨msg, hmsg⟩ := remove_later_duplicates_dies node_name r.name _ rest hbad
          rw [hmsg]
          constructor
          · intro hpw
            exfalso
            obtain ⟨q, hq, ht, hne⟩ := hbad
            apply (List.pairwise_cons.mp hpw).1 q hq
            cases hqp : q.peer_ref with
            | none => simp [has_peer_named, hqp] at ht
            | some pb =>
              simp only [has_peer_named, hqp, decide_eq_true_eq] at ht
              exact ⟨p, pb, hp, hqp, ht.symm, fun e => hne e.symm⟩
          · intro _
            exact ⟨msg, rfl⟩
        · have hok : ∀ q ∈ rest,
              has_peer_named node_name (peer_ref_name node_name p) q = true →
              q.name = r.name := by
            intro q hq ht
            by_contra hne
            exact hbad ⟨q, hq, ht, hne⟩
          rw [remove_later_duplicates_ok node_name r.name _ rest hok]
          simp only
          have hno : ∀ b ∈ rest, ¬ tracks_conflict node_name r b := by
            intro b hb ⟨pa, pb, ha, hbp, hsame, hne⟩
            rw [hp] at ha
            simp only [Option.some.injEq] at ha
            subst ha
            have ht : has_peer_named node_name (peer_ref_name node_name p) b = true := by
              simp [has_peer_named, hbp, hsame]
            exact hne (hok b hb ht).symm
          have hlen : (rest.filter
              (fun q => !has_peer_named node_name (peer_ref_name node_name p) q)).length ≤ n :=
            Nat.le_trans (List.length_filter_le _ _) hrest
          obtain ⟨ih1, ih2⟩ := ih _ hlen
          constructor
          · intro hpw
            exact outcome_cons_ret r _
              (ih1 (List.Pairwise.filter _ (List.pairwise_cons.mp hpw).2))
          · intro hpw
            apply outcome_cons_died r _ (ih2 _)
            intro hpf
            exact hpw (List.pairwise_cons.mpr
              ⟨hno, pairwise_of_filter_peer node_name r.name _ rest hok hpf⟩)

/-- C12: `ref_remove_duplicates` dies exactly when the map holds two entries whose
peers have the same name while the entries' own names differ; when every two entries
that share a peer name share their own name too, it returns normally. -/
theorem ref_remove_duplicates_dies_iff (node_name : Nat → cstr) (l : List ref) :
    ((∃ msg, ref_remove_duplicates node_name l = outcome.died msg) ↔
      ∃ a b, List.Sublist [a, b] l ∧ tracks_conflict node_name a b) ∧
    ((∀ a b, List.Sublist [a, b] l → ¬ tracks_conflict node_name a b) →
      ∃ out, ref_remove_duplicates node_name l = outcome.ret out) := by
  obtain ⟨h1, h2⟩ := ref_remove_duplicates_pairwise node_name l.length l (Nat.le_refl _)
  have hpw : l.Pairwise (fun a b => ¬ tracks_conflict node_name a b) ↔
      ∀ a b, List.Sublist [a, b] l → ¬ tracks_conflict node_name a b := by
    rw [List.pairwise_iff_forall_sublist]
  refine ⟨⟨?_, ?_⟩, fun h => h1 (hpw.mpr h)⟩
  · rintro ⟨msg, hmsg⟩
    by_contra hno
    have : ∀ a b, List.Sublist [a, b] l → ¬ tracks_conflict node_name a b := by
      intro a b hab hc
      exact hno ⟨a, b, hab, hc⟩
    obtain ⟨out, hout⟩ := h1 (hpw.mpr this)
    rw [hout] at hmsg
    simp at hmsg
  · rintro ⟨a, b, hab, hc⟩
    apply h2
    intro hp
    exact hpw.mp hp a b hab hc

/-- C12 at a map in which `refs/remotes/origin/x` would track both `refs/heads/a` and
`refs/heads/b`. -/
theorem ref_remove_duplicates_dies_iff_witness :
    ∃ msg, ref_remove_duplicates (fun _ => [])
      [{ name := "refs/heads/a".toList, old_sha1 := [1], new_sha1 := [], force := 0,
         peer_ref := some (peer.obj "refs/remotes/origin/x".toList null_sha1 null_sha1 0) },
       { name := "refs/heads/b".toList, old_sha1 := [2], new_sha1 := [], force := 0,
         peer_ref := some (peer.obj "refs/remotes/origin/x".toList null_sha1 null_sha1 0) }] =
      outcome.died msg :=
  (ref_remove_duplicates_dies_iff (fun _ => [])
    [{ name := "refs/heads/a".toList, old_sha1 := [1], new_sha1 := [], force := 0,
       peer_ref := some (peer.obj "refs/remotes/origin/x".toList null_sha1 null_sha1 0) },
     { name := "refs/heads/b".toList, old_sha1 := [2], new_sha1 := [], force := 0,
       peer_ref := some (peer.obj "refs/remotes/origin/x".toList null_sha1 null_sha1 0) }]).1.2
    ⟨_, _, List.Sublist.refl _, _, _, rfl, rfl, rfl, by decide⟩

/-! ### remote_find_tracking -/

theorem remote_find_tracking_loop_none (n : cstr) (fetch : List refspec)
    (hsrc : ∀ q ∈ fetch, q.src.isSome = true)
    (h : ∀ q ∈ fetch, ¬ tracking_rule_matches q n) :
    remote_find_tracking_loop false n fetch = outcome.ret none := by
  induction fetch with
  | nil => rfl
  | cons g rest ih =>
    have ihr := ih (fun q hq => hsrc q (List.mem_cons_of_mem _ hq))
      (fun q hq => h q (List.mem_cons_of_mem _ hq))
    have hg := h g (List.mem_cons_self _ _)
    obtain ⟨k, hk⟩ := Option.isSome_iff_exists.mp (hsrc g (List.mem_cons_self _ _))
    rw [remote_find_tracking_loop]
    cases hd : g.dst with
    | none => exact ihr
    | some d =>
      simp only [Bool.false_eq_true, if_false, hk]
      by_cases hp : g.pattern = true
      · rw [if_pos hp]
        have hnp : ¬ k <+: n := by
          intro hpre
          exact hg ⟨by simp [hd], k, hk, by rw [if_pos hp]; exact hpre⟩
        rw [if_neg (fun e => hnp ((prefixcmp_eq_zero_iff n k).mp e))]
        exact ihr
      · rw [if_neg hp]
        have hne : ¬ n = k := by
          intro e
          exact hg ⟨by simp [hd], k, hk, by rw [if_neg hp]; exact e⟩
        rw [if_neg hne]
        exact ihr

theorem remote_find_tracking_loop_first (n : cstr) (pre post : List refspec) (g : refspec)
    (k d : cstr) (hsrc : ∀ q ∈ pre, q.src.isSome = true)
    (hpre : ∀ q ∈ pre, ¬ tracking_rule_matches q n)
    (hk : g.src = some k) (hd : g.dst = some d)
    (hm : if g.pattern = true then k <+: n else n = k) :
    remote_find_tracking_loop false n (pre ++ g :: post) =
      outcome.ret (some (d ++ n.drop k.length, g.force)) := by
  induction pre with
  | nil =>
    rw [List.nil_append, remote_find_tracking_loop]
    simp only [hd, Bool.false_eq_true, if_false, hk]
    by_cases hp : g.pattern = true
    · rw [if_pos hp] at hm
      rw [if_pos hp, if_pos ((prefixcmp_eq_zero_iff n k).mpr hm)]
    · rw [if_neg hp] at hm
      rw [if_neg hp, if_pos hm, hm]
      simp
  | cons q qs ih =>
    have ihr := ih (fun x hx => hsrc x (List.mem_cons_of_mem _ hx))
      (fun x hx => hpre x (List.mem_cons_of_mem _ hx))
    have hq := remote_find_tracking_loop_none n [q]
      (fun x hx => hsrc x (by simp only [List.mem_singleton] at hx; subst hx; simp))
      (fun x hx => hpre x (by simp only [List.mem_singleton] at hx; subst hx; simp))
    rw [List.cons_append, remote_find_tracking_loop]
    rw [remote_find_tracking_loop] at hq
    cases hqd : q.dst with
    | none => exact ihr
    | some qd =>
      rw [hqd] at hq
      simp only [Bool.false_eq_true, if_false] at hq ⊢
      cases hqs : q.src with
      | none => simp [hqs] at hq
      | some qk =>
        rw [hqs] at hq
        simp only at hq ⊢
        by_cases hp : q.pattern = true
        · rw [if_pos hp] at hq ⊢
          by_cases hz : prefixcmp n qk = 0
          · rw [if_pos hz] at hq
            simp at hq
          · rw [if_neg hz]
            exact ihr
        · rw [if_neg hp] at hq ⊢
          by_cases hz : n = qk
          · rw [if_pos hz] at hq
            simp at hq
          · rw [if_neg hz]
            exact ihr

/-- C18: `remote_find_tracking` on a refspec whose source `n` is set, for fetch rules
that all have a source (as parsed rules do): if `g` is the first fetch rule that has a
destination `d` and whose source `k` matches `n` (equal to it for a plain rule, a
beginning of it for a glob rule), the call returns 0, sets the destination to `d`
followed by the part of `n` after `k`, and copies the force flag of `g`; if no rule
matches, it returns -1 and leaves the refspec unchanged. -/
theorem remote_find_tracking_source (fetch : List refspec) (rs : refspec) (n : cstr)
    (hs : rs.src = some n) (hsrc : ∀ q ∈ fetch, q.src.isSome = true) :
    (∀ pre g post k d, fetch = pre ++ g :: post →
      (∀ q ∈ pre, ¬ tracking_rule_matches q n) →
      g.src = some k → g.dst = some d → (if g.pattern = true then k <+: n else n = k) →
      remote_find_tracking fetch rs =
        outcome.ret (0, { rs with dst := some (d ++ n.drop k.length), force := g.force })) ∧
    ((∀ q ∈ fetch, ¬ tracking_rule_matches q n) →
      remote_find_tracking fetch rs = outcome.ret (-1, rs)) := by
  constructor
  · intro pre g post k d hf hpre hk hd hm
    subst hf
    have hloop := remote_find_tracking_loop_first n pre post g k d
      (fun q hq => hsrc q (List.mem_append_left _ hq)) hpre hk hd hm
    unfold remote_find_tracking
    simp only [hs, hloop]
  · intro hno
    have hloop := remote_find_tracking_loop_none n fetch hsrc hno
    unfold remote_find_tracking
    simp only [hs, hloop]

/-- C18 at the fetch rules `refs/heads/*:refs/remotes/origin/*` (forced) and the source
`refs/heads/master`. -/
theorem remote_find_tracking_source_witness :
    remote_find_tracking [parse_ref_spec_one "+refs/heads/*:refs/remotes/origin/*".toList]
      { force := false, pattern := false, src := some "refs/heads/master".toList, dst := none } =
    outcome.ret (0, { force := true, pattern := false, src := some "refs/heads/master".toList,
                      dst := some "refs/remotes/origin/master".toList }) :=
  (remote_find_tracking_source
    [parse_ref_spec_one "+refs/heads/*:refs/remotes/origin/*".toList]
    { force := false, pattern := false, src := some "refs/heads/master".toList, dst := none }
    "refs/heads/master".toList rfl (by decide)).1
    [] (parse_ref_spec_one "+refs/heads/*:refs/remotes/origin/*".toList) []
    "refs/heads/".toList "refs/remotes/origin/".toList rfl (by simp) (by decide) (by decide)
    (by decide)

/-! ### The registries of remotes and branches -/

theorem name_matches_len_iff (name : cstr) (len : Nat) (e : cstr) :
    name_matches_len name len e = true ↔ e = entry_name name len := by
  unfold name_matches_len entry_name
  by_cases hl : len ≠ 0
  · rw [if_pos hl, if_pos hl]
    simp only [Bool.and_eq_true, decide_eq_true_eq]
    constructor
    · rintro ⟨h1, h2⟩
      have hlen : e.length ≤ len := by
        rw [List.get?_eq_none] at h2
        exact h2
      rw [h1, List.take_of_length_le hlen]
    · intro h
      subst h
      refine ⟨by rw [List.take_take]; simp, ?_⟩
      rw [List.get?_eq_none]
      simp only [List.length_take]
      omega
  · rw [if_neg hl, if_neg hl]
    simp only [decide_eq_true_eq]
    exact ⟨fun h => h.symm, fun h => h.symm⟩

theorem registry_scan_found {α : Type} (name_of : α → cstr) (name : cstr) (len : Nat)
    (l : List (Option α)) :
    ∀ (i : Nat) (e : Option Nat) (k : Nat),
      registry_scan name_of name len i e l = scan_result.found k →
      ∃ a, i ≤ k ∧ l.get? (k - i) = some (some a) ∧ name_of a = entry_name name len := by
  induction l with
  | nil => intro i e k h; simp [registry_scan] at h
  | cons x xs ih =>
    intro i e k h
    cases x with
    | none =>
      rw [registry_scan] at h
      obtain ⟨a, hle, hget, hn⟩ := ih (i + 1) _ k h
      refine ⟨a, by omega, ?_, hn⟩
      have : k - i = (k - (i + 1)) + 1 := by omega
      rw [this, List.get?_cons_succ]
      exact hget
    | some r =>
      rw [registry_scan] at h
      by_cases hm : name_matches_len name len (name_of r) = true
      · rw [if_pos hm] at h
        simp only [scan_result.found.injEq] at h
        subst h
        exact ⟨r, Nat.le_refl _, by simp, (name_matches_len_iff _ _ _).mp hm⟩
      · rw [if_neg hm] at h
        obtain ⟨a, hle, hget, hn⟩ := ih (i + 1) _ k h
        refine ⟨a, by omega, ?_, hn⟩
        have : k - i = (k - (i + 1)) + 1 := by omega
        rw [this, List.get?_cons_succ]
        exact hget

theorem registry_scan_not_found {α : Type} (name_of : α → cstr) (name : cstr) (len : Nat)
    (l : List (Option α)) :
    ∀ (i : Nat) (e e2 : Option Nat),
      registry_scan name_of name len i e l = scan_result.not_found e2 →
      (∀ j a, l.get? j = some (some a) → name_of a ≠ entry_name name len) ∧
      (e.isSome = true → e2 = e) ∧
      (e = none →
        (e2 = none ∧ ∀ j, l.get? j ≠ some none) ∨
        ∃ m, e2 = some (i + m) ∧ l.get? m = some none) := by
  induction l with
  | nil =>
    intro i e e2 h
    simp only [registry_scan, scan_result.not_found.injEq] at h
    subst h
    refine ⟨by simp, fun _ => rfl, fun he => Or.inl ⟨he, by simp⟩⟩
  | cons x xs ih =>
    intro i e e2 h
    cases x with
    | none =>
      rw [registry_scan] at h
      obtain ⟨h1, h2, h3⟩ := ih (i + 1) _ e2 h
      refine ⟨?_, ?_, ?_⟩
      · intro j a hj
        cases j with
        | zero => simp at hj
        | succ j => exact h1 j a (by simpa using hj)
      · intro he
        have : (if e.isNone = true then some i else e) = e := by
          cases e with
          | none => simp at he
          | some v => rfl
        rw [this] at h2
        exact h2 he
      · intro he
        subst he
        right
        exact ⟨0, by simpa using h2 rfl, by simp⟩
    | some r =>
      rw [registry_scan] at h
      by_cases hm : name_matches_len name len (name_of r) = true
      · rw [if_pos hm] at h
        simp at h
      · rw [if_neg hm] at h
        obtain ⟨h1, h2, h3⟩ := ih (i + 1) e e2 h
        refine ⟨?_, h2, ?_⟩
        · intro j a hj
          cases j with
          | zero =>
            simp only [List.get?_cons_zero, Option.some.injEq] at hj
            subst hj
            intro hn
            exact hm ((name_matches_len_iff _ _ _).mpr hn)
          | succ j => exact h1 j a (by simpa using hj)
        · intro he
          rcases h3 he with ⟨hn, hall⟩ | ⟨m, hm2, hget⟩
          · left
            refine ⟨hn, ?_⟩
            intro j
            cases j with
            | zero => simp
            | succ j => simpa using hall j
          · right
            exact ⟨m + 1, by rw [hm2]; congr 1; omega, by simpa using hget⟩

theorem registry_scan_total {α : Type} (name_of : α → cstr) (name : cstr) (len : Nat)
    (l : List (Option α)) (i : Nat) (e : Option Nat) :
    (∃ k, registry_scan name_of name len i e l = scan_result.found k) ∨
    (∃ e2, registry_scan name_of name len i e l = scan_result.not_found e2) := by
  cases h : registry_scan name_of name len i e l with
  | found k => exact Or.inl ⟨k, rfl⟩
  | not_found e2 => exact Or.inr ⟨e2, rfl⟩

theorem registry_make_cases {α : Type} (name_of : α → cstr) (create : cstr → α)
    (reg : List (Option α)) (name : cstr) (len : Nat) :
    (∃ i a, reg.get? i = some (some a) ∧ name_of a = entry_name name len ∧
      registry_make name_of create reg name len = (i, reg)) ∨
    ((∀ i a, reg.get? i = some (some a) → name_of a ≠ entry_name name len) ∧
      ∃ e reg2, registry_make name_of create reg name len = (e, reg2) ∧
        reg2.get? e = some (some (create (entry_name name len))) ∧
        (∀ a, reg.get? e ≠ some (some a)) ∧
        (∀ i a, reg.get? i = some (some a) → reg2.get? i = some (some a)) ∧
        (∀ i a, reg2.get? i = some (some a) → i = e ∨ reg.get? i = some (some a))) := by
  unfold registry_make
  rcases registry_scan_total name_of name len reg 0 none with ⟨k, hk⟩ | ⟨e2, he2⟩
  · left
    obtain ⟨a, _, hget, hn⟩ := registry_scan_found name_of name len reg 0 none k hk
    exact ⟨k, a, by simpa using hget, hn, by rw [hk]⟩
  · right
    obtain ⟨hno, _, hslot⟩ := registry_scan_not_found name_of name len reg 0 none e2 he2
    refine ⟨hno, ?_⟩
    rw [he2]
    rcases hslot rfl with ⟨hnone, hfull⟩ | ⟨m, hm, hget⟩
    · subst hnone
      simp only
      have hpos : 0 < (if reg.length ≠ 0 then reg.length else 1) := by
        split <;> omega
      generalize (if reg.length ≠ 0 then reg.length else 1) = n at hpos
      have hat : (reg ++ List.replicate n none).get? reg.length = some (none : Option α) := by
        simp only [List.get?_eq_getElem?]
        rw [List.getElem?_append_right (Nat.le_refl _)]
        simp [List.getElem?_replicate, hpos]
      refine ⟨reg.length, _, rfl, get?_set_same _ _ _ _ hat, ?_, ?_, ?_⟩
      · intro a h
        have := get?_lt_length reg reg.length _ h
        omega
      · intro i a h
        have hlt := get?_lt_length reg i _ h
        rw [get?_set_other _ i reg.length _ (by omega)]
        simp only [List.get?_eq_getElem?] at h ⊢
        rw [List.getElem?_append_left hlt]
        exact h
      · intro i a h
        by_cases hi : i = reg.length
        · exact Or.inl hi
        · right
          rw [get?_set_other _ i reg.length _ hi] at h
          by_cases hlt : i < reg.length
          · simp only [List.get?_eq_getElem?] at h ⊢
            rw [List.getElem?_append_left hlt] at h
            exact h
          · simp only [List.get?_eq_getElem?] at h
            rw [List.getElem?_append_right (by omega)] at h
            simp only [List.getElem?_replicate] at h
            split at h <;> simp at h
    · subst hm
      simp only [Nat.zero_add]
      refine ⟨m, _, rfl, get?_set_same _ _ _ _ hget, ?_, ?_, ?_⟩
      · intro a h
        rw [hget] at h
        simp at h
      · intro i a h
        have hne : i ≠ m := by
          intro e
          subst e
          rw [hget] at h
          simp at h
        rw [get?_set_other _ i m _ hne]
        exact h
      · intro i a h
        by_cases hi : i = m
        · exact Or.inl hi
        · right
          rw [get?_set_other _ i m _ hi] at h
          exact h

theorem registry_make_found {α : Type} (name_of : α → cstr) (create : cstr → α)
    (reg : List (Option α)) (name : cstr) (len : Nat) (hu : registry_unique name_of reg)
    (i : Nat) (a : α) (hi : reg.get? i = some (some a)) (hn : name_of a = entry_name name len) :
    registry_make name_of create reg name len = (i, reg) := by
  rcases registry_make_cases name_of create reg name len with
    ⟨k, b, hk, hb, hmk⟩ | ⟨hno, _⟩
  · have : k = i := hu k i b a hk hi (by rw [hb, hn])
    subst this
    exact hmk
  · exact absurd hn (hno i a hi)

theorem registry_make_persist {α : Type} (name_of : α → cstr) (create : cstr → α)
    (reg : List (Option α)) (name : cstr) (len : Nat) (i : Nat) (a : α)
    (hi : reg.get? i = some (some a)) :
    (registry_make name_of create reg name len).2.get? i = some (some a) := by
  rcases registry_make_cases name_of create reg name len with
    ⟨k, b, _, _, hmk⟩ | ⟨_, e, reg2, hmk, _, _, hp, _⟩
  · rw [hmk]
    exact hi
  · rw [hmk]
    exact hp i a hi

theorem registry_make_unique {α : Type} (name_of : α → cstr) (create : cstr → α)
    (hcreate : ∀ n, name_of (create n) = n)
    (reg : List (Option α)) (name : cstr) (len : Nat) (hu : registry_unique name_of reg) :
    registry_unique name_of (registry_make name_of create reg name len).2 := by
  rcases registry_make_cases name_of create reg name len with
    ⟨k, b, _, _, hmk⟩ | ⟨hno, e, reg2, hmk, hnew, _, _, hrev⟩
  · rw [hmk]
    exact hu
  · rw [hmk]
    intro i j a b hi hj hab
    rcases hrev i a hi with rfl | hio
    · rcases hrev j b hj with rfl | hjo
      · rfl
      · exfalso
        rw [hnew] at hi
        simp only [Option.some.injEq] at hi
        subst hi
        rw [hcreate] at hab
        exact hno j b hjo hab.symm
    · rcases hrev j b hj with rfl | hjo
      · exfalso
        rw [hnew] at hj
        simp only [Option.some.injEq] at hj
        subst hj
        rw [hcreate] at hab
        exact hno i a hio hab
      · exact hu i j a b hio hjo hab

theorem registry_make_returns {α : Type} (name_of : α → cstr) (create : cstr → α)
    (hcreate : ∀ n, name_of (create n) = n)
    (reg : List (Option α)) (name : cstr) (len : Nat) :
    ∃ a, (registry_make name_of create reg name len).2.get?
        (registry_make name_of create reg name len).1 = some (some a) ∧
      name_of a = entry_name name len := by
  rcases registry_make_cases name_of create reg name len with
    ⟨k, b, hk, hb, hmk⟩ | ⟨_, e, reg2, hmk, hnew, _, _, _⟩
  · rw [hmk]
    exact ⟨b, hk, hb⟩
  · rw [hmk]
    exact ⟨_, hnew, hcreate _⟩

theorem registry_run_unique {α : Type} (name_of : α → cstr) (create : cstr → α)
    (hcreate : ∀ n, name_of (create n) = n) (calls : List (cstr × Nat)) :
    ∀ reg, registry_unique name_of reg →
      registry_unique name_of (registry_run (registry_make name_of create) reg calls) := by
  induction calls with
  | nil => intro reg h; exact h
  | cons c cs ih =>
    intro reg h
    exact ih _ (registry_make_unique name_of create hcreate reg c.1 c.2 h)

theorem registry_run_persist {α : Type} (name_of : α → cstr) (create : cstr → α)
    (calls : List (cstr × Nat)) :
    ∀ reg i a, reg.get? i = some (some a) →
      (registry_run (registry_make name_of create) reg calls).get? i = some (some a) := by
  induction calls with
  | nil => intro reg i a h; exact h
  | cons c cs ih =>
    intro reg i a h
    exact ih _ i a (registry_make_persist name_of create reg c.1 c.2 i a h)

theorem registry_make_spec {α : Type} (name_of : α → cstr) (create : cstr → α)
    (hcreate : ∀ n, name_of (create n) = n) :
    registry_spec name_of (registry_make name_of create) := by
  intro calls name len
  have hu : registry_unique name_of (registry_run (registry_make name_of create) [] calls) :=
    registry_run_unique name_of create hcreate calls []
      (fun i j a b hi => by simp at hi)
  generalize registry_run (registry_make name_of create) [] calls = reg at hu
  refine ⟨hu, registry_make_returns name_of create hcreate reg name len, ?_, ?_, ?_⟩
  · rintro ⟨i, a, hi, hn⟩
    rw [registry_make_found name_of create reg name len hu i a hi hn]
  · intro hnone
    rcases registry_make_cases name_of create reg name len with
      ⟨k, b, hk, hb, _⟩ | ⟨_, e, reg2, hmk, _, hslot, hp, hrev⟩
    · exact absurd ⟨k, b, hk, hb⟩ hnone
    · rw [hmk]
      exact ⟨hslot, hp, hrev⟩
  · intro more
    obtain ⟨a, ha, hn⟩ := registry_make_returns name_of create hcreate reg name len
    have hu2 := registry_run_unique name_of create hcreate more _
      (registry_make_unique name_of create hcreate reg name len hu)
    have hp := registry_run_persist name_of create more _ _ a ha
    rw [registry_make_found name_of create _ name len hu2 _ a hp hn]

/-- C19: the registries hold at most one entry per name. For the array of remotes
reached from the empty one by any sequence of `make_remote` calls: no two registered
remotes have the same name; a call returns an entry of the name asked for, leaving the
array unchanged when a remote of exactly that name is registered and adding one entry
otherwise; and a later call with the same name returns the same entry. The same holds
for `make_branch` and the array of branches. -/
theorem make_remote_registry :
    registry_spec remote.name make_remote ∧ registry_spec branch.name make_branch :=
  ⟨registry_make_spec remote.name new_remote (fun _ => rfl),
   registry_make_spec branch.name new_branch (fun _ => rfl)⟩

theorem make_remote_registry_witness :
    (∃ i a, (registry_run make_remote [] [("origin".toList, 0)]).get? i = some (some a) ∧
      remote.name a = entry_name "origin".toList 0) ∧
    (make_remote (registry_run make_remote [] [("origin".toList, 0)]) "origin".toList 0).2
      = registry_run make_remote [] [("origin".toList, 0)] :=
  ⟨⟨0, new_remote "origin".toList, rfl, rfl⟩,
   (make_remote_registry.1 [("origin".toList, 0)] "origin".toList 0).2.2.1
     ⟨0, new_remote "origin".toList, rfl, rfl⟩⟩

/-! ## lockfile.c: acquisition -/

theorem readlink_cons_file (fs : List (cstr × fnode)) (q : cstr) (d : List Nat)
    (hq : fs_lookup fs q = none) (p : cstr) :
    readlink ((q, fnode.file d) :: fs) p = readlink fs p := by
  unfold readlink
  by_cases hp : q = p
  · subst hp
    simp [fs_lookup, hq]
  · simp [fs_lookup, hp]

theorem resolve_symlink_loop_congr (PATH_MAX : Nat) (fs1 fs2 : List (cstr × fnode)) (s : Nat)
    (h : ∀ p, readlink fs1 p = readlink fs2 p) (depth : Nat) (p : cstr) :
    resolve_symlink_loop PATH_MAX fs1 s depth p = resolve_symlink_loop PATH_MAX fs2 s depth p := by
  induction depth generalizing p with
  | zero => rfl
  | succ d ih =>
    simp only [resolve_symlink_loop, h p]
    cases readlink fs2 p with
    | none => rfl
    | some link => simp only [ih]

theorem resolve_symlink_cons_file (PATH_MAX : Nat) (fs : List (cstr × fnode)) (q : cstr)
    (d : List Nat) (hq : fs_lookup fs q = none) (p : cstr) (s : Nat) :
    resolve_symlink PATH_MAX ((q, fnode.file d) :: fs) p s = resolve_symlink PATH_MAX fs p s :=
  resolve_symlink_loop_congr PATH_MAX _ _ s (readlink_cons_file fs q d hq) MAXDEPTH p

/-- The name of the sidecar file `lock_file` opens for a path. -/
theorem lock_file_fn_acquired (env : lock_env) (w w1 : lock_world) (lk : Nat) (path : cstr)
    (fd : Int) (h : lock_file_fn env w lk path = outcome.ret (fd, w1)) (hfd : 0 ≤ fd) :
    path.length < env.PATH_MAX ∧
    (resolve_symlink env.PATH_MAX w.fs path (env.PATH_MAX - 5) ++ ".lock".toList).length
      < env.PATH_MAX ∧
    fs_lookup w.fs (resolve_symlink env.PATH_MAX w.fs path (env.PATH_MAX - 5) ++ ".lock".toList)
      = none ∧
    w1.fs = (resolve_symlink env.PATH_MAX w.fs path (env.PATH_MAX - 5) ++ ".lock".toList,
      fnode.file []) :: w.fs ∧
    w1.handles.get? lk = some
      { fd := fd, owner := env.pid, on_list := true,
        filename := resolve_symlink env.PATH_MAX w.fs path (env.PATH_MAX - 5) ++ ".lock".toList } := by
  unfold lock_file_fn at h
  cases hh : w.handles.get? lk with
  | none => rw [hh] at h; cases h
  | some h0 =>
    rw [hh] at h
    have hlt : lk < w.handles.length := by
      rcases List.get?_eq_some.mp hh with ⟨hl, _⟩
      exact hl
    simp only at h
    split at h
    · cases h
      omega
    · rename_i hlen
      split at h
      · cases h
      · rename_i hlen2
        split at h
        · rename_i hc
          split at h
          · cases h
            omega
          · cases h
            refine ⟨by omega, by omega, ?_, rfl, ?_⟩
            · simpa using hc.1
            · simp [List.getElem?_set, hlt]
        · cases h
          omega

/-- A call of `lock_file` for a path whose sidecar file exists returns -1 and leaves
the files as they are. -/
theorem lock_file_fn_busy (env : lock_env) (w : lock_world) (lk : Nat) (path : cstr)
    (n : fnode) (hlk : lk < w.handles.length) (hlen : path.length < env.PATH_MAX)
    (hlen2 : (resolve_symlink env.PATH_MAX w.fs path (env.PATH_MAX - 5) ++ ".lock".toList).length
      < env.PATH_MAX)
    (hex : fs_lookup w.fs
      (resolve_symlink env.PATH_MAX w.fs path (env.PATH_MAX - 5) ++ ".lock".toList) = some n) :
    ∃ w2, lock_file_fn env w lk path = outcome.ret (-1, w2) ∧ w2.fs = w.fs ∧
      (w2.handles.get? lk).map lock_file.filename = some [] := by
  unfold lock_file_fn
  have hg : w.handles.get? lk = some (w.handles.get ⟨lk, hlk⟩) := List.get?_eq_get hlk
  rw [hg]
  simp only
  rw [if_neg (by omega), if_neg (by omega), hex]
  simp [List.getElem?_set, hlk]

/-- C20: lock mutual exclusion. When `hold_lock_file_for_update` has returned a
descriptor for a path, its sidecar file (the resolved path followed by `.lock`) has been
created, and a second `hold_lock_file_for_update` for the same path with `die_on_error`
off, through any handle of any process that sees the same files, returns -1 and leaves
the files, the sidecar of the first lock among them, as they are. -/
theorem hold_lock_file_for_update_exclusive (env env2 : lock_env) (w w1 wx : lock_world)
    (lk lk2 : Nat) (path : cstr) (d fd : Int)
    (hmax : env2.PATH_MAX = env.PATH_MAX)
    (h1 : hold_lock_file_for_update env w lk path d = outcome.ret (fd, w1)) (hfd : 0 ≤ fd)
    (hfs : wx.fs = w1.fs) (hlk2 : lk2 < wx.handles.length) :
    (w1.handles.get? lk).map lock_file.filename
      = some (resolve_symlink env.PATH_MAX w.fs path (env.PATH_MAX - 5) ++ ".lock".toList) ∧
    fs_lookup w.fs (resolve_symlink env.PATH_MAX w.fs path (env.PATH_MAX - 5) ++ ".lock".toList)
      = none ∧
    fs_lookup w1.fs (resolve_symlink env.PATH_MAX w.fs path (env.PATH_MAX - 5) ++ ".lock".toList)
      = some (fnode.file []) ∧
    ∃ w2, hold_lock_file_for_update env2 wx lk2 path 0 = outcome.ret (-1, w2) ∧
      w2.fs = w1.fs := by
  have h1a : lock_file_fn env w lk path = outcome.ret (fd, w1) := by
    unfold hold_lock_file_for_update at h1
    cases hl : lock_file_fn env w lk path with
    | ret r =>
      rw [hl] at h1
      obtain ⟨fd0, w0⟩ := r
      simp only at h1
      split at h1
      · cases h1
      · exact h1
    | died m => rw [hl] at h1; cases h1
    | fault => rw [hl] at h1; cases h1
  obtain ⟨hlen, hlen2, hno, hfs1, hh⟩ := lock_file_fn_acquired env w w1 lk path fd h1a hfd
  have hres : resolve_symlink env2.PATH_MAX wx.fs path (env2.PATH_MAX - 5)
      = resolve_symlink env.PATH_MAX w.fs path (env.PATH_MAX - 5) := by
    rw [hmax, hfs, hfs1]
    exact resolve_symlink_cons_file _ _ _ _ hno _ _
  have hex : fs_lookup w1.fs
      (resolve_symlink env.PATH_MAX w.fs path (env.PATH_MAX - 5) ++ ".lock".toList)
      = some (fnode.file []) := by
    rw [hfs1]
    simp [fs_lookup]
  refine ⟨by rw [hh]; rfl, hno, hex, ?_⟩
  obtain ⟨w2, hw2, hw2fs, _⟩ := lock_file_fn_busy env2 wx lk2 path (fnode.file []) hlk2
    (by rw [hmax]; exact hlen) (by rw [hres, hmax]; exact hlen2) (by rw [hres, hfs]; exact hex)
  refine ⟨w2, ?_, by rw [hw2fs, hfs]⟩
  unfold hold_lock_file_for_update
  rw [hw2]
  simp

theorem hold_lock_file_for_update_exclusive_witness :
    hold_lock_file_for_update lock_env_example lock_world_example 0 "index".toList 0
      = outcome.ret (3, lock_world_held_example) ∧
    ∃ w2, hold_lock_file_for_update lock_env_example lock_world_held_example 1 "index".toList 0
        = outcome.ret (-1, w2) ∧
      w2.fs = lock_world_held_example.fs :=
  ⟨by decide, (hold_lock_file_for_update_exclusive lock_env_example lock_env_example
    lock_world_example lock_world_held_example lock_world_held_example 0 1 "index".toList 0 3
    rfl (by decide) (by decide) rfl (by decide)).2.2.2⟩

/-! ## lockfile.c: commit, rollback and cleanup -/

theorem fs_lookup_remove (fs : List (cstr × fnode)) (q p : cstr) :
    fs_lookup (fs_remove fs q) p = if p = q then none else fs_lookup fs p := by
  induction fs with
  | nil => simp [fs_remove, fs_lookup]
  | cons e rest ih =>
    obtain ⟨e1, e2⟩ := e
    unfold fs_remove at ih ⊢
    by_cases he : e1 = q
    · subst he
      rw [List.filter_cons_of_neg (by simp), ih]
      by_cases hp : p = e1
      · simp [hp]
      · have hp2 : ¬ e1 = p := fun h => hp h.symm
        simp [hp, fs_lookup, hp2]
    · rw [List.filter_cons_of_pos (by simpa using he)]
      by_cases hp : e1 = p
      · subst hp
        simp [fs_lookup, he]
      · simp only [fs_lookup, if_neg hp]
        exact ih

theorem fs_lookup_rename (fs : List (cstr × fnode)) (old new p : cstr) (n : fnode) :
    fs_lookup (fs_rename fs old new n) p =
      if p = new then some n else if p = old then none else fs_lookup fs p := by
  unfold fs_rename
  by_cases hp : new = p
  · subst hp
    simp [fs_lookup]
  · have hp2 : ¬ p = new := fun h => hp h.symm
    simp only [fs_lookup, if_neg hp, if_neg hp2, fs_lookup_remove]

theorem set_get?_self {α : Type} (l : List α) (i : Nat) (a : α) (h : l.get? i = some a) :
    l.set i a = l := by
  induction l generalizing i with
  | nil => rfl
  | cons x xs ih =>
    cases i with
    | zero =>
      simp only [List.get?_cons_zero, Option.some.injEq] at h
      subst h
      rfl
    | succ k =>
      simp only [List.get?_cons_succ] at h
      simp only [List.set_cons_succ, ih k h]

/-- The exit cleanup keeps every path that is not the file name of a handle of this
process on the list. -/
theorem remove_lock_file_loop_frame (me : Int) (handles : List lock_file) (p : cstr) :
    ∀ (l : List Nat) (st out : List (cstr × fnode) × List Nat),
      (∀ i ∈ l, ∀ h, handles.get? i = some h → h.owner = me → h.filename ≠ [] →
        h.filename ≠ p) →
      remove_lock_file_loop me handles l st = outcome.ret out →
      fs_lookup out.1 p = fs_lookup st.1 p := by
  intro l
  induction l with
  | nil =>
    intro st out _ h
    simp only [remove_lock_file_loop, outcome.ret.injEq] at h
    rw [h]
  | cons i rest ih =>
    intro st out hne h
    unfold remove_lock_file_loop at h
    cases hg : handles.get? i with
    | none => rw [hg] at h; cases h
    | some hd =>
      rw [hg] at h
      simp only at h
      have hrest : ∀ j ∈ rest, ∀ h, handles.get? j = some h → h.owner = me → h.filename ≠ [] →
          h.filename ≠ p := fun j hj => hne j (List.mem_cons_of_mem _ hj)
      split at h
      · rename_i hc
        rw [ih _ _ hrest h]
        simp only [fs_lookup_remove]
        have := hne i (List.mem_cons_self _ _) hd hg hc.1 hc.2
        rw [if_neg (fun e => this e.symm)]
      · exact ih _ _ hrest h

/-- After the exit cleanup no file is left at the file name of a handle of this process
on the list. -/
theorem remove_lock_file_loop_removes (me : Int) (handles : List lock_file) (p : cstr) :
    ∀ (l : List Nat) (st out : List (cstr × fnode) × List Nat),
      remove_lock_file_loop me handles l st = outcome.ret out →
      (fs_lookup st.1 p = none ∨
        ∃ i ∈ l, ∃ h, handles.get? i = some h ∧ h.owner = me ∧ h.filename ≠ [] ∧
          h.filename = p) →
      fs_lookup out.1 p = none := by
  intro l
  induction l with
  | nil =>
    intro st out h hp
    simp only [remove_lock_file_loop, outcome.ret.injEq] at h
    rw [← h]
    rcases hp with hp | ⟨i, hi, _⟩
    · exact hp
    · cases hi
  | cons i rest ih =>
    intro st out h hp
    unfold remove_lock_file_loop at h
    cases hg : handles.get? i with
    | none => rw [hg] at h; cases h
    | some hd =>
      rw [hg] at h
      simp only at h
      split at h
      · rename_i hc
        apply ih _ _ h
        by_cases hfp : hd.filename = p
        · left
          simp [fs_lookup_remove, hfp]
        · rcases hp with hp | ⟨j, hj, h2, hg2, ho, hn, hf⟩
          · left
            simp only [fs_lookup_remove]
            split
            · rfl
            · exact hp
          · rcases List.mem_cons.mp hj with hji | hjr
            · subst hji
              rw [hg] at hg2
              cases hg2
              exact absurd hf hfp
            · exact Or.inr ⟨j, hjr, h2, hg2, ho, hn, hf⟩
      · rename_i hc
        apply ih _ _ h
        rcases hp with hp | ⟨j, hj, h2, hg2, ho, hn, hf⟩
        · exact Or.inl hp
        · rcases List.mem_cons.mp hj with hji | hjr
          · subst hji
            rw [hg] at hg2
            cases hg2
            exact absurd ⟨ho, hn⟩ hc
          · exact Or.inr ⟨j, hjr, h2, hg2, ho, hn, hf⟩

/-- The exit cleanup returns when the list links handles only. -/
theorem remove_lock_file_loop_returns (me : Int) (handles : List lock_file) :
    ∀ (l : List Nat) (st : List (cstr × fnode) × List Nat),
      (∀ i ∈ l, i < handles.length) →
      ∃ out, remove_lock_file_loop me handles l st = outcome.ret out := by
  intro l
  induction l with
  | nil => intro st _; exact ⟨st, rfl⟩
  | cons i rest ih =>
    intro st hv
    unfold remove_lock_file_loop
    rw [List.get?_eq_get (hv i (List.mem_cons_self _ _))]
    simp only
    have hrest : ∀ j ∈ rest, j < handles.length := fun j hj => hv j (List.mem_cons_of_mem _ hj)
    split
    · exact ih _ hrest
    · exact ih _ hrest

theorem commit_closed_fs (w : lock_world) (lk : Nat) (h : lock_file) :
    (commit_closed w lk h).fs = w.fs := by
  unfold commit_closed
  split <;> rfl

theorem commit_closed_get? (w : lock_world) (lk : Nat) (h : lock_file)
    (hh : w.handles.get? lk = some h) :
    (commit_closed w lk h).handles.get? lk
      = some { h with fd := if 0 ≤ h.fd then -1 else h.fd } := by
  have hlt : lk < w.handles.length := (List.get?_eq_some.mp hh).1
  unfold commit_closed
  split
  · simp [List.getElem?_set, hlt]
  · rw [hh]

theorem commit_closed_get?_ne (w : lock_world) (lk j : Nat) (h : lock_file) (hj : j ≠ lk) :
    (commit_closed w lk h).handles.get? j = w.handles.get? j := by
  unfold commit_closed
  split
  · simp [List.getElem?_set, Ne.symm hj]
  · rfl

theorem commit_closed_list (w : lock_world) (lk : Nat) (h : lock_file) :
    (commit_closed w lk h).lock_file_list = w.lock_file_list := by
  unfold commit_closed
  split <;> rfl

/-- The value and the state of `commit_lock_file` for a handle whose file name has the
five characters of the suffix. -/
theorem commit_lock_file_eq (env : lock_env) (w : lock_world) (lk : Nat) (h : lock_file)
    (hh : w.handles.get? lk = some h) (hlen : 5 ≤ h.filename.length) :
    commit_lock_file env w lk =
      if 0 ≤ h.fd ∧ env.close_fails h.fd = true then outcome.ret (-1, commit_closed w lk h)
      else
        match fs_lookup w.fs h.filename with
        | none => outcome.ret (-1, commit_closed w lk h)
        | some n =>
          if env.rename_fails h.filename (h.filename.take (h.filename.length - 5)) then
            outcome.ret (-1, commit_closed w lk h)
          else
            outcome.ret (0,
              { commit_closed w lk h with
                fs := fs_rename w.fs h.filename (h.filename.take (h.filename.length - 5)) n,
                handles := (commit_closed w lk h).handles.set lk
                  { h with fd := if 0 ≤ h.fd then -1 else h.fd, filename := [] } }) := by
  have hlt : lk < w.handles.length := (List.get?_eq_some.mp hh).1
  have hnl : ¬ h.filename.length < 5 := by omega
  unfold commit_lock_file
  rw [hh]
  simp only
  by_cases hfd : 0 ≤ h.fd
  · rw [if_pos hfd]
    unfold close_lock_file
    rw [hh]
    simp only
    have hcc : commit_closed w lk h =
        { w with handles := w.handles.set lk { h with fd := -1 },
                 open_fds := close_fd w.open_fds h.fd } := by
      unfold commit_closed
      rw [if_pos hfd]
    by_cases hc : env.close_fails h.fd = true
    · simp [hc, hfd, hcc]
    · have hc2 : env.close_fails h.fd = false := by simpa using hc
      simp only [hc2, hcc, hfd, Bool.false_eq_true, if_false, and_false, ne_eq,
        not_true_eq_false, if_true]
      simp only [List.get?_eq_getElem?, List.getElem?_set, hlt, if_true, if_neg hnl]
  · rw [if_neg hfd]
    have hcc : commit_closed w lk h = w := by
      unfold commit_closed
      rw [if_neg hfd]
    rw [if_neg (fun x => hfd x.1), hcc]
    simp only [ne_eq, not_true_eq_false, if_false, hh, if_neg hnl, if_neg hfd]

/-- On a handle that holds no lock `rollback_lock_file` changes nothing. -/
theorem rollback_lock_file_released (w : lock_world) (lk : Nat) (h : lock_file)
    (hh : w.handles.get? lk = some h) (hf : h.filename = []) :
    rollback_lock_file w lk = outcome.ret w := by
  unfold rollback_lock_file
  rw [hh]
  simp only [hf, ne_eq, not_true_eq_false, if_false]
  have hself : ({ h with filename := [] } : lock_file) = h := by
    cases h
    simp only at hf
    subst hf
    rfl
  rw [hself, set_get?_self _ _ _ hh]

/-- What `rollback_lock_file` does on a handle that holds a lock. -/
theorem rollback_lock_file_held (w : lock_world) (lk : Nat) (h : lock_file)
    (hh : w.handles.get? lk = some h) (hf : h.filename ≠ []) :
    rollback_lock_file w lk = outcome.ret
      { w with fs := fs_remove w.fs h.filename,
               open_fds := if 0 ≤ h.fd then close_fd w.open_fds h.fd else w.open_fds,
               handles := w.handles.set lk { h with filename := [] } } := by
  unfold rollback_lock_file
  rw [hh]
  simp only [if_pos hf]

theorem remove_lock_file_frame (env : lock_env) (w w3 : lock_world) (p : cstr)
    (h : remove_lock_file env w = outcome.ret w3)
    (hne : ∀ i ∈ w.lock_file_list, ∀ h, w.handles.get? i = some h → h.owner = env.pid →
      h.filename ≠ [] → h.filename ≠ p) :
    fs_lookup w3.fs p = fs_lookup w.fs p := by
  unfold remove_lock_file at h
  cases hl : remove_lock_file_loop env.pid w.handles w.lock_file_list (w.fs, w.open_fds) with
  | ret st =>
    rw [hl] at h
    simp only [outcome.ret.injEq] at h
    rw [← h]
    exact remove_lock_file_loop_frame env.pid w.handles p _ _ _ hne hl
  | died m => rw [hl] at h; cases h
  | fault => rw [hl] at h; cases h

theorem length_lock_suffix (path : cstr) : (path ++ ".lock".toList).length = path.length + 5 := by
  simp

theorem take_lock_suffix (path : cstr) :
    (path ++ ".lock".toList).take ((path ++ ".lock".toList).length - 5) = path := by
  rw [length_lock_suffix, Nat.add_sub_cancel, List.take_left]

theorem ne_lock_suffix (path : cstr) : path ≠ path ++ ".lock".toList := by
  intro h
  have := congrArg List.length h
  rw [length_lock_suffix] at this
  omega

/-- C21: `commit_lock_file` on a handle that holds the lock of `path` (its file name is
`path` followed by `.lock`). The call returns 0 or -1, and 0 exactly when `close` does
not fail on an open descriptor, the sidecar file is there and `rename` does not fail.
When it returns 0 the sidecar file is gone, `path` names what the sidecar file was, every
other path is as before, the handle has an empty file name, a `rollback_lock_file` on it
changes no file, and the exit cleanup changes no path but the file names of other
handles. When it returns -1 the files are as before and the handle keeps its file
name. -/
theorem commit_lock_file_renames (env : lock_env) (w : lock_world) (lk : Nat) (h : lock_file)
    (path : cstr) (hh : w.handles.get? lk = some h)
    (hf : h.filename = path ++ ".lock".toList) :
    ∃ r w2, commit_lock_file env w lk = outcome.ret (r, w2) ∧
      (r = 0 ∨ r = -1) ∧
      (r = 0 ↔ (¬ (0 ≤ h.fd ∧ env.close_fails h.fd = true) ∧
        (fs_lookup w.fs (path ++ ".lock".toList)).isSome = true ∧
        env.rename_fails (path ++ ".lock".toList) path = false)) ∧
      (r = 0 →
        fs_lookup w2.fs (path ++ ".lock".toList) = none ∧
        fs_lookup w2.fs path = fs_lookup w.fs (path ++ ".lock".toList) ∧
        (∀ p, p ≠ path → p ≠ path ++ ".lock".toList → fs_lookup w2.fs p = fs_lookup w.fs p) ∧
        (w2.handles.get? lk).map lock_file.filename = some [] ∧
        (∀ j, j ≠ lk → w2.handles.get? j = w.handles.get? j) ∧
        rollback_lock_file w2 lk = outcome.ret w2 ∧
        ∀ w3 p, remove_lock_file env w2 = outcome.ret w3 →
          (∀ j h2, j ≠ lk → w.handles.get? j = some h2 → h2.filename ≠ p) →
          fs_lookup w3.fs p = fs_lookup w2.fs p) ∧
      (r = -1 →
        w2.fs = w.fs ∧
        (w2.handles.get? lk).map lock_file.filename = some (path ++ ".lock".toList)) := by
  have hlt : lk < w.handles.length := (List.get?_eq_some.mp hh).1
  have hlen : 5 ≤ h.filename.length := by rw [hf, length_lock_suffix]; omega
  have heq := commit_lock_file_eq env w lk h hh hlen
  rw [hf, take_lock_suffix] at heq
  have hfail : ∀ (hbad : ¬ (¬ (0 ≤ h.fd ∧ env.close_fails h.fd = true) ∧
      (fs_lookup w.fs (path ++ ".lock".toList)).isSome = true ∧
      env.rename_fails (path ++ ".lock".toList) path = false)),
      commit_lock_file env w lk = outcome.ret (-1, commit_closed w lk h) →
      ∃ r w2, commit_lock_file env w lk = outcome.ret (r, w2) ∧
      (r = 0 ∨ r = -1) ∧
      (r = 0 ↔ (¬ (0 ≤ h.fd ∧ env.close_fails h.fd = true) ∧
        (fs_lookup w.fs (path ++ ".lock".toList)).isSome = true ∧
        env.rename_fails (path ++ ".lock".toList) path = false)) ∧
      (r = 0 →
        fs_lookup w2.fs (path ++ ".lock".toList) = none ∧
        fs_lookup w2.fs path = fs_lookup w.fs (path ++ ".lock".toList) ∧
        (∀ p, p ≠ path → p ≠ path ++ ".lock".toList → fs_lookup w2.fs p = fs_lookup w.fs p) ∧
        (w2.handles.get? lk).map lock_file.filename = some [] ∧
        (∀ j, j ≠ lk → w2.handles.get? j = w.handles.get? j) ∧
        rollback_lock_file w2 lk = outcome.ret w2 ∧
        ∀ w3 p, remove_lock_file env w2 = outcome.ret w3 →
          (∀ j h2, j ≠ lk → w.handles.get? j = some h2 → h2.filename ≠ p) →
          fs_lookup w3.fs p = fs_lookup w2.fs p) ∧
      (r = -1 →
        w2.fs = w.fs ∧
        (w2.handles.get? lk).map lock_file.filename = some (path ++ ".lock".toList)) := by
    intro hbad hc
    refine ⟨-1, commit_closed w lk h, hc, Or.inr rfl, ?_, ?_, ?_⟩
    · constructor
      · intro h0
        exact absurd h0 (by decide)
      · intro hg
        exact absurd hg hbad
    · intro h0
      exact absurd h0 (by decide)
    · intro _
      refine ⟨commit_closed_fs w lk h, ?_⟩
      rw [commit_closed_get? w lk h hh]
      simp [hf]
  by_cases hcl : 0 ≤ h.fd ∧ env.close_fails h.fd = true
  · rw [if_pos hcl] at heq
    exact hfail (fun x => x.1 hcl) heq
  · rw [if_neg hcl] at heq
    have hcase : fs_lookup w.fs (path ++ ".lock".toList) = none ∨
        ∃ n, fs_lookup w.fs (path ++ ".lock".toList) = some n := by
      cases fs_lookup w.fs (path ++ ".lock".toList) with
      | none => exact Or.inl rfl
      | some n => exact Or.inr ⟨n, rfl⟩
    rcases hcase with hn | ⟨n, hn⟩
    · rw [hn] at heq
      exact hfail (fun x => by rw [hn] at x; exact absurd x.2.1 (by simp)) heq
    · rw [hn] at heq
      simp only at heq
      by_cases hr : env.rename_fails (path ++ ".lock".toList) path = true
      · rw [if_pos hr] at heq
        exact hfail (fun x => by rw [hr] at x; exact absurd x.2.2 (by simp)) heq
      · rw [if_neg hr] at heq
        have hr2 : env.rename_fails (path ++ ".lock".toList) path = false := by simpa using hr
        have hlt2 : lk < (commit_closed w lk h).handles.length := by
          have := commit_closed_get? w lk h hh
          exact (List.get?_eq_some.mp this).1
        refine ⟨0, _, heq, Or.inl rfl, ?_, ?_, ?_⟩
        · constructor
          · intro _
            exact ⟨hcl, by rw [hn]; rfl, hr2⟩
          · intro _
            rfl
        · intro _
          have hget : ∀ j, j ≠ lk →
              ((commit_closed w lk h).handles.set lk
                { h with fd := if 0 ≤ h.fd then -1 else h.fd, filename := [] }).get? j
              = w.handles.get? j := by
            intro j hj
            rw [List.get?_eq_getElem?, List.getElem?_set_ne (Ne.symm hj),
              ← List.get?_eq_getElem?]
            exact commit_closed_get?_ne w lk j h hj
          have hgetlk : ((commit_closed w lk h).handles.set lk
                { h with fd := if 0 ≤ h.fd then -1 else h.fd, filename := [] }).get? lk
              = some { h with fd := if 0 ≤ h.fd then -1 else h.fd, filename := [] } := by
            simp [List.getElem?_set, hlt2]
          refine ⟨?_, ?_, ?_, ?_, hget, ?_, ?_⟩
          · rw [fs_lookup_rename, if_neg (fun e => ne_lock_suffix path e.symm), if_pos rfl]
          · rw [fs_lookup_rename, if_pos rfl, hn]
          · intro q hq1 hq2
            rw [fs_lookup_rename, if_neg hq1, if_neg hq2]
          · simp only
            rw [hgetlk]
            rfl
          · exact rollback_lock_file_released _ lk _ hgetlk rfl
          · intro w3 q hw3 hq
            apply remove_lock_file_frame env _ w3 q hw3
            intro i _ h2 hi _ hne
            by_cases hil : i = lk
            · subst hil
              simp only at hi
              rw [hgetlk] at hi
              cases hi
              exact absurd rfl hne
            · simp only at hi
              rw [hget i hil] at hi
              exact hq i h2 hil hi
        · intro h0
          exact absurd h0 (by decide)

theorem commit_lock_file_renames_witness :
    lock_world_held_example.handles.get? 0 = some ⟨3, 7, true, "real.lock".toList⟩ ∧
    ∃ r w2, commit_lock_file lock_env_example lock_world_held_example 0 = outcome.ret (r, w2) ∧
      (r = 0 ∨ r = -1) :=
  ⟨rfl,
   match commit_lock_file_renames lock_env_example lock_world_held_example 0
     ⟨3, 7, true, "real.lock".toList⟩ "real".toList rfl rfl with
   | ⟨r, w2, h1, h2, _⟩ => ⟨r, w2, h1, h2⟩⟩

theorem readlink_remove (fs : List (cstr × fnode)) (q : cstr)
    (hq : ∀ t, fs_lookup fs q ≠ some (fnode.symlink t)) (p : cstr) :
    readlink (fs_remove fs q) p = readlink fs p := by
  unfold readlink
  rw [fs_lookup_remove]
  by_cases hp : p = q
  · subst hp
    rw [if_pos rfl]
    cases hl : fs_lookup fs p with
    | none => rfl
    | some n =>
      cases n with
      | file d => rfl
      | symlink t => exact absurd hl (hq t)
  · rw [if_neg hp]

theorem resolve_symlink_remove (PATH_MAX : Nat) (fs : List (cstr × fnode)) (q : cstr)
    (hq : ∀ t, fs_lookup fs q ≠ some (fnode.symlink t)) (p : cstr) (s : Nat) :
    resolve_symlink PATH_MAX (fs_remove fs q) p s = resolve_symlink PATH_MAX fs p s :=
  resolve_symlink_loop_congr PATH_MAX _ _ s (readlink_remove fs q hq) MAXDEPTH p

/-- A call of `lock_file` for a path whose sidecar file does not exist and can be
created returns a descriptor and creates the sidecar file. -/
theorem lock_file_fn_free (env : lock_env) (w : lock_world) (lk : Nat) (path : cstr)
    (hlk : lk < w.handles.length) (hlen : path.length < env.PATH_MAX)
    (hlen2 : (resolve_symlink env.PATH_MAX w.fs path (env.PATH_MAX - 5) ++ ".lock".toList).length
      < env.PATH_MAX)
    (hno : fs_lookup w.fs
      (resolve_symlink env.PATH_MAX w.fs path (env.PATH_MAX - 5) ++ ".lock".toList) = none)
    (hc : env.creatable
      (resolve_symlink env.PATH_MAX w.fs path (env.PATH_MAX - 5) ++ ".lock".toList) = true)
    (ha : env.adjust_shared_perm
      (resolve_symlink env.PATH_MAX w.fs path (env.PATH_MAX - 5) ++ ".lock".toList) = 0) :
    ∃ w2, lock_file_fn env w lk path = outcome.ret ((fresh_fd w.open_fds : Int), w2) ∧
      w2.fs = (resolve_symlink env.PATH_MAX w.fs path (env.PATH_MAX - 5) ++ ".lock".toList,
        fnode.file []) :: w.fs ∧
      w2.handles = w.handles.set lk
        { fd := (fresh_fd w.open_fds : Int), owner := env.pid, on_list := true,
          filename := resolve_symlink env.PATH_MAX w.fs path (env.PATH_MAX - 5)
            ++ ".lock".toList } := by
  unfold lock_file_fn
  have hg : w.handles.get? lk = some (w.handles.get ⟨lk, hlk⟩) := List.get?_eq_get hlk
  rw [hg]
  simp only
  rw [if_neg (by omega), if_neg (by omega), hno, hc]
  simp only [Option.isNone_none, and_self, if_true, ha, ne_eq, not_true_eq_false, if_false]
  exact ⟨_, rfl, rfl, rfl⟩

/-- C22: `rollback_lock_file` on a handle that holds the lock of `path` (its file name
is `path` followed by `.lock`, a regular file or nothing). The call returns; afterwards
the sidecar file is gone, every other path, `path` among them, is as before, the handle
has an empty file name and the other handles are as before. A second call changes
nothing, as does a call on any handle whose file name is empty. A path that resolves to
`path` can then be locked again: `hold_lock_file_for_update` returns a descriptor and
creates the sidecar file, when the environment lets the file be created. -/
theorem rollback_lock_file_releases (w : lock_world) (lk : Nat) (h : lock_file) (path : cstr)
    (hh : w.handles.get? lk = some h) (hf : h.filename = path ++ ".lock".toList)
    (hreg : ∀ t, fs_lookup w.fs (path ++ ".lock".toList) ≠ some (fnode.symlink t)) :
    ∃ w2, rollback_lock_file w lk = outcome.ret w2 ∧
      fs_lookup w2.fs (path ++ ".lock".toList) = none ∧
      (∀ p, p ≠ path ++ ".lock".toList → fs_lookup w2.fs p = fs_lookup w.fs p) ∧
      fs_lookup w2.fs path = fs_lookup w.fs path ∧
      (w2.handles.get? lk).map lock_file.filename = some [] ∧
      (∀ j, j ≠ lk → w2.handles.get? j = w.handles.get? j) ∧
      rollback_lock_file w2 lk = outcome.ret w2 ∧
      (∀ (w0 : lock_world) (lk0 : Nat) (h0 : lock_file), w0.handles.get? lk0 = some h0 →
        h0.filename = [] → rollback_lock_file w0 lk0 = outcome.ret w0) ∧
      ∀ (env : lock_env) (lk2 : Nat) (p0 : cstr) (d : Int),
        lk2 < w2.handles.length → p0.length < env.PATH_MAX →
        resolve_symlink env.PATH_MAX w.fs p0 (env.PATH_MAX - 5) = path →
        (path ++ ".lock".toList).length < env.PATH_MAX →
        env.creatable (path ++ ".lock".toList) = true →
        env.adjust_shared_perm (path ++ ".lock".toList) = 0 →
        ∃ fd w3, hold_lock_file_for_update env w2 lk2 p0 d = outcome.ret (fd, w3) ∧ 0 ≤ fd ∧
          fs_lookup w3.fs (path ++ ".lock".toList) = some (fnode.file []) ∧
          (w3.handles.get? lk2).map lock_file.filename = some (path ++ ".lock".toList) := by
  have hlt : lk < w.handles.length := (List.get?_eq_some.mp hh).1
  have hne : h.filename ≠ [] := by
    rw [hf]
    intro e
    have := congrArg List.length e
    rw [length_lock_suffix] at this
    simp at this
  have hlk : (w.handles.set lk { h with filename := [] }).get? lk
      = some { h with filename := [] } := by
    simp [List.getElem?_set, hlt]
  refine ⟨_, rollback_lock_file_held w lk h hh hne, ?_, ?_, ?_, ?_, ?_, ?_, ?_, ?_⟩
  · simp only [hf, fs_lookup_remove, if_true]
  · intro q hq
    simp only [hf, fs_lookup_remove, if_neg hq]
  · simp only [hf, fs_lookup_remove, if_neg (ne_lock_suffix path)]
  · simp only
    rw [hlk]
    rfl
  · intro j hj
    simp only
    rw [List.get?_eq_getElem?, List.getElem?_set_ne (Ne.symm hj), ← List.get?_eq_getElem?]
  · exact rollback_lock_file_released _ lk _ hlk rfl
  · intro w0 lk0 h0 h1 h2
    exact rollback_lock_file_released w0 lk0 h0 h1 h2
  · intro env lk2 p0 d hlk2 hp0 hres hlen2 hc ha
    simp only at hlk2
    have hres2 : resolve_symlink env.PATH_MAX (fs_remove w.fs h.filename) p0 (env.PATH_MAX - 5)
        = path := by
      rw [hf, resolve_symlink_remove _ _ _ hreg, hres]
    obtain ⟨w3, hw3, hfs3, hh3⟩ := lock_file_fn_free env
      { w with fs := fs_remove w.fs h.filename,
               open_fds := if 0 ≤ h.fd then close_fd w.open_fds h.fd else w.open_fds,
               handles := w.handles.set lk { h with filename := [] } }
      lk2 p0 hlk2 hp0
      (by simp only; rw [hres2]; exact hlen2)
      (by simp only; rw [hres2, hf, fs_lookup_remove, if_pos rfl])
      (by simp only; rw [hres2]; exact hc)
      (by simp only; rw [hres2]; exact ha)
    simp only [hres2] at hfs3 hh3
    have hnn : (0 : Int) ≤
        (fresh_fd (if 0 ≤ h.fd then close_fd w.open_fds h.fd else w.open_fds) : Int) :=
      Int.natCast_nonneg _
    refine ⟨(fresh_fd (if 0 ≤ h.fd then close_fd w.open_fds h.fd else w.open_fds) : Int), w3,
      ?_, hnn, ?_, ?_⟩
    · unfold hold_lock_file_for_update
      rw [hw3]
      simp only
      rw [if_neg]
      intro hc2
      omega
    · rw [hfs3]
      simp [fs_lookup]
    · rw [hh3]
      have hlk3 : lk2 < w.handles.length := by simpa using hlk2
      simp [List.getElem?_set, hlk3]

theorem rollback_lock_file_releases_witness :
    ∃ w2, rollback_lock_file lock_world_held_example 0 = outcome.ret w2 ∧
      fs_lookup w2.fs ("real".toList ++ ".lock".toList) = none :=
  match rollback_lock_file_releases lock_world_held_example 0 ⟨3, 7, true, "real.lock".toList⟩
    "real".toList rfl rfl
    (by
      intro t h
      have h2 : fs_lookup lock_world_held_example.fs ("real".toList ++ ".lock".toList)
          = some (fnode.file []) := by decide
      rw [h2] at h
      cases h) with
  | ⟨w2, h1, h2, _⟩ => ⟨w2, h1, h2⟩

/-- C25 fails as stated. With `die_on_error` off, `hold_lock_file_for_update` returns
-1 when the sidecar file `real.lock` exists, -1 when the file `ro/x.lock` does not exist
and cannot be created, and -1 when the path has the sixteen characters of `PATH_MAX`:
the three results are the same. -/
theorem hold_lock_file_for_update_same_result :
    fs_lookup lock_world_held_example.fs "real.lock".toList = some (fnode.file []) ∧
    returned_value (hold_lock_file_for_update lock_env_small lock_world_held_example 1
      "real".toList 0) = some (-1) ∧
    fs_lookup lock_world_held_example.fs "ro/x.lock".toList = none ∧
    returned_value (hold_lock_file_for_update lock_env_small lock_world_held_example 1
      "ro/x".toList 0) = some (-1) ∧
    returned_value (hold_lock_file_for_update lock_env_small lock_world_held_example 1
      "aaaaaaaaaaaaaaaa".toList 0) = some (-1) := by
  decide

/-- C25, amended: with `die_on_error` off, `hold_lock_file_for_update` through a handle
returns a descriptor or -1, and -1 for every failure alike: when the path does not fit
the handle (nothing is changed), when the sidecar file exists, and when it does not
exist and cannot be created (the files are as before). -/
theorem hold_lock_file_for_update_failure (env : lock_env) (w : lock_world) (lk : Nat)
    (path : cstr) (hlk : lk < w.handles.length) :
    (∀ r w2, hold_lock_file_for_update env w lk path 0 = outcome.ret (r, w2) →
      0 ≤ r ∨ r = -1) ∧
    (env.PATH_MAX ≤ path.length →
      hold_lock_file_for_update env w lk path 0 = outcome.ret (-1, w)) ∧
    (path.length < env.PATH_MAX →
      (resolve_symlink env.PATH_MAX w.fs path (env.PATH_MAX - 5) ++ ".lock".toList).length
        < env.PATH_MAX →
      ((fs_lookup w.fs
          (resolve_symlink env.PATH_MAX w.fs path (env.PATH_MAX - 5) ++ ".lock".toList)).isSome
          = true ∨
        env.creatable
          (resolve_symlink env.PATH_MAX w.fs path (env.PATH_MAX - 5) ++ ".lock".toList)
          = false) →
      ∃ w2, hold_lock_file_for_update env w lk path 0 = outcome.ret (-1, w2) ∧
        w2.fs = w.fs) := by
  have hg : w.handles.get? lk = some (w.handles.get ⟨lk, hlk⟩) := List.get?_eq_get hlk
  refine ⟨?_, ?_, ?_⟩
  · intro r w2 h
    unfold hold_lock_file_for_update lock_file_fn at h
    rw [hg] at h
    simp only at h
    split at h
    · rename_i fd0 w0 heq
      simp only [ne_eq, not_true_eq_false, and_false, if_false, outcome.ret.injEq,
        Prod.mk.injEq] at h
      obtain ⟨hr, _⟩ := h
      subst hr
      split at heq
      · simp only [outcome.ret.injEq, Prod.mk.injEq] at heq
        exact Or.inr heq.1.symm
      · split at heq
        · cases heq
        · split at heq
          · split at heq
            · simp only [outcome.ret.injEq, Prod.mk.injEq] at heq
              exact Or.inr heq.1.symm
            · simp only [outcome.ret.injEq, Prod.mk.injEq] at heq
              left
              rw [← heq.1]
              exact Int.natCast_nonneg _
          · simp only [outcome.ret.injEq, Prod.mk.injEq] at heq
            exact Or.inr heq.1.symm
    · cases h
    · cases h
  · intro hlong
    unfold hold_lock_file_for_update lock_file_fn
    rw [hg]
    simp only
    rw [if_pos hlong]
    simp
  · intro hlen hlen2 hbad
    unfold hold_lock_file_for_update lock_file_fn
    rw [hg]
    simp only
    rw [if_neg (by omega), if_neg (by omega), if_neg]
    · have hex : ∀ x : lock_world, x.fs = w.fs →
          ∃ w2, outcome.ret ((-1 : Int), x) = outcome.ret ((-1 : Int), w2) ∧ w2.fs = w.fs :=
        fun x hx => ⟨x, rfl, hx⟩
      simp only [ne_eq, not_true_eq_false, and_false, if_false]
      exact hex _ rfl
    · intro hc
      rcases hbad with hb | hb
      · have := hc.1
        rw [Option.isNone_iff_eq_none] at this
        rw [this] at hb
        cases hb
      · rw [hb] at hc
        exact absurd hc.2 (by simp)

theorem hold_lock_file_for_update_failure_witness :
    ∃ w2, hold_lock_file_for_update lock_env_small lock_world_held_example 1 "real".toList 0
        = outcome.ret (-1, w2) ∧
      w2.fs = lock_world_held_example.fs :=
  (hold_lock_file_for_update_failure lock_env_small lock_world_held_example 1 "real".toList
    (by decide)).2.2 (by decide) (by decide) (Or.inl (by decide))

/-! ## lockfile.c: the states a process reaches -/

theorem lock_invariant_step (pid : Int) (w w2 : lock_world) (lk : Nat) (h h2 : lock_file)
    (hinv : lock_invariant pid w) (hs : handle_step pid w w2 lk h h2) :
    lock_invariant pid w2 := by
  obtain ⟨i1, i2, i3, _⟩ := hinv
  obtain ⟨hg, hg2, hne, hlen, hl, hc, hd, he⟩ := hs
  have hlt : lk < w.handles.length := (List.get?_eq_some.mp hg).1
  have hsub : ∀ i, i ∈ w.lock_file_list → i ∈ w2.lock_file_list := by
    intro i hi
    rcases hl with hl | hl
    · rw [hl]; exact hi
    · rw [hl]; exact List.mem_cons_of_mem _ hi
  refine ⟨?_, ?_, ?_, he⟩
  · intro i hi
    rw [hlen]
    rcases hl with hl | hl
    · rw [hl] at hi; exact i1 i hi
    · rw [hl] at hi
      rcases List.mem_cons.mp hi with hi | hi
      · rw [hi]; exact hlt
      · exact i1 i hi
  · intro i hx hgx hfx
    by_cases hil : i = lk
    · subst hil
      rw [hg2] at hgx
      cases hgx
      exact hc hfx
    · rw [hne i hil] at hgx
      obtain ⟨ho, hm⟩ := i2 i hx hgx hfx
      exact ⟨ho, hsub i hm⟩
  · intro i hx hgx hox
    by_cases hil : i = lk
    · subst hil
      rw [hg2] at hgx
      cases hgx
      exact hd hox
    · rw [hne i hil] at hgx
      exact hsub i (i3 i hx hgx hox)

theorem lock_file_fn_step (pid : Int) (env : lock_env) (w w2 : lock_world) (lk : Nat)
    (path : cstr) (fd : Int) (hinv : lock_invariant pid w) (hpid : env.pid = pid)
    (h : lock_file_fn env w lk path = outcome.ret (fd, w2)) :
    (w2 = w ∧ fd = -1) ∨
    ∃ h0 h2, handle_step pid w w2 lk h0 h2 ∧ (0 ≤ fd → h2.filename ≠ []) := by
  obtain ⟨_, _, i3, i4⟩ := hinv
  unfold lock_file_fn at h
  cases hg : w.handles.get? lk with
  | none => rw [hg] at h; cases h
  | some h0 =>
    rw [hg] at h
    have hlt : lk < w.handles.length := (List.get?_eq_some.mp hg).1
    simp only at h
    split at h
    · simp only [outcome.ret.injEq, Prod.mk.injEq] at h
      exact Or.inl ⟨h.2.symm, h.1.symm⟩
    · split at h
      · cases h
      · have hmem : lk ∈ (if h0.on_list = true then w.lock_file_list
            else lk :: w.lock_file_list) := by
          by_cases ho : h0.on_list = true
          · rw [if_pos ho]; exact i3 lk h0 hg ho
          · rw [if_neg ho]; exact List.mem_cons_self _ _
        have hreg : (if w.lock_file_list = [] then true else w.cleanup_registered) = true := by
          by_cases hl : w.lock_file_list = []
          · rw [if_pos hl]
          · rw [if_neg hl]; exact i4 hl
        have hll : (if h0.on_list = true then w.lock_file_list else lk :: w.lock_file_list)
            = w.lock_file_list ∨
            (if h0.on_list = true then w.lock_file_list else lk :: w.lock_file_list)
            = lk :: w.lock_file_list := by
          by_cases ho : h0.on_list = true
          · rw [if_pos ho]; exact Or.inl rfl
          · rw [if_neg ho]; exact Or.inr rfl
        have hnz : resolve_symlink env.PATH_MAX w.fs path (env.PATH_MAX - 5) ++ ".lock".toList
            ≠ [] := by
          intro e
          have := congrArg List.length e
          rw [length_lock_suffix] at this
          simp at this
        split at h
        · right
          split at h
          · simp only [outcome.ret.injEq, Prod.mk.injEq] at h
            obtain ⟨_, hw⟩ := h
            subst hw
            refine ⟨h0, ⟨(fresh_fd w.open_fds : Int), env.pid, true,
              resolve_symlink env.PATH_MAX w.fs path (env.PATH_MAX - 5) ++ ".lock".toList⟩,
              ⟨hg, ?_, ?_, ?_, hll, ?_, ?_, ?_⟩, fun _ => hnz⟩
            · simp [List.getElem?_set, hlt]
            · intro j hj
              simp [List.getElem?_set, Ne.symm hj]
            · simp
            · intro _
              exact ⟨hpid, hmem⟩
            · intro _
              exact hmem
            · intro _
              exact hreg
          · simp only [outcome.ret.injEq, Prod.mk.injEq] at h
            obtain ⟨_, hw⟩ := h
            subst hw
            refine ⟨h0, ⟨(fresh_fd w.open_fds : Int), env.pid, true,
              resolve_symlink env.PATH_MAX w.fs path (env.PATH_MAX - 5) ++ ".lock".toList⟩,
              ⟨hg, ?_, ?_, ?_, hll, ?_, ?_, ?_⟩, fun _ => hnz⟩
            · simp [List.getElem?_set, hlt]
            · intro j hj
              simp [List.getElem?_set, Ne.symm hj]
            · simp
            · intro _
              exact ⟨hpid, hmem⟩
            · intro _
              exact hmem
            · intro _
              exact hreg
        · right
          simp only [outcome.ret.injEq, Prod.mk.injEq] at h
          obtain ⟨hfd, hw⟩ := h
          subst hw
          refine ⟨h0, { h0 with fd := -1, filename := [] },
            ⟨hg, ?_, ?_, ?_, Or.inl rfl, ?_, ?_, ?_⟩, ?_⟩
          · simp [List.getElem?_set, hlt]
          · intro j hj
            simp [List.getElem?_set, Ne.symm hj]
          · simp
          · intro hx
            exact absurd rfl hx
          · intro ho
            exact i3 lk h0 hg ho
          · intro hl
            exact i4 hl
          · intro hx
            rw [← hfd] at hx
            exact absurd hx (by decide)

theorem commit_closed_length (w : lock_world) (lk : Nat) (h : lock_file) :
    (commit_closed w lk h).handles.length = w.handles.length := by
  unfold commit_closed
  split
  · simp
  · rfl

theorem commit_closed_registered (w : lock_world) (lk : Nat) (h : lock_file) :
    (commit_closed w lk h).cleanup_registered = w.cleanup_registered := by
  unfold commit_closed
  split <;> rfl

/-- With a file name shorter than the suffix, `commit_lock_file` returns only when
`close` fails. -/
theorem commit_lock_file_short (env : lock_env) (w : lock_world) (lk : Nat) (h : lock_file)
    (hh : w.handles.get? lk = some h) (hlen : h.filename.length < 5) :
    commit_lock_file env w lk =
      if 0 ≤ h.fd ∧ env.close_fails h.fd = true then outcome.ret (-1, commit_closed w lk h)
      else outcome.fault := by
  have hlt : lk < w.handles.length := (List.get?_eq_some.mp hh).1
  unfold commit_lock_file
  rw [hh]
  simp only
  by_cases hfd : 0 ≤ h.fd
  · rw [if_pos hfd]
    unfold close_lock_file
    rw [hh]
    simp only
    have hcc : commit_closed w lk h =
        { w with handles := w.handles.set lk { h with fd := -1 },
                 open_fds := close_fd w.open_fds h.fd } := by
      unfold commit_closed
      rw [if_pos hfd]
    by_cases hc : env.close_fails h.fd = true
    · simp [hc, hfd, hcc]
    · have hc2 : env.close_fails h.fd = false := by simpa using hc
      simp only [hc2, hfd, Bool.false_eq_true, if_false, and_false, ne_eq,
        not_true_eq_false, if_true]
      simp only [List.get?_eq_getElem?, List.getElem?_set, hlt, if_true, if_pos hlen]
  · rw [if_neg hfd]
    rw [if_neg (fun x => hfd x.1)]
    simp only [ne_eq, not_true_eq_false, if_false, hh, if_pos hlen]

theorem commit_lock_file_step (pid : Int) (env : lock_env) (w w2 : lock_world) (lk : Nat)
    (r : Int) (hinv : lock_invariant pid w)
    (h : commit_lock_file env w lk = outcome.ret (r, w2)) :
    ∃ h0 h2, handle_step pid w w2 lk h0 h2 ∧ (r = 0 → h2.filename = []) ∧
      (r ≠ 0 → h2.filename = h0.filename) := by
  obtain ⟨_, i2, i3, i4⟩ := hinv
  cases hg : w.handles.get? lk with
  | none =>
    unfold commit_lock_file at h
    rw [hg] at h
    cases h
  | some h0 =>
    have hlt : lk < w.handles.length := (List.get?_eq_some.mp hg).1
    have hclosed : handle_step pid w (commit_closed w lk h0) lk h0
        { h0 with fd := if 0 ≤ h0.fd then -1 else h0.fd } := by
      refine ⟨hg, commit_closed_get? w lk h0 hg, fun j hj => commit_closed_get?_ne w lk j h0 hj,
        commit_closed_length w lk h0, Or.inl (commit_closed_list w lk h0), ?_, ?_, ?_⟩
      · intro hf
        rw [commit_closed_list]
        exact i2 lk h0 hg hf
      · intro ho
        rw [commit_closed_list]
        exact i3 lk h0 hg ho
      · rw [commit_closed_list, commit_closed_registered]
        exact i4
    by_cases hlen : 5 ≤ h0.filename.length
    · rw [commit_lock_file_eq env w lk h0 hg hlen] at h
      have hfail : outcome.ret ((-1 : Int), commit_closed w lk h0) = outcome.ret (r, w2) →
          ∃ h0 h2, handle_step pid w w2 lk h0 h2 ∧ (r = 0 → h2.filename = []) ∧
            (r ≠ 0 → h2.filename = h0.filename) := by
        intro he
        simp only [outcome.ret.injEq, Prod.mk.injEq] at he
        obtain ⟨hr, hw⟩ := he
        subst hr
        subst hw
        exact ⟨h0, _, hclosed, fun hx => absurd hx (by decide), fun _ => rfl⟩
      split at h
      · exact hfail h
      · split at h
        · exact hfail h
        · split at h
          · exact hfail h
          · simp only [outcome.ret.injEq, Prod.mk.injEq] at h
            obtain ⟨hr, hw⟩ := h
            subst hr
            subst hw
            have hlt2 : lk < (commit_closed w lk h0).handles.length := by
              rw [commit_closed_length]; exact hlt
            refine ⟨h0, { h0 with fd := if 0 ≤ h0.fd then -1 else h0.fd, filename := [] },
              ⟨hg, ?_, ?_, ?_, Or.inl (commit_closed_list w lk h0), ?_, ?_, ?_⟩,
              fun _ => rfl, fun hx => absurd rfl hx⟩
            · simp [List.getElem?_set, hlt2]
            · intro j hj
              simp only
              rw [List.get?_eq_getElem?, List.getElem?_set_ne (Ne.symm hj),
                ← List.get?_eq_getElem?]
              exact commit_closed_get?_ne w lk j h0 hj
            · simp only [List.length_set]
              exact commit_closed_length w lk h0
            · intro hx
              exact absurd rfl hx
            · intro ho
              simp only
              rw [commit_closed_list]
              exact i3 lk h0 hg ho
            · simp only
              rw [commit_closed_list, commit_closed_registered]
              exact i4
    · rw [commit_lock_file_short env w lk h0 hg (by omega)] at h
      split at h
      · simp only [outcome.ret.injEq, Prod.mk.injEq] at h
        obtain ⟨hr, hw⟩ := h
        subst hr
        subst hw
        exact ⟨h0, _, hclosed, fun hx => absurd hx (by decide), fun _ => rfl⟩
      · cases h

theorem rollback_lock_file_step (pid : Int) (w w2 : lock_world) (lk : Nat)
    (hinv : lock_invariant pid w) (h : rollback_lock_file w lk = outcome.ret w2) :
    ∃ h0 h2, handle_step pid w w2 lk h0 h2 ∧ h2.filename = [] := by
  obtain ⟨_, _, i3, i4⟩ := hinv
  unfold rollback_lock_file at h
  cases hg : w.handles.get? lk with
  | none => rw [hg] at h; cases h
  | some h0 =>
    rw [hg] at h
    have hlt : lk < w.handles.length := (List.get?_eq_some.mp hg).1
    simp only at h
    have hstep : ∀ x : lock_world, x.handles = w.handles.set lk { h0 with filename := [] } →
        x.lock_file_list = w.lock_file_list → x.cleanup_registered = w.cleanup_registered →
        handle_step pid w x lk h0 { h0 with filename := [] } := by
      intro x hx hl hr
      refine ⟨hg, ?_, ?_, ?_, Or.inl hl, ?_, ?_, ?_⟩
      · rw [hx]
        simp [List.getElem?_set, hlt]
      · intro j hj
        rw [hx]
        simp [List.getElem?_set, Ne.symm hj]
      · rw [hx]
        simp
      · intro hf
        exact absurd rfl hf
      · intro ho
        rw [hl]
        exact i3 lk h0 hg ho
      · rw [hl, hr]
        exact i4
    split at h
    · simp only [outcome.ret.injEq] at h
      subst h
      exact ⟨h0, _, hstep _ rfl rfl rfl, rfl⟩
    · simp only [outcome.ret.injEq] at h
      subst h
      exact ⟨h0, _, hstep _ rfl rfl rfl, rfl⟩

theorem lock_invariant_initial (pid : Int) (w0 : lock_world) (h0 : lock_world_initial w0) :
    lock_invariant pid w0 := by
  obtain ⟨hl, hh⟩ := h0
  refine ⟨?_, ?_, ?_, ?_⟩
  · intro i hi
    rw [hl] at hi
    cases hi
  · intro i h hg hf
    exact absurd (hh h (List.get?_mem hg)).1 hf
  · intro i h hg ho
    rw [(hh h (List.get?_mem hg)).2] at ho
    cases ho
  · intro hne
    exact absurd hl hne

theorem lock_reach_invariant (pid : Int) (strict : Bool) (w0 w : lock_world) (held : List cstr)
    (h0 : lock_world_initial w0) (hr : lock_reach pid strict w0 w held) :
    lock_invariant pid w := by
  induction hr with
  | init => exact lock_invariant_initial pid w0 h0
  | acquire w w2 held env lk path fd _ hpid _ hcall ih =>
    rcases lock_file_fn_step pid env w w2 lk path fd ih hpid hcall with ⟨hw, _⟩ | ⟨h1, h2, hs, _⟩
    · rw [hw]; exact ih
    · exact lock_invariant_step pid w w2 lk h1 h2 ih hs
  | commit w w2 held env lk r _ _ hcall ih =>
    obtain ⟨h1, h2, hs, _⟩ := commit_lock_file_step pid env w w2 lk r ih hcall
    exact lock_invariant_step pid w w2 lk h1 h2 ih hs
  | rollback w w2 held lk _ hcall ih =>
    obtain ⟨h1, h2, hs, _⟩ := rollback_lock_file_step pid w w2 lk ih hcall
    exact lock_invariant_step pid w w2 lk h1 h2 ih hs

theorem handle_filename_of_get? (w : lock_world) (lk : Nat) (h : lock_file)
    (hg : w.handles.get? lk = some h) : handle_filename w lk = h.filename := by
  unfold handle_filename
  rw [hg]
  rfl

/-- When every `lock_file` call is through a handle that holds no lock, each lock
acquired and neither committed nor rolled back is the file name of a handle. -/
theorem lock_reach_held (pid : Int) (w0 w : lock_world) (held : List cstr)
    (h0 : lock_world_initial w0) (hr : lock_reach pid true w0 w held) :
    ∀ p ∈ held, ∃ i h, w.handles.get? i = some h ∧ h.filename = p ∧ p ≠ [] := by
  induction hr with
  | init =>
    intro p hp
    cases hp
  | acquire w w2 held env lk path fd hsub hpid hstrict hcall ih =>
    have hinv := lock_reach_invariant pid true w0 w held h0 hsub
    have hfree := hstrict rfl
    rcases lock_file_fn_step pid env w w2 lk path fd hinv hpid hcall with
      ⟨hw, hfd⟩ | ⟨h1, h2, hs, hnew⟩
    · subst hw
      subst hfd
      intro p hp
      rw [if_neg (by decide)] at hp
      exact ih p hp
    · obtain ⟨hg, hg2, hne, _⟩ := hs
      have hold : ∀ p ∈ held, ∃ i h, w2.handles.get? i = some h ∧ h.filename = p ∧ p ≠ [] := by
        intro p hp
        obtain ⟨i, h, hgi, hfi, hpn⟩ := ih p hp
        have hil : i ≠ lk := by
          intro e
          subst e
          rw [handle_filename_of_get? w i h hgi, hfi] at hfree
          exact hpn hfree
        exact ⟨i, h, by rw [hne i hil]; exact hgi, hfi, hpn⟩
      intro p hp
      by_cases hfd : 0 ≤ fd
      · rw [if_pos hfd] at hp
        rcases List.mem_cons.mp hp with hp | hp
        · rw [handle_filename_of_get? w2 lk h2 hg2] at hp
          exact ⟨lk, h2, hg2, hp.symm, by rw [hp]; exact hnew hfd⟩
        · exact hold p hp
      · rw [if_neg hfd] at hp
        exact hold p hp
  | commit w w2 held env lk r hsub _ hcall ih =>
    have hinv := lock_reach_invariant pid true w0 w held h0 hsub
    obtain ⟨h1, h2, hs, hr0, hr1⟩ := commit_lock_file_step pid env w w2 lk r hinv hcall
    obtain ⟨hg, hg2, hne, _⟩ := hs
    intro p hp
    have hp2 : p ∈ held ∧ (r = 0 → p ≠ handle_filename w lk) := by
      by_cases hr : r = 0
      · rw [if_pos hr] at hp
        have := List.mem_filter.mp hp
        exact ⟨this.1, fun _ => by simpa using this.2⟩
      · rw [if_neg hr] at hp
        exact ⟨hp, fun e => absurd e hr⟩
    obtain ⟨i, h, hgi, hfi, hpn⟩ := ih p hp2.1
    by_cases hil : i = lk
    · subst hil
      rw [hg] at hgi
      cases hgi
      by_cases hr : r = 0
      · exact absurd (by rw [handle_filename_of_get? w i h1 hg, hfi]) (hp2.2 hr)
      · exact ⟨i, h2, hg2, by rw [hr1 hr, hfi], hpn⟩
    · exact ⟨i, h, by rw [hne i hil]; exact hgi, hfi, hpn⟩
  | rollback w w2 held lk hsub hcall ih =>
    have hinv := lock_reach_invariant pid true w0 w held h0 hsub
    obtain ⟨h1, h2, hs, _⟩ := rollback_lock_file_step pid w w2 lk hinv hcall
    obtain ⟨hg, hg2, hne, _⟩ := hs
    intro p hp
    have hp2 := List.mem_filter.mp hp
    obtain ⟨i, h, hgi, hfi, hpn⟩ := ih p hp2.1
    by_cases hil : i = lk
    · subst hil
      rw [hg] at hgi
      cases hgi
      have : p ≠ handle_filename w i := by simpa using hp2.2
      exact absurd (by rw [handle_filename_of_get? w i h1 hg, hfi]) this
    · exact ⟨i, h, by rw [hne i hil]; exact hgi, hfi, hpn⟩

/-- C23 fails as stated. A process locks `a` and then, through the same handle, `b`:
both calls return a descriptor, and neither lock is committed or rolled back. The exit
cleanup then removes `b.lock` and leaves the sidecar file `a.lock` on disk. -/
theorem remove_lock_file_leaves_sidecar :
    lock_world_initial lock_world_empty ∧
    lock_reach 7 false lock_world_empty lock_world_two_locks
      ["b.lock".toList, "a.lock".toList] ∧
    ∃ w2, remove_lock_file lock_env_example lock_world_two_locks = outcome.ret w2 ∧
      fs_lookup w2.fs "b.lock".toList = none ∧
      fs_lookup w2.fs "a.lock".toList = some (fnode.file []) := by
  have s1 : lock_reach 7 false lock_world_empty lock_world_one_lock ["a.lock".toList] :=
    lock_reach.acquire lock_world_empty lock_world_one_lock [] lock_env_example 0 "a".toList 3
      lock_reach.init rfl (fun h => by cases h) (by decide)
  have s2 : lock_reach 7 false lock_world_empty lock_world_two_locks
      ["b.lock".toList, "a.lock".toList] :=
    lock_reach.acquire lock_world_one_lock lock_world_two_locks ["a.lock".toList]
      lock_env_example 0 "b".toList 4 s1 rfl (fun h => by cases h) (by decide)
  refine ⟨?_, s2, ?_⟩
  · unfold lock_world_initial
    decide
  · exact ⟨{ lock_world_two_locks with fs := [("a.lock".toList, fnode.file [])],
                                       open_fds := [3], lock_file_list := [] },
      by decide, by decide, by decide⟩

/-- C23, amended: in any state a process reaches from one in which it has locked
nothing, by calls of `lock_file`, each through a handle that holds no lock at the time,
of `commit_lock_file` and of `rollback_lock_file`, the exit cleanup `remove_lock_file`
returns and leaves no file at the sidecar name of a lock acquired and neither committed
nor rolled back, nor at the file name of any handle; it changes no path other than the
file names of the handles that this process owns; and the cleanup is registered when a
lock is outstanding. -/
theorem remove_lock_file_crash_safe (pid : Int) (w0 w : lock_world) (held : List cstr)
    (env : lock_env) (h0 : lock_world_initial w0) (hr : lock_reach pid true w0 w held)
    (hpid : env.pid = pid) :
    ∃ w2, remove_lock_file env w = outcome.ret w2 ∧
      (∀ p ∈ held, fs_lookup w2.fs p = none) ∧
      (∀ i h, w.handles.get? i = some h → h.filename ≠ [] →
        fs_lookup w2.fs h.filename = none) ∧
      (∀ p, (∀ i h, w.handles.get? i = some h → h.owner = pid → h.filename ≠ [] →
          h.filename ≠ p) →
        fs_lookup w2.fs p = fs_lookup w.fs p) ∧
      (held ≠ [] → w.cleanup_registered = true) := by
  have hinv := lock_reach_invariant pid true w0 w held h0 hr
  have hheld := lock_reach_held pid w0 w held h0 hr
  obtain ⟨i1, i2, _, i4⟩ := hinv
  obtain ⟨st, hst⟩ := remove_lock_file_loop_returns env.pid w.handles w.lock_file_list
    (w.fs, w.open_fds) i1
  have hret : remove_lock_file env w = outcome.ret
      { w with fs := st.1, open_fds := st.2, lock_file_list := [] } := by
    unfold remove_lock_file
    rw [hst]
  have hgone : ∀ i h, w.handles.get? i = some h → h.filename ≠ [] →
      fs_lookup st.1 h.filename = none := by
    intro i h hg hf
    obtain ⟨ho, hm⟩ := i2 i h hg hf
    exact remove_lock_file_loop_removes env.pid w.handles h.filename _ _ _ hst
      (Or.inr ⟨i, hm, h, hg, by rw [hpid]; exact ho, hf, rfl⟩)
  refine ⟨_, hret, ?_, hgone, ?_, ?_⟩
  · intro p hp
    obtain ⟨i, h, hg, hf, hpn⟩ := hheld p hp
    rw [← hf]
    exact hgone i h hg (by rw [hf]; exact hpn)
  · intro p hp
    exact remove_lock_file_frame env w _ p hret
      (fun i _ h hg ho hf => hp i h hg (by rw [← hpid]; exact ho) hf)
  · intro hne
    cases held with
    | nil => exact absurd rfl hne
    | cons p rest =>
      obtain ⟨i, h, hg, hf, hpn⟩ := hheld p (List.mem_cons_self _ _)
      have hm := (i2 i h hg (by rw [hf]; exact hpn)).2
      exact i4 (List.ne_nil_of_mem hm)

theorem remove_lock_file_crash_safe_witness :
    ∃ w2, remove_lock_file lock_env_example lock_world_one_lock = outcome.ret w2 ∧
      ∀ p ∈ ["a.lock".toList], fs_lookup w2.fs p = none :=
  match remove_lock_file_crash_safe 7 lock_world_empty lock_world_one_lock ["a.lock".toList]
    lock_env_example (by unfold lock_world_initial; decide)
    (lock_reach.acquire lock_world_empty lock_world_one_lock [] lock_env_example 0 "a".toList 3
      lock_reach.init rfl (fun _ => by decide) (by decide))
    rfl with
  | ⟨w2, h1, h2, _⟩ => ⟨w2, h1, h2⟩

/-! ## interpolate.c -/

/-- What the loop of `interpolate` returns, when the substituted text of the rest of
`orig` is `t`: 1 exactly when the text written so far and `t` have fewer than
`reslen - 1` characters together, and then `result` holds them. -/
theorem interpolate_loop_spec (interps : List interp) (reslen : Int) :
    ∀ (fuel : Nat) (src dest t : cstr), substituted_text interps fuel src = some t →
      ∃ r d, interpolate_loop interps reslen fuel src dest = some (r, d) ∧
        (r = 0 ∨ r = 1) ∧
        (r = 1 ↔ (dest.length : Int) + (t.length : Int) < reslen - 1) ∧
        (r = 1 → d = dest ++ t) := by
  intro fuel
  induction fuel with
  | zero =>
    intro src dest t h
    cases src <;> simp [substituted_text] at h
  | succ fuel ih =>
    intro src dest t h
    cases src with
    | nil =>
      simp only [substituted_text, Option.some.injEq] at h
      subst h
      simp only [interpolate_loop]
      by_cases hd : (dest.length : Int) < reslen - 1
      · refine ⟨1, dest, by rw [if_pos hd], Or.inr rfl, ?_, fun _ => by simp⟩
        simp [hd]
      · refine ⟨0, dest, by rw [if_neg hd], Or.inl rfl, ?_, fun h0 => absurd h0 (by decide)⟩
        simp [hd]
    | cons c rest =>
      simp only [interpolate_loop]
      by_cases hd : (dest.length : Int) < reslen - 1
      · rw [if_pos hd]
        have hcopy : ∀ t2, substituted_text interps fuel rest = some t2 → t = c :: t2 →
            ∃ r d, interpolate_loop interps reslen fuel rest (dest ++ [c]) = some (r, d) ∧
              (r = 0 ∨ r = 1) ∧
              (r = 1 ↔ (dest.length : Int) + (t.length : Int) < reslen - 1) ∧
              (r = 1 → d = dest ++ t) := by
          intro t2 ht2 ht
          obtain ⟨r, d, h1, h2, h3, h4⟩ := ih rest (dest ++ [c]) t2 ht2
          refine ⟨r, d, h1, h2, ?_, ?_⟩
          · rw [h3, ht]
            simp only [List.length_append, List.length_cons, List.length_nil, Nat.cast_add,
              Nat.cast_one, Nat.cast_zero]
            constructor <;> intro hx <;> omega
          · intro hr
            rw [h4 hr, ht]
            simp
        simp only [substituted_text] at h
        by_cases hc : c = '%'
        · rw [if_pos hc] at h ⊢
          cases hf : interpolate_find (c :: rest) interps with
          | none =>
            rw [hf] at h
            simp only [Option.map_eq_some'] at h
            obtain ⟨t2, ht2, ht⟩ := h
            exact hcopy t2 ht2 ht.symm
          | some e =>
            rw [hf] at h
            simp only [Option.map_eq_some'] at h
            obtain ⟨t2, ht2, ht⟩ := h
            simp only
            by_cases hv : (dest.length : Int) + (e.value.length : Int) < reslen - 1
            · rw [if_pos hv]
              obtain ⟨r, d, h1, h2, h3, h4⟩ :=
                ih ((c :: rest).drop e.name.length) (dest ++ e.value) t2 ht2
              refine ⟨r, d, h1, h2, ?_, ?_⟩
              · rw [h3, ← ht]
                simp only [List.length_append, Nat.cast_add]
                constructor <;> intro hx <;> omega
              · intro hr
                rw [h4 hr, ← ht]
                simp
            · rw [if_neg hv]
              refine ⟨0, dest, rfl, Or.inl rfl, ?_, fun h0 => absurd h0 (by decide)⟩
              rw [← ht]
              simp only [List.length_append, Nat.cast_add]
              constructor
              · intro h0
                exact absurd h0 (by decide)
              · intro hx
                omega
        · rw [if_neg hc] at h ⊢
          simp only [Option.map_eq_some'] at h
          obtain ⟨t2, ht2, ht⟩ := h
          exact hcopy t2 ht2 ht.symm
      · rw [if_neg hd, if_neg hd]
        refine ⟨0, dest, rfl, Or.inl rfl, ?_, fun h0 => absurd h0 (by decide)⟩
        constructor
        · intro h0
          exact absurd h0 (by decide)
        · intro hx
          omega

/-- C26 does not hold of the code. For a buffer of 3 bytes and the text `ab`, which has
no `%`, the substituted text is `ab`: its 2 characters fit the buffer together with the
terminating NUL, and `interpolate` writes them all, yet it returns 0. For a buffer of 5
bytes, the text `%H` and the table entry `%H` with the value `abcd`, the substituted
text `abcd` fits as well, and `interpolate` returns 0 without writing it. -/
theorem interpolate_full_buffer :
    (substituted_text [] 10 "ab".toList = some "ab".toList ∧
      ("ab".toList.length : Int) = 3 - 1 ∧
      interpolate 10 3 "ab".toList [] = some (outcome.ret (0, "ab".toList))) ∧
    (substituted_text [⟨"%H".toList, "abcd".toList⟩] 10 "%H".toList = some "abcd".toList ∧
      ("abcd".toList.length : Int) = 5 - 1 ∧
      interpolate 10 5 "%H".toList [⟨"%H".toList, "abcd".toList⟩]
        = some (outcome.ret (0, []))) := by
  decide

/-! ## count_refspec_match: strong and weak matches -/

theorem is_refspec_match_iff (pattern name : cstr) :
    is_refspec_match pattern name ↔ ref_name_matches pattern name := by
  unfold is_refspec_match ref_name_matches
  constructor
  · rintro ⟨h1, h2⟩
    have hlen : ¬ name.length < pattern.length := fun h => h1 (Or.inl h)
    have hdrop : name.drop (name.length - pattern.length) = pattern := by
      by_contra h
      exact h1 (Or.inr h)
    refine ⟨name.take (name.length - pattern.length), ?_, ?_⟩
    · conv_lhs => rw [← List.take_append_drop (name.length - pattern.length) name]
      rw [hdrop]
    · by_cases he : name.length = pattern.length
      · left
        rw [he, Nat.sub_self]
        rfl
      · right
        have hget : name.get? (name.length - pattern.length - 1) = some '/' := by
          by_contra h
          exact h2 ⟨he, h⟩
        rw [List.getLast?_eq_getElem?, List.length_take,
          Nat.min_eq_left (Nat.sub_le _ _), List.getElem?_take_of_lt (by omega),
          ← List.get?_eq_getElem?]
        exact hget
  · rintro ⟨pre, hname, hpre⟩
    subst hname
    constructor
    · intro h
      rcases h with h | h
      · simp at h
      · apply h
        simp
    · rintro ⟨hne, hget⟩
      apply hget
      rcases hpre with hp | hp
      · subst hp
        simp at hne
      · have hpl : pre ≠ [] := by
          intro e
          subst e
          simp at hp
        have hpos : 0 < pre.length := List.length_pos.mpr hpl
        rw [List.getLast?_eq_getElem?] at hp
        rw [List.get?_eq_getElem?]
        simp only [List.length_append, Nat.add_sub_cancel]
        rw [List.getElem?_append_left (by omega)]
        exact hp

theorem is_weak_match_iff (pattern name : cstr) (hm : ref_name_matches pattern name) :
    is_weak_match pattern name ↔ weak_by_spec pattern name := by
  obtain ⟨pre, hname, _⟩ := hm
  subst hname
  unfold is_weak_match weak_by_spec
  have h1 : ((pre ++ pattern).length ≠ pattern.length) ↔ pattern ≠ pre ++ pattern := by
    constructor
    · intro h e
      apply h
      rw [← e]
    · intro h e
      apply h
      have : pre.length = 0 := by
        simp only [List.length_append] at e
        omega
      rw [List.length_eq_zero.mp this]
      rfl
  have h2 : ((pattern.length : Int) ≠ ((pre ++ pattern).length : Int) - 5) ↔
      ¬ ∃ q : cstr, q.length = 5 ∧ pre ++ pattern = q ++ pattern := by
    constructor
    · rintro h ⟨q, hq, he⟩
      apply h
      have := congrArg List.length he
      simp only [List.length_append] at this
      simp only [List.length_append, Nat.cast_add]
      omega
    · intro h e
      apply h
      refine ⟨pre, ?_, rfl⟩
      simp only [List.length_append, Nat.cast_add] at e
      omega
  have h3 : ∀ x : cstr, prefixcmp (pre ++ pattern) x ≠ 0 ↔ ¬ x <+: pre ++ pattern :=
    fun x => not_congr (prefixcmp_eq_zero_iff _ x)
  rw [h1, h2, h3, h3]

theorem last_idx_sat (q : cstr → Bool) (ns : List cstr) :
    ∀ j, last_idx q ns = some j → ∃ n, ns.get? j = some n ∧ q n = true := by
  induction ns with
  | nil => intro j h; simp [last_idx] at h
  | cons n ns ih =>
    intro j h
    simp only [last_idx] at h
    cases hl : last_idx q ns with
    | some k =>
      rw [hl] at h
      simp only [Option.some.injEq] at h
      subst h
      obtain ⟨m, hm, hq⟩ := ih k hl
      exact ⟨m, by simpa using hm, hq⟩
    | none =>
      rw [hl] at h
      simp only at h
      by_cases hq : q n = true
      · rw [if_pos hq] at h
        simp only [Option.some.injEq] at h
        subst h
        exact ⟨n, rfl, hq⟩
      · rw [if_neg hq] at h
        cases h

theorem strongb_iff (pattern name : cstr) :
    strongb pattern name = true ↔ ref_name_matches pattern name ∧ ¬ weak_by_spec pattern name := by
  unfold strongb is_strong_match
  rw [decide_eq_true_iff, is_refspec_match_iff]
  constructor
  · rintro ⟨hm, hw⟩
    exact ⟨hm, fun h => hw ((is_weak_match_iff pattern name hm).mpr h)⟩
  · rintro ⟨hm, hw⟩
    exact ⟨hm, fun h => hw ((is_weak_match_iff pattern name hm).mp h)⟩

theorem weakb_iff (pattern name : cstr) :
    weakb pattern name = true ↔ ref_name_matches pattern name ∧ weak_by_spec pattern name := by
  unfold weakb
  rw [decide_eq_true_iff, is_refspec_match_iff]
  constructor
  · rintro ⟨hm, hw⟩
    exact ⟨hm, (is_weak_match_iff pattern name hm).mp hw⟩
  · rintro ⟨hm, hw⟩
    exact ⟨hm, (is_weak_match_iff pattern name hm).mpr hw⟩

/-- The count `count_refspec_match` returns: the number of strong matches when there is
one, the number of weak matches otherwise. -/
theorem count_refspec_match_count (pattern : cstr) (refs : List ref) :
    (count_refspec_match pattern refs).1 =
      if 0 < (refs.map ref.name).countP (strongb pattern)
      then (refs.map ref.name).countP (strongb pattern)
      else (refs.map ref.name).countP (weakb pattern) := by
  rw [count_refspec_match_char]
  cases hl : last_idx (strongb pattern) (refs.map ref.name) with
  | some j =>
    have hne : (refs.map ref.name).countP (strongb pattern) ≠ 0 := by
      intro h0
      rw [(last_idx_none_iff _ _).mpr h0] at hl
      cases hl
    simp only
    rw [if_pos (Nat.pos_of_ne_zero hne)]
  | none =>
    have h0 := (last_idx_none_iff _ _).mp hl
    simp only
    rw [h0, if_neg (by decide)]

/-- C27: `count_refspec_match` returns the number of strong matches when there is at
least one, and the number of weak matches otherwise. A ref is counted as strong when its
name matches the pattern and is not weak, as weak when its name matches and the pattern
is neither the whole name nor the name without its first five characters and the name
starts with neither `refs/heads/` nor `refs/tags/`. So the result exceeds 1 exactly when
there are several strong matches, or no strong match and several weak ones. -/
theorem count_refspec_match_strong_else_weak (pattern : cstr) (refs : List ref) :
    (∀ name, strongb pattern name = true ↔
      ref_name_matches pattern name ∧ ¬ weak_by_spec pattern name) ∧
    (∀ name, weakb pattern name = true ↔
      ref_name_matches pattern name ∧ weak_by_spec pattern name) ∧
    (count_refspec_match pattern refs).1 =
      (if 0 < (refs.map ref.name).countP (strongb pattern)
       then (refs.map ref.name).countP (strongb pattern)
       else (refs.map ref.name).countP (weakb pattern)) ∧
    (1 < (count_refspec_match pattern refs).1 ↔
      1 < (refs.map ref.name).countP (strongb pattern) ∨
      ((refs.map ref.name).countP (strongb pattern) = 0 ∧
        1 < (refs.map ref.name).countP (weakb pattern))) := by
  refine ⟨strongb_iff pattern, weakb_iff pattern, count_refspec_match_count pattern refs, ?_⟩
  rw [count_refspec_match_count]
  by_cases hs : 0 < (refs.map ref.name).countP (strongb pattern)
  · rw [if_pos hs]
    constructor
    · intro h
      exact Or.inl h
    · rintro (h | ⟨h, _⟩)
      · exact h
      · omega
  · rw [if_neg hs]
    constructor
    · intro h
      exact Or.inr ⟨by omega, h⟩
    · rintro (h | ⟨_, h⟩)
      · omega
      · exact h

/-- C28: `count_refspec_match` returns 0 and no ref exactly when no ref of the list has
a name that ends with the pattern with the matched part being the whole name or
immediately preceded by `/`; its count is 0 in that case only; and a ref it returns is a
ref of the list whose name satisfies the condition. The pattern `master` does not match
the name `refs/heads/xmaster`. -/
theorem count_refspec_match_none_iff (pattern : cstr) (refs : List ref) :
    (count_refspec_match pattern refs = (0, none) ↔
      ∀ r ∈ refs, ¬ ref_name_matches pattern r.name) ∧
    ((count_refspec_match pattern refs).1 = 0 ↔
      ∀ r ∈ refs, ¬ ref_name_matches pattern r.name) ∧
    (∀ n k d, count_refspec_match pattern refs = (n, some (k, d)) →
      refs.get? k = some d ∧ ref_name_matches pattern d.name) ∧
    ¬ ref_name_matches "master".toList "refs/heads/xmaster".toList := by
  have hzero : (count_refspec_match pattern refs).1 = 0 →
      ∀ r ∈ refs, ¬ ref_name_matches pattern r.name := by
    intro h r hr hm
    rw [count_refspec_match_count] at h
    have hmem : r.name ∈ refs.map ref.name := List.mem_map_of_mem _ hr
    by_cases hw : weak_by_spec pattern r.name
    · have hwb := (weakb_iff pattern r.name).mpr ⟨hm, hw⟩
      have hpos : 0 < (refs.map ref.name).countP (weakb pattern) :=
        List.countP_pos_iff.mpr ⟨r.name, hmem, hwb⟩
      split at h <;> omega
    · have hsb := (strongb_iff pattern r.name).mpr ⟨hm, hw⟩
      have hpos : 0 < (refs.map ref.name).countP (strongb pattern) :=
        List.countP_pos_iff.mpr ⟨r.name, hmem, hsb⟩
      rw [if_pos hpos] at h
      omega
  have hnone : (∀ r ∈ refs, ¬ ref_name_matches pattern r.name) →
      count_refspec_match pattern refs = (0, none) := by
    intro h
    exact count_refspec_match_no_match pattern refs
      (fun r hr hm => h r hr ((is_refspec_match_iff _ _).mp hm))
  refine ⟨⟨fun h => hzero (by rw [h]), hnone⟩, ⟨hzero, fun h => by rw [hnone h]⟩, ?_, ?_⟩
  · intro n k d h
    have hget := count_refspec_match_valid pattern refs n k d h
    refine ⟨hget, ?_⟩
    rw [count_refspec_match_char] at h
    have hsat : ∀ (q : cstr → Bool) j, last_idx q (refs.map ref.name) = some j →
        ref_at 0 refs j = some (k, d) → q d.name = true := by
      intro q j hj hr
      obtain ⟨m, hm, hq⟩ := last_idx_sat q _ j hj
      unfold ref_at at hr
      rw [List.get?_eq_getElem?, List.getElem?_map] at hm
      cases hg : refs.get? j with
      | none => rw [hg] at hr; cases hr
      | some x =>
        rw [hg] at hr
        simp only [Option.map_some', Option.some.injEq, Prod.mk.injEq] at hr
        rw [← List.get?_eq_getElem?, hg] at hm
        simp only [Option.map_some', Option.some.injEq] at hm
        rw [← hr.2, hm]
        exact hq
    cases hl : last_idx (strongb pattern) (refs.map ref.name) with
    | some j =>
      rw [hl] at h
      simp only [Prod.mk.injEq] at h
      exact ((strongb_iff pattern d.name).mp (hsat _ j hl h.2)).1
    | none =>
      rw [hl] at h
      simp only [Prod.mk.injEq] at h
      cases hl2 : last_idx (weakb pattern) (refs.map ref.name) with
      | some j =>
        rw [hl2] at h
        exact ((weakb_iff pattern d.name).mp (hsat _ j hl2 h.2)).1
      | none =>
        rw [hl2] at h
        exact absurd h.2 (by simp)
  · intro h
    exact absurd ((is_refspec_match_iff _ _).mpr h) (by decide)

/-! ## match_explicit: creating and binding a destination -/

theorem take_five_refs_iff (v : cstr) : v.take 5 = "refs/".toList ↔ "refs/".toList <+: v := by
  rw [List.prefix_iff_eq_take]
  constructor
  · intro h
    exact h.symm
  · intro h
    exact h.symm

theorem count_refspec_match_seen_none (dst_null : Bool) (dst : List ref) (v : cstr)
    (hno : ∀ r ∈ dst, ¬ ref_name_matches v r.name) :
    count_refspec_match v (dst_seen dst_null dst) = (0, none) := by
  apply count_refspec_match_no_match
  intro r hr hm
  unfold dst_seen at hr
  cases dst_null with
  | true => simp at hr
  | false =>
    simp only [Bool.false_eq_true, if_false] at hr
    exact hno r hr ((is_refspec_match_iff _ _).mp hm)

/-- A rule whose destination matches nothing and does not start with `refs/` fails. -/
theorem match_explicit_no_dst (get_sha1 : cstr → Option (List Nat)) (src : List ref)
    (dst_null : Bool) (dst : List ref) (rs : refspec) (s : cstr) (p : peer) (nm : cstr)
    (e : Nat)
    (hpat : rs.pattern = false) (hs : rs.src = some s)
    (hsrc : match_explicit_src get_sha1 src s = some (p, nm))
    (hc : count_refspec_match (rs.dst.getD nm) (dst_seen dst_null dst) = (0, none))
    (hv : (rs.dst.getD nm).take 5 ≠ "refs/".toList) :
    match_explicit get_sha1 src dst_null dst rs e = outcome.ret (1, dst) := by
  have hd : match_explicit_dst dst_null dst (rs.dst.getD nm) = (none, dst) := by
    unfold match_explicit_dst
    rw [hc]
    simp only [if_neg hv]
  unfold match_explicit
  rw [if_neg (by simp [hpat])]
  simp only [hs, hsrc]
  cases hrd : rs.dst with
  | none =>
    rw [hrd] at hd
    simp only [Option.getD_none] at hd
    simp [match_explicit_dst_value, hd]
  | some v =>
    rw [hrd] at hd
    simp only [Option.getD_some] at hd
    simp [match_explicit_dst_value, hd]

/-- C29: a rule that is no pattern, whose source resolved to `p` (a local ref or an
object, of name `nm`), with no earlier failure, and whose destination text (the
destination of the rule, or `nm` when it has none) matches no remote ref. If the text
starts with `refs/`, `match_explicit` reports no error and the remote list afterwards is
the list before followed by one new ref of exactly that name, bound to `p` with the
force flag of the rule. If it does not, the rule fails and the list is as before. -/
theorem match_explicit_creates (get_sha1 : cstr → Option (List Nat)) (src : List ref)
    (dst_null : Bool) (dst : List ref) (rs : refspec) (s : cstr) (p : peer) (nm : cstr)
    (hpat : rs.pattern = false) (hs : rs.src = some s)
    (hsrc : match_explicit_src get_sha1 src s = some (p, nm))
    (hno : ∀ r ∈ dst, ¬ ref_name_matches (rs.dst.getD nm) r.name) :
    ("refs/".toList <+: rs.dst.getD nm →
      match_explicit get_sha1 src dst_null dst rs 0 =
        outcome.ret (0, dst ++
          [{ name := rs.dst.getD nm, old_sha1 := null_sha1, new_sha1 := null_sha1,
             force := bit rs.force, peer_ref := some p }])) ∧
    (¬ "refs/".toList <+: rs.dst.getD nm →
      match_explicit get_sha1 src dst_null dst rs 0 = outcome.ret (1, dst)) := by
  have hc := count_refspec_match_seen_none dst_null dst (rs.dst.getD nm) hno
  constructor
  · intro hv
    have hnew := match_explicit_dst_new dst_null dst (rs.dst.getD nm) (by rw [hc])
      ((take_five_refs_iff _).mpr hv)
    rw [match_explicit_bind get_sha1 src dst_null dst rs s p nm _ _ _ hpat hs hsrc hnew rfl,
      set_append_cons_at_length]
    rfl
  · intro hv
    exact match_explicit_no_dst get_sha1 src dst_null dst rs s p nm 0 hpat hs hsrc hc
      (fun h => hv ((take_five_refs_iff _).mp h))

theorem match_explicit_creates_witness :
    match_explicit (fun _ => none)
      [{ name := "refs/heads/master".toList, old_sha1 := [], new_sha1 := [7], force := 0,
         peer_ref := none }]
      false
      [{ name := "refs/heads/other".toList, old_sha1 := [1], new_sha1 := [], force := 0,
         peer_ref := none }]
      { force := true, pattern := false, src := some "master".toList,
        dst := some "refs/heads/new".toList } 0 =
    outcome.ret (0,
      [{ name := "refs/heads/other".toList, old_sha1 := [1], new_sha1 := [], force := 0,
         peer_ref := none }] ++
      [{ name := "refs/heads/new".toList, old_sha1 := null_sha1, new_sha1 := null_sha1,
         force := bit true, peer_ref := some (peer.node 0) }]) :=
  (match_explicit_creates (fun _ => none) _ false _
    { force := true, pattern := false, src := some "master".toList,
      dst := some "refs/heads/new".toList }
    "master".toList (peer.node 0) "refs/heads/master".toList rfl rfl (by decide)
    (by
      intro r hr hm
      have hm2 := (is_refspec_match_iff _ _).mpr hm
      simp only [List.mem_singleton] at hr
      subst hr
      exact absurd hm2 (by decide))).1 ((take_five_refs_iff _).mp (by decide))

/-- C30: a rule that is no pattern, with no earlier failure, whose source matches
exactly one local ref, at position `i`, and whose destination text (the destination of
the rule, or the name of that ref when it has none) matches exactly one ref `d` of the
remote list the call is given, at position `k`, which has no peer yet.
`match_explicit` reports no error; in the remote list afterwards the ref at `k` is `d`
with its peer set to the source ref and its force flag to that of the rule, and every
other ref is as before. -/
theorem match_explicit_binds (get_sha1 : cstr → Option (List Nat)) (src : List ref)
    (dst_null : Bool) (dst : List ref) (rs : refspec) (s : cstr) (i k : Nat) (r d : ref)
    (hpat : rs.pattern = false) (hs : rs.src = some s)
    (hsrc : count_refspec_match s src = (1, some (i, r)))
    (hdst : count_refspec_match (rs.dst.getD r.name) (dst_seen dst_null dst)
      = (1, some (k, d)))
    (hd : d.peer_ref = none) :
    ∃ out, match_explicit get_sha1 src dst_null dst rs 0 = outcome.ret (0, out) ∧
      dst.get? k = some d ∧
      out.get? k = some { d with peer_ref := some (peer.node i), force := bit rs.force } ∧
      out.length = dst.length ∧
      ∀ j, j ≠ k → out.get? j = dst.get? j := by
  have hseen : dst_seen dst_null dst = dst := by
    unfold dst_seen
    cases dst_null with
    | false => rfl
    | true =>
      unfold dst_seen at hdst
      simp only [if_true] at hdst
      have : count_refspec_match (rs.dst.getD r.name) [] = (0, none) :=
        count_refspec_match_no_match _ [] (fun q hq => by cases hq)
      rw [this] at hdst
      cases hdst
  have hget : dst.get? k = some d := by
    rw [hseen] at hdst
    exact count_refspec_match_valid _ dst 1 k d hdst
  have hms : match_explicit_src get_sha1 src s = some (peer.node i, r.name) := by
    unfold match_explicit_src
    rw [hsrc]
    rfl
  have hmd : match_explicit_dst dst_null dst (rs.dst.getD r.name) = (some (k, d), dst) := by
    unfold match_explicit_dst
    rw [hdst]
  refine ⟨_, match_explicit_bind get_sha1 src dst_null dst rs s (peer.node i) r.name k d dst
    hpat hs hms hmd hd, hget, get?_set_same dst k d _ hget, by simp, ?_⟩
  intro j hj
  exact get?_set_other dst j k _ hj

theorem match_explicit_binds_witness :
    ∃ out, match_explicit (fun _ => none)
      [{ name := "refs/heads/master".toList, old_sha1 := [], new_sha1 := [7], force := 0,
         peer_ref := none }]
      false
      [{ name := "refs/heads/other".toList, old_sha1 := [1], new_sha1 := [], force := 0,
         peer_ref := none },
       { name := "refs/heads/master".toList, old_sha1 := [2], new_sha1 := [], force := 0,
         peer_ref := none }]
      { force := true, pattern := false, src := some "master".toList, dst := none } 0
        = outcome.ret (0, out) ∧
      out.get? 1 = some
        { name := "refs/heads/master".toList, old_sha1 := [2], new_sha1 := [], force := 1,
          peer_ref := some (peer.node 0) } :=
  match match_explicit_binds (fun _ => none)
    [{ name := "refs/heads/master".toList, old_sha1 := [], new_sha1 := [7], force := 0,
       peer_ref := none }]
    false
    [{ name := "refs/heads/other".toList, old_sha1 := [1], new_sha1 := [], force := 0,
       peer_ref := none },
     { name := "refs/heads/master".toList, old_sha1 := [2], new_sha1 := [], force := 0,
       peer_ref := none }]
    { force := true, pattern := false, src := some "master".toList, dst := none }
    "master".toList 0 1
    { name := "refs/heads/master".toList, old_sha1 := [], new_sha1 := [7], force := 0,
      peer_ref := none }
    { name := "refs/heads/master".toList, old_sha1 := [2], new_sha1 := [], force := 0,
      peer_ref := none }
    rfl rfl (by decide) (by decide) rfl with
  | ⟨out, h1, _, h3, _⟩ => ⟨out, h1, h3⟩

/-! ## count_refspec_match: a full name among other strong matches -/

/-- C40: a pattern that is the complete name of a ref does not make the match unique.
For the refs `refs/heads/x` and `refs/tags/refs/heads/x` and the pattern `refs/heads/x`,
`count_refspec_match` returns 2: a name that matches the pattern counts as strong when it
is the pattern itself and also whenever it starts with `refs/heads/` or `refs/tags/`. -/
theorem count_refspec_match_full_name_not_unique :
    count_refspec_match "refs/heads/x".toList
      [{ name := "refs/heads/x".toList, old_sha1 := [], new_sha1 := [], force := 0,
         peer_ref := none },
       { name := "refs/tags/refs/heads/x".toList, old_sha1 := [], new_sha1 := [], force := 0,
         peer_ref := none }] =
      (2, some (1, { name := "refs/tags/refs/heads/x".toList, old_sha1 := [], new_sha1 := [],
                     force := 0, peer_ref := none })) ∧
    ∀ pattern name : cstr, ref_name_matches pattern name →
      (name = pattern ∨ "refs/heads/".toList <+: name ∨ "refs/tags/".toList <+: name) →
      strongb pattern name = true := by
  refine ⟨by decide, ?_⟩
  intro pattern name hm hs
  rw [strongb_iff]
  refine ⟨hm, ?_⟩
  rintro ⟨h1, _, h3, h4⟩
  rcases hs with hs | hs | hs
  · exact h1 hs.symm
  · exact h3 hs
  · exact h4 hs

/-! ## lockfile.c: a failed acquisition -/

/-- C39: when `lock_file` fails because the sidecar file exists, or does not exist and
cannot be created, it returns -1 and leaves the files as they are and the handle with an
empty file name, the other handles untouched. A `rollback_lock_file` on that handle then
changes nothing, and the exit cleanup changes no path but the file names of other
handles: the sidecar file of another holder stays. -/
theorem lock_file_fn_failure_releases (env : lock_env) (w : lock_world) (lk : Nat)
    (path : cstr) (hlk : lk < w.handles.length) (hlen : path.length < env.PATH_MAX)
    (hlen2 : (resolve_symlink env.PATH_MAX w.fs path (env.PATH_MAX - 5) ++ ".lock".toList).length
      < env.PATH_MAX)
    (hbad : (fs_lookup w.fs
        (resolve_symlink env.PATH_MAX w.fs path (env.PATH_MAX - 5) ++ ".lock".toList)).isSome
        = true ∨
      env.creatable
        (resolve_symlink env.PATH_MAX w.fs path (env.PATH_MAX - 5) ++ ".lock".toList)
        = false) :
    ∃ w2, lock_file_fn env w lk path = outcome.ret (-1, w2) ∧ w2.fs = w.fs ∧
      (w2.handles.get? lk).map lock_file.filename = some [] ∧
      (∀ j, j ≠ lk → w2.handles.get? j = w.handles.get? j) ∧
      rollback_lock_file w2 lk = outcome.ret w2 ∧
      ∀ (env3 : lock_env) (w3 : lock_world) (p : cstr),
        remove_lock_file env3 w2 = outcome.ret w3 →
        (∀ j h2, j ≠ lk → w.handles.get? j = some h2 → h2.filename ≠ p) →
        fs_lookup w3.fs p = fs_lookup w.fs p := by
  obtain ⟨h0, hg⟩ : ∃ h0, w.handles.get? lk = some h0 := ⟨_, List.get?_eq_get hlk⟩
  have hcond : ¬ ((fs_lookup w.fs
      (resolve_symlink env.PATH_MAX w.fs path (env.PATH_MAX - 5) ++ ".lock".toList)).isNone
        = true ∧
      env.creatable
        (resolve_symlink env.PATH_MAX w.fs path (env.PATH_MAX - 5) ++ ".lock".toList)
        = true) := by
    intro hc
    rcases hbad with hb | hb
    · have := hc.1
      rw [Option.isNone_iff_eq_none] at this
      rw [this] at hb
      cases hb
    · rw [hb] at hc
      exact absurd hc.2 (by simp)
  have hcall : lock_file_fn env w lk path = outcome.ret (-1,
      { w with handles := w.handles.set lk ⟨-1, h0.owner, h0.on_list, []⟩ }) := by
    unfold lock_file_fn
    rw [hg]
    simp only
    rw [if_neg (by omega), if_neg (by omega), if_neg hcond]
  have hget : ∀ j, j ≠ lk →
      (w.handles.set lk ⟨-1, h0.owner, h0.on_list, []⟩).get? j = w.handles.get? j := by
    intro j hj
    rw [List.get?_eq_getElem?, List.getElem?_set_ne (Ne.symm hj), ← List.get?_eq_getElem?]
  have hgetlk : (w.handles.set lk ⟨-1, h0.owner, h0.on_list, []⟩).get? lk
      = some ⟨-1, h0.owner, h0.on_list, []⟩ := by
    simp [List.getElem?_set, hlk]
  refine ⟨_, hcall, rfl, ?_, hget, rollback_lock_file_released _ lk _ hgetlk rfl, ?_⟩
  · simp only
    rw [hgetlk]
    rfl
  · intro env3 w3 q hw3 hq
    have := remove_lock_file_frame env3 _ w3 q hw3 (by
      intro i _ h2 hi _ hne
      by_cases hil : i = lk
      · subst hil
        simp only at hi
        rw [hgetlk] at hi
        cases hi
        exact absurd rfl hne
      · simp only at hi
        rw [hget i hil] at hi
        exact hq i h2 hil hi)
    exact this

theorem lock_file_fn_failure_releases_witness :
    ∃ w2, lock_file_fn lock_env_small lock_world_held_example 1 "real".toList
        = outcome.ret (-1, w2) ∧
      w2.fs = lock_world_held_example.fs ∧
      (w2.handles.get? 1).map lock_file.filename = some [] :=
  match lock_file_fn_failure_releases lock_env_small lock_world_held_example 1 "real".toList
    (by decide) (by decide) (by decide) (Or.inl (by decide)) with
  | ⟨w2, h1, h2, h3, _⟩ => ⟨w2, h1, h2, h3⟩

/-! ## Tracking lookup and fetch expansion -/

/-- C35: tracking lookup uses the substitution of fetch expansion. For a remote whose
only fetch rule `g` is a glob rule with source `k` and destination `d`, and a name `n`
without `^` that starts with `k`: `remote_find_tracking` on a refspec with the source `n`
returns 0 and sets the destination to `d` followed by the part of `n` after `k`; and
`get_expanded_map` on remote refs among which a ref is named `n` returns a map that has
an entry named `n`, every entry named `n` having a peer of exactly that name. -/
theorem remote_find_tracking_same_substitution (g rs : refspec) (k d n : cstr)
    (remote_refs : List ref) (r : ref)
    (hp : g.pattern = true) (hk : g.src = some k) (hd : g.dst = some d)
    (hn : k <+: n) (hc : '^' ∉ n) (hs : rs.src = some n)
    (hr : r ∈ remote_refs) (hrn : r.name = n) :
    remote_find_tracking [g] rs =
      outcome.ret (0, { rs with dst := some (d ++ n.drop k.length), force := g.force }) ∧
    ∃ out, get_expanded_map remote_refs g = outcome.ret out ∧
      (∃ e ∈ out, e.name = n) ∧
      ∀ e ∈ out, e.name = n → peer_name e.peer_ref = some (d ++ n.drop k.length) := by
  constructor
  · have hloop := remote_find_tracking_loop_first n [] [] g k d
      (fun q hq => by cases hq) (fun q hq => by cases hq) hk hd (by rw [if_pos hp]; exact hn)
    unfold remote_find_tracking
    rw [hs]
    simp only
    rw [List.nil_append] at hloop
    rw [hloop]
  · refine ⟨get_expanded_map_loop k d g.force remote_refs, ?_, ?_, ?_⟩
    · unfold get_expanded_map
      rw [hk, hd]
    · rw [get_expanded_map_loop_eq]
      refine ⟨_, List.mem_map_of_mem _ (List.mem_filter.mpr ⟨hr, ?_⟩), hrn⟩
      rw [hrn]
      exact decide_eq_true ⟨hn, hc⟩
    · rw [get_expanded_map_loop_eq]
      intro e he hen
      obtain ⟨q, _, hq⟩ := List.mem_map.mp he
      subst hq
      simp only at hen
      simp only [peer_name, hen]

theorem remote_find_tracking_same_substitution_witness :
    remote_find_tracking
      [{ force := true, pattern := true, src := some "refs/heads/".toList,
         dst := some "refs/remotes/origin/".toList }]
      { force := false, pattern := false, src := some "refs/heads/master".toList, dst := none }
    = outcome.ret (0,
      { force := true, pattern := false, src := some "refs/heads/master".toList,
        dst := some ("refs/remotes/origin/".toList
          ++ "refs/heads/master".toList.drop "refs/heads/".toList.length) }) :=
  (remote_find_tracking_same_substitution
    { force := true, pattern := true, src := some "refs/heads/".toList,
      dst := some "refs/remotes/origin/".toList }
    { force := false, pattern := false, src := some "refs/heads/master".toList, dst := none }
    "refs/heads/".toList "refs/remotes/origin/".toList "refs/heads/master".toList
    [{ name := "refs/heads/master".toList, old_sha1 := [], new_sha1 := [], force := 0,
       peer_ref := none }]
    { name := "refs/heads/master".toList, old_sha1 := [], new_sha1 := [], force := 0,
      peer_ref := none }
    rfl rfl rfl (by decide) (by decide) rfl (by decide) rfl).1

/-! ## ref_matches_abbrev and get_local_ref -/

theorem drop_five_eq_iff (name full : cstr) :
    ("refs/".toList <+: full ∧ name = full.drop 5) ↔ full = "refs/".toList ++ name := by
  constructor
  · rintro ⟨⟨t, ht⟩, hn⟩
    subst ht
    rw [hn]
    rfl
  · intro h
    subst h
    exact ⟨List.prefix_append _ _, rfl⟩

theorem drop_eleven_eq_iff (name full : cstr) :
    ("refs/".toList <+: full ∧ "heads/".toList <+: full.drop 5 ∧ full.drop 11 = name) ↔
      full = "refs/heads/".toList ++ name := by
  constructor
  · rintro ⟨⟨t, ht⟩, ⟨u, hu⟩, hn⟩
    subst ht
    have ht2 : t = "heads/".toList ++ u := hu.symm
    subst ht2
    rw [← hn]
    rfl
  · intro h
    subst h
    exact ⟨⟨"heads/".toList ++ name, rfl⟩, ⟨name, rfl⟩, rfl⟩

/-- C38: for a name other than `HEAD`, `ref_matches_abbrev name full` holds exactly when
`full` is the name of the ref `get_local_ref` builds for `name`, which is `name` itself
when it starts with `refs/`, `refs/` followed by `name` when it starts with `heads/`,
`tags/` or `remotes/`, and `refs/heads/` followed by `name` otherwise. The name `HEAD`
matches the full name `HEAD` only. -/
theorem ref_matches_abbrev_iff_local (name full : cstr) :
    (name ≠ "HEAD".toList →
      (ref_matches_abbrev name full = true ↔
        peer_name (get_local_ref (some name)) = some full)) ∧
    peer_name (get_local_ref (some name)) = some
      (if "refs/".toList <+: name then name
       else if "heads/".toList <+: name ∨ "tags/".toList <+: name ∨
          "remotes/".toList <+: name then "refs/".toList ++ name
       else "refs/heads/".toList ++ name) ∧
    (ref_matches_abbrev "HEAD".toList full = true ↔ full = "HEAD".toList) := by
  have hcanon : peer_name (get_local_ref (some name)) = some
      (if "refs/".toList <+: name then name
       else if "heads/".toList <+: name ∨ "tags/".toList <+: name ∨
          "remotes/".toList <+: name then "refs/".toList ++ name
       else "refs/heads/".toList ++ name) := by
    unfold get_local_ref
    simp only [prefixcmp_eq_zero_iff]
    by_cases h1 : "refs/".toList <+: name
    · simp only [h1, if_true, peer_name]
    · simp only [h1, if_false]
      by_cases h2 : "heads/".toList <+: name ∨ "tags/".toList <+: name ∨
          "remotes/".toList <+: name
      · rw [if_pos h2, if_pos h2]
        rfl
      · rw [if_neg h2, if_neg h2]
        rfl
  refine ⟨?_, hcanon, ?_⟩
  · intro hhead
    rw [hcanon]
    simp only [Option.some.injEq]
    unfold ref_matches_abbrev
    simp only [prefixcmp_eq_zero_iff, ne_eq]
    by_cases h1 : "refs/".toList <+: name
    · simp only [h1, true_or, if_true, decide_eq_true_eq]
    · simp only [h1, hhead, or_self, if_false]
      by_cases h2 : "heads/".toList <+: name ∨ "tags/".toList <+: name ∨
          "remotes/".toList <+: name
      · by_cases h3 : "refs/".toList <+: full
        · rw [if_neg (not_not.mpr h3), if_pos h2, if_pos h2]
          simp only [decide_eq_true_eq]
          constructor
          · intro h
            exact ((drop_five_eq_iff name full).mp ⟨h3, h⟩).symm
          · intro h
            exact ((drop_five_eq_iff name full).mpr h.symm).2
        · rw [if_pos h3, if_pos h2]
          constructor
          · intro h
            cases h
          · intro h
            exact absurd ((drop_five_eq_iff name full).mpr h.symm).1 h3
      · by_cases h3 : "refs/".toList <+: full
        · rw [if_neg (not_not.mpr h3), if_neg h2, if_neg h2]
          by_cases h4 : "heads/".toList <+: full.drop 5
          · rw [if_neg (not_not.mpr h4)]
            simp only [decide_eq_true_eq]
            constructor
            · intro h
              exact ((drop_eleven_eq_iff name full).mp ⟨h3, h4, h⟩).symm
            · intro h
              exact ((drop_eleven_eq_iff name full).mpr h.symm).2.2
          · rw [if_pos h4]
            constructor
            · intro h
              cases h
            · intro h
              exact absurd ((drop_eleven_eq_iff name full).mpr h.symm).2.1 h4
        · rw [if_pos h3, if_neg h2]
          constructor
          · intro h
            cases h
          · intro h
            exact absurd ((drop_eleven_eq_iff name full).mpr h.symm).1 h3
  · unfold ref_matches_abbrev
    simp only [or_true, if_true, decide_eq_true_eq]
    constructor <;> intro h <;> exact h.symm

/-! ## parse_ref_spec: the glob boundary -/

theorem has_plus_append_star (P t : cstr) :
    has_plus (P ++ '*' :: t) = has_plus P ∧
    after_plus (P ++ '*' :: t) = after_plus P ++ '*' :: t := by
  cases P with
  | nil => simp [has_plus, after_plus]
  | cons x xs =>
    by_cases hx : x = '+'
    · subst hx
      simp [has_plus, after_plus]
    · simp [has_plus, after_plus, hx]

/-- The rule parsed from the text `A*:Q*` after the optional `+`. -/
theorem parse_ref_spec_body_glob_both (f : Bool) (A Q : cstr)
    (hA1 : '*' ∉ A) (hA2 : ':' ∉ A) (hQ1 : '*' ∉ Q) :
    parse_ref_spec_body f (A ++ '*' :: ':' :: (Q ++ ['*'])) =
      { force := f, pattern := true, src := some A, dst := some Q } := by
  have hstar : strchr (A ++ '*' :: ':' :: (Q ++ ['*'])) '*' = some A.length := by
    rw [strchr_append_of_not_mem A _ '*' hA1]
    simp [strchr]
  have hcolon : strchr (A ++ '*' :: ':' :: (Q ++ ['*'])) ':' = some (A.length + 1) := by
    rw [strchr_append_of_not_mem A _ ':' hA2]
    simp [strchr]
  have hdrop : (A ++ '*' :: ':' :: (Q ++ ['*'])).drop (A.length + 1 + 1) = Q ++ ['*'] := by
    rw [List.drop_append_eq_append_drop]
    have h1 : List.drop (A.length + 1 + 1) A = [] := List.drop_eq_nil_of_le (by omega)
    rw [h1]
    have h2 : A.length + 1 + 1 - A.length = 2 := by omega
    rw [h2]
    rfl
  have hq : strchr (Q ++ ['*']) '*' = some Q.length := by
    rw [strchr_append_of_not_mem Q _ '*' hQ1]
    simp [strchr]
  rw [parse_ref_spec_body_colon f _ (A.length + 1) hcolon (by rw [hdrop]; simp)]
  rw [hdrop, hq, hstar]
  simp only
  rw [if_neg (by omega)]
  simp

/-- The rule parsed from the text `A*` after the optional `+`. -/
theorem parse_ref_spec_body_glob_src (f : Bool) (A : cstr)
    (hA1 : '*' ∉ A) (hA2 : ':' ∉ A) :
    parse_ref_spec_body f (A ++ ['*']) =
      { force := f, pattern := true, src := some A, dst := none } := by
  have hstar : strchr (A ++ ['*']) '*' = some A.length := by
    rw [strchr_append_of_not_mem A _ '*' hA1]
    simp [strchr]
  have hcolon : strchr (A ++ ['*']) ':' = none := by
    rw [strchr_eq_none_iff]
    intro h
    rcases List.mem_append.mp h with h | h
    · exact hA2 h
    · simp at h
  rw [parse_ref_spec_body_no_colon f _ hcolon, hstar]
  simp

/-- C34 fails as stated: for `P` = `+a`, which contains neither `*` nor `:`, the rule
parsed from `P*:Q*` has the source `a`, not `P`, and likewise the rule parsed from
`P*`. -/
theorem parse_ref_spec_one_plus_glob :
    (parse_ref_spec ["+a".toList ++ "*:".toList ++ "b".toList ++ "*".toList]).map refspec.src
      = [some "a".toList] ∧
    (parse_ref_spec ["+a".toList ++ "*".toList]).map refspec.src = [some "a".toList] := by
  decide

/-- C34, amended: for every `P` and `Q` containing neither `*` nor `:`, `parse_ref_spec`
of `P*:Q*` gives a pattern rule whose source is `P` without a leading `+` and whose
destination is `Q`, and `parse_ref_spec` of `P*` gives a pattern rule with that source
and no destination; the source is `P` itself when `P` does not begin with `+`. (That `Q`
has no `:` is not needed.) -/
theorem parse_ref_spec_glob_boundary (P Q : cstr)
    (hP1 : '*' ∉ P) (hP2 : ':' ∉ P) (hQ1 : '*' ∉ Q) :
    parse_ref_spec [P ++ "*:".toList ++ Q ++ "*".toList] =
      [{ force := has_plus P, pattern := true, src := some (after_plus P), dst := some Q }] ∧
    parse_ref_spec [P ++ "*".toList] =
      [{ force := has_plus P, pattern := true, src := some (after_plus P), dst := none }] ∧
    (has_plus P = false → after_plus P = P) := by
  have e1 : P ++ "*:".toList ++ Q ++ "*".toList = P ++ '*' :: ':' :: (Q ++ ['*']) := by
    simp
  have e2 : P ++ "*".toList = P ++ '*' :: [] := rfl
  refine ⟨?_, ?_, after_plus_of_not P⟩
  · rw [e1]
    unfold parse_ref_spec
    simp only [List.map_cons, List.map_nil, parse_ref_spec_one_eq_body]
    rw [(has_plus_append_star P _).1, (has_plus_append_star P _).2,
      parse_ref_spec_body_glob_both _ _ Q (not_mem_after_plus P '*' hP1)
        (not_mem_after_plus P ':' hP2) hQ1]
  · rw [e2]
    unfold parse_ref_spec
    simp only [List.map_cons, List.map_nil, parse_ref_spec_one_eq_body]
    rw [(has_plus_append_star P _).1, (has_plus_append_star P _).2,
      parse_ref_spec_body_glob_src _ _ (not_mem_after_plus P '*' hP1)
        (not_mem_after_plus P ':' hP2)]

theorem parse_ref_spec_glob_boundary_witness :
    parse_ref_spec ["refs/heads/".toList ++ "*:".toList ++ "refs/remotes/origin/".toList
        ++ "*".toList] =
      [{ force := has_plus "refs/heads/".toList, pattern := true,
         src := some (after_plus "refs/heads/".toList),
         dst := some "refs/remotes/origin/".toList }] :=
  (parse_ref_spec_glob_boundary "refs/heads/".toList "refs/remotes/origin/".toList
    (by decide) (by decide) (by decide)).1

/-! ## ref_remove_duplicates: the map it leaves -/

theorem remove_later_duplicates_ret (node_name : Nat → cstr) (name pn : cstr) (l kept : List ref)
    (h : remove_later_duplicates node_name name pn l = outcome.ret kept) :
    kept = l.filter (fun q => !has_peer_named node_name pn q) := by
  by_cases hc : ∃ q ∈ l, has_peer_named node_name pn q = true ∧ q.name ≠ name
  · obtain ⟨msg, hm⟩ := remove_later_duplicates_dies node_name name pn l hc
    rw [hm] at h
    cases h
  · have hok := remove_later_duplicates_ok node_name name pn l (by
      intro q hq hp
      by_contra hne
      exact hc ⟨q, hq, hp, hne⟩)
    rw [hok] at h
    simp only [outcome.ret.injEq] at h
    exact h.symm

theorem first_occurrences_congr (node_name : Nat → cstr) (l : List ref) :
    ∀ s1 s2 : List cstr, (∀ x, x ∈ s1 ↔ x ∈ s2) →
      first_occurrences node_name s1 l = first_occurrences node_name s2 l := by
  induction l with
  | nil => intro s1 s2 _; rfl
  | cons r rest ih =>
    intro s1 s2 h
    simp only [first_occurrences]
    cases r.peer_ref with
    | none =>
      simp only
      rw [ih s1 s2 h]
    | some p =>
      simp only
      by_cases hm : peer_ref_name node_name p ∈ s1
      · rw [if_pos hm, if_pos ((h _).mp hm)]
        exact ih s1 s2 h
      · rw [if_neg hm, if_neg (fun x => hm ((h _).mpr x))]
        rw [ih (peer_ref_name node_name p :: s1) (peer_ref_name node_name p :: s2)]
        intro x
        simp only [List.mem_cons, h x]

theorem first_occurrences_filter (node_name : Nat → cstr) (a : cstr) (l : List ref) :
    ∀ seen : List cstr, first_occurrences node_name (a :: seen) l =
      first_occurrences node_name seen (l.filter (fun q => !has_peer_named node_name a q)) := by
  induction l with
  | nil => intro seen; rfl
  | cons r rest ih =>
    intro seen
    cases hr : r.peer_ref with
    | none =>
      have hk : List.filter (fun q => !has_peer_named node_name a q) (r :: rest)
          = r :: List.filter (fun q => !has_peer_named node_name a q) rest := by
        simp [has_peer_named, hr]
      rw [hk]
      simp only [first_occurrences, hr]
      rw [ih seen]
    | some p =>
      by_cases hpa : peer_ref_name node_name p = a
      · have hk : List.filter (fun q => !has_peer_named node_name a q) (r :: rest)
            = List.filter (fun q => !has_peer_named node_name a q) rest := by
          simp [has_peer_named, hr, hpa]
        rw [hk]
        simp only [first_occurrences, hr]
        rw [if_pos (by rw [hpa]; exact List.mem_cons_self _ _)]
        exact ih seen
      · have hk : List.filter (fun q => !has_peer_named node_name a q) (r :: rest)
            = r :: List.filter (fun q => !has_peer_named node_name a q) rest := by
          simp [has_peer_named, hr, hpa]
        rw [hk]
        simp only [first_occurrences, hr]
        by_cases hm : peer_ref_name node_name p ∈ seen
        · rw [if_pos (List.mem_cons_of_mem _ hm), if_pos hm]
          exact ih seen
        · rw [if_neg (by
            intro hx
            rcases List.mem_cons.mp hx with hx | hx
            · exact hpa hx
            · exact hm hx), if_neg hm]
          rw [first_occurrences_congr node_name rest
            (peer_ref_name node_name p :: a :: seen) (a :: peer_ref_name node_name p :: seen)
            (by intro x; simp only [List.mem_cons]; tauto)]
          rw [ih (peer_ref_name node_name p :: seen)]

theorem ref_remove_duplicates_eq_first (node_name : Nat → cstr) :
    ∀ (n : Nat) (l out : List ref), l.length ≤ n →
      ref_remove_duplicates node_name l = outcome.ret out →
      out = first_occurrences node_name [] l := by
  intro n
  induction n with
  | zero =>
    intro l out hl h
    have : l = [] := List.length_eq_zero.mp (Nat.le_zero.mp hl)
    subst this
    rw [ref_remove_duplicates] at h
    simp only [outcome.ret.injEq] at h
    rw [← h]
    rfl
  | succ n ih =>
    intro l out hl h
    cases l with
    | nil =>
      rw [ref_remove_duplicates] at h
      simp only [outcome.ret.injEq] at h
      rw [← h]
      rfl
    | cons r rest =>
      have hrl : rest.length ≤ n := by
        simp only [List.length_cons] at hl
        omega
      have hcons : ∀ (o : outcome (List ref)) (l2 : List ref),
          (∀ out2, o = outcome.ret out2 → out2 = l2) →
          outcome_cons r o = outcome.ret out → out = r :: l2 := by
        intro o l2 ho hc
        cases o with
        | ret out2 =>
          simp only [outcome_cons, outcome.ret.injEq] at hc
          rw [← hc, ho out2 rfl]
        | died m => simp [outcome_cons] at hc
        | fault => simp [outcome_cons] at hc
      cases hp : r.peer_ref with
      | none =>
        rw [ref_remove_duplicates_cons_none node_name r rest hp] at h
        simp only [first_occurrences, hp]
        exact hcons _ _ (fun out2 ho => ih rest out2 hrl ho) h
      | some p =>
        rw [ref_remove_duplicates_cons_some node_name r rest p hp] at h
        simp only [first_occurrences, hp, List.not_mem_nil, if_false]
        cases hk : remove_later_duplicates node_name r.name (peer_ref_name node_name p) rest with
        | ret kept =>
          rw [hk] at h
          simp only at h
          have hkept := remove_later_duplicates_ret node_name _ _ rest kept hk
          rw [first_occurrences_filter, ← hkept]
          apply hcons _ _ _ h
          intro out2 ho
          apply ih kept out2 _ ho
          rw [hkept]
          exact Nat.le_trans (List.length_filter_le _ _) hrl
        | died m => rw [hk] at h; cases h
        | fault => rw [hk] at h; cases h

theorem first_occurrences_distinct (node_name : Nat → cstr) (l : List ref) :
    ∀ seen : List cstr,
      distinct_peer_names node_name (first_occurrences node_name seen l) ∧
      ∀ e ∈ first_occurrences node_name seen l, ∀ p, e.peer_ref = some p →
        peer_ref_name node_name p ∉ seen := by
  unfold distinct_peer_names
  induction l with
  | nil =>
    intro seen
    exact ⟨List.Pairwise.nil, fun e he => by cases he⟩
  | cons r rest ih =>
    intro seen
    cases hr : r.peer_ref with
    | none =>
      simp only [first_occurrences, hr]
      obtain ⟨h1, h2⟩ := ih seen
      refine ⟨List.pairwise_cons.mpr ⟨?_, h1⟩, ?_⟩
      · intro b _ pa pb hpa
        rw [hr] at hpa
        cases hpa
      · intro e he p hp
        rcases List.mem_cons.mp he with he | he
        · rw [he, hr] at hp
          cases hp
        · exact h2 e he p hp
    | some p =>
      simp only [first_occurrences, hr]
      by_cases hm : peer_ref_name node_name p ∈ seen
      · rw [if_pos hm]
        exact ih seen
      · rw [if_neg hm]
        obtain ⟨h1, h2⟩ := ih (peer_ref_name node_name p :: seen)
        refine ⟨List.pairwise_cons.mpr ⟨?_, h1⟩, ?_⟩
        · intro b hb pa pb hpa hpb heq
          rw [hr] at hpa
          cases hpa
          exact h2 b hb pb hpb (by rw [← heq]; exact List.mem_cons_self _ _)
        · intro e he q hq
          rcases List.mem_cons.mp he with he | he
          · rw [he, hr] at hq
            cases hq
            exact hm
          · exact fun hx => h2 e he q hq (List.mem_cons_of_mem _ hx)

theorem first_occurrences_sublist (node_name : Nat → cstr) (l : List ref) :
    ∀ seen : List cstr,
      List.Sublist (first_occurrences node_name seen l) l ∧
      (first_occurrences node_name seen l).filter (fun q => q.peer_ref.isNone)
        = l.filter (fun q => q.peer_ref.isNone) := by
  induction l with
  | nil =>
    intro seen
    exact ⟨List.Sublist.refl _, rfl⟩
  | cons r rest ih =>
    intro seen
    cases hr : r.peer_ref with
    | none =>
      simp only [first_occurrences, hr]
      obtain ⟨h1, h2⟩ := ih seen
      refine ⟨List.Sublist.cons₂ _ h1, ?_⟩
      simp only [List.filter_cons, hr, Option.isNone_none, if_true, h2]
    | some p =>
      simp only [first_occurrences, hr]
      have hf : List.filter (fun q => q.peer_ref.isNone) (r :: rest)
          = List.filter (fun q => q.peer_ref.isNone) rest := by
        simp [List.filter_cons, hr]
      by_cases hm : peer_ref_name node_name p ∈ seen
      · rw [if_pos hm]
        obtain ⟨h1, h2⟩ := ih seen
        exact ⟨List.Sublist.cons _ h1, by rw [hf, h2]⟩
      · rw [if_neg hm]
        obtain ⟨h1, h2⟩ := ih (peer_ref_name node_name p :: seen)
        refine ⟨List.Sublist.cons₂ _ h1, ?_⟩
        rw [hf, ← h2]
        simp [List.filter_cons, hr]

/-- A map in which no two peers share a name is left as it is. -/
theorem ref_remove_duplicates_fixed (node_name : Nat → cstr) (l : List ref)
    (h : distinct_peer_names node_name l) :
    ref_remove_duplicates node_name l = outcome.ret l := by
  unfold distinct_peer_names at h
  induction l with
  | nil => rw [ref_remove_duplicates]
  | cons r rest ih =>
    obtain ⟨hhead, htail⟩ := List.pairwise_cons.mp h
    cases hr : r.peer_ref with
    | none =>
      rw [ref_remove_duplicates_cons_none node_name r rest hr, ih htail]
      rfl
    | some p =>
      have hno : ∀ q ∈ rest, has_peer_named node_name (peer_ref_name node_name p) q = false := by
        intro q hq
        unfold has_peer_named
        cases hqp : q.peer_ref with
        | none => rfl
        | some pq =>
          simp only [decide_eq_false_iff_not]
          exact fun e => hhead q hq p pq hr hqp e.symm
      have hok := remove_later_duplicates_ok node_name r.name (peer_ref_name node_name p) rest
        (by
          intro q hq hp
          rw [hno q hq] at hp
          cases hp)
      have hfil : rest.filter (fun q => !has_peer_named node_name (peer_ref_name node_name p) q)
          = rest := by
        apply List.filter_eq_self.mpr
        intro q hq
        rw [hno q hq]
        rfl
      rw [ref_remove_duplicates_cons_some node_name r rest p hr, hok, hfil]
      simp only
      rw [ih htail]
      rfl

/-- C33: when `ref_remove_duplicates` returns, the map it leaves is the input map
without every later entry that repeats the peer name of an earlier entry: the first
occurrence is kept, the entries are in their order, and the entries without a peer are
all there. No two of its entries that have a peer share a peer name, and running
`ref_remove_duplicates` on it returns it unchanged. -/
theorem ref_remove_duplicates_first_kept (node_name : Nat → cstr) (l out : List ref)
    (h : ref_remove_duplicates node_name l = outcome.ret out) :
    out = first_occurrences node_name [] l ∧
    distinct_peer_names node_name out ∧
    List.Sublist out l ∧
    out.filter (fun q => q.peer_ref.isNone) = l.filter (fun q => q.peer_ref.isNone) ∧
    ref_remove_duplicates node_name out = outcome.ret out := by
  have he := ref_remove_duplicates_eq_first node_name l.length l out (Nat.le_refl _) h
  have hd := (first_occurrences_distinct node_name l []).1
  have hs := first_occurrences_sublist node_name l []
  rw [← he] at hd hs
  exact ⟨he, hd, hs.1, hs.2, ref_remove_duplicates_fixed node_name out hd⟩

theorem ref_remove_duplicates_first_kept_witness :
    ref_remove_duplicates (fun _ => [])
      [{ name := "refs/heads/a".toList, old_sha1 := [1], new_sha1 := [], force := 0,
         peer_ref := some (peer.obj "refs/remotes/origin/a".toList null_sha1 null_sha1 0) },
       { name := "refs/tags/v1".toList, old_sha1 := [3], new_sha1 := [], force := 0,
         peer_ref := none },
       { name := "refs/heads/a".toList, old_sha1 := [1], new_sha1 := [], force := 0,
         peer_ref := some (peer.obj "refs/remotes/origin/a".toList null_sha1 null_sha1 0) }]
    = outcome.ret
      [{ name := "refs/heads/a".toList, old_sha1 := [1], new_sha1 := [], force := 0,
         peer_ref := some (peer.obj "refs/remotes/origin/a".toList null_sha1 null_sha1 0) },
       { name := "refs/tags/v1".toList, old_sha1 := [3], new_sha1 := [], force := 0,
         peer_ref := none }] ∧
    ref_remove_duplicates (fun _ => [])
      [{ name := "refs/heads/a".toList, old_sha1 := [1], new_sha1 := [], force := 0,
         peer_ref := some (peer.obj "refs/remotes/origin/a".toList null_sha1 null_sha1 0) },
       { name := "refs/tags/v1".toList, old_sha1 := [3], new_sha1 := [], force := 0,
         peer_ref := none }]
    = outcome.ret
      [{ name := "refs/heads/a".toList, old_sha1 := [1], new_sha1 := [], force := 0,
         peer_ref := some (peer.obj "refs/remotes/origin/a".toList null_sha1 null_sha1 0) },
       { name := "refs/tags/v1".toList, old_sha1 := [3], new_sha1 := [], force := 0,
         peer_ref := none }] := by
  have hcall : ref_remove_duplicates (fun _ => [])
      [{ name := "refs/heads/a".toList, old_sha1 := [1], new_sha1 := [], force := 0,
         peer_ref := some (peer.obj "refs/remotes/origin/a".toList null_sha1 null_sha1 0) },
       { name := "refs/tags/v1".toList, old_sha1 := [3], new_sha1 := [], force := 0,
         peer_ref := none },
       { name := "refs/heads/a".toList, old_sha1 := [1], new_sha1 := [], force := 0,
         peer_ref := some (peer.obj "refs/remotes/origin/a".toList null_sha1 null_sha1 0) }]
    = outcome.ret
      [{ name := "refs/heads/a".toList, old_sha1 := [1], new_sha1 := [], force := 0,
         peer_ref := some (peer.obj "refs/remotes/origin/a".toList null_sha1 null_sha1 0) },
       { name := "refs/tags/v1".toList, old_sha1 := [3], new_sha1 := [], force := 0,
         peer_ref := none }] := by
    simp [ref_remove_duplicates, remove_later_duplicates, outcome_cons, peer_ref_name]
  exact ⟨hcall, (ref_remove_duplicates_first_kept (fun _ => []) _ _ hcall).2.2.2.2⟩

/-! ## match_refs: the second pass with refspecs -/

theorem check_pattern_match_none (rs : List refspec) (n : cstr)
    (hsrc : ∀ q ∈ rs, q.src.isSome = true) (h : ∀ q ∈ rs, ¬ glob_rule_matches q n) :
    check_pattern_match rs n = outcome.ret none := by
  induction rs with
  | nil => rfl
  | cons g rest ih =>
    have ihr := ih (fun q hq => hsrc q (List.mem_cons_of_mem _ hq))
      (fun q hq => h q (List.mem_cons_of_mem _ hq))
    have hg := h g (List.mem_cons_self _ _)
    have hgs := hsrc g (List.mem_cons_self _ _)
    unfold check_pattern_match
    by_cases hp : g.pattern = true
    · rw [if_pos hp]
      cases hk : g.src with
      | none => rw [hk] at hgs; cases hgs
      | some k =>
        simp only
        rw [if_neg]
        · exact ihr
        · intro hz
          exact hg ⟨hp, k, hk, (prefixcmp_eq_zero_iff n k).mp hz⟩
    · rw [if_neg hp]
      exact ihr

theorem check_pattern_match_first (pre post : List refspec) (g : refspec) (k n : cstr)
    (hsrc : ∀ q ∈ pre, q.src.isSome = true) (hpre : ∀ q ∈ pre, ¬ glob_rule_matches q n)
    (hp : g.pattern = true) (hk : g.src = some k) (hn : k <+: n) :
    check_pattern_match (pre ++ g :: post) n = outcome.ret (some g) := by
  induction pre with
  | nil =>
    simp only [List.nil_append, check_pattern_match, hp, if_true, hk]
    rw [if_pos ((prefixcmp_eq_zero_iff n k).mpr hn)]
  | cons q rest ih =>
    have ihr := ih (fun x hx => hsrc x (List.mem_cons_of_mem _ hx))
      (fun x hx => hpre x (List.mem_cons_of_mem _ hx))
    have hq := hpre q (List.mem_cons_self _ _)
    have hqs := hsrc q (List.mem_cons_self _ _)
    rw [List.cons_append]
    unfold check_pattern_match
    by_cases hqp : q.pattern = true
    · rw [if_pos hqp]
      cases hqk : q.src with
      | none => rw [hqk] at hqs; cases hqs
      | some kq =>
        simp only
        rw [if_neg]
        · exact ihr
        · intro hz
          exact hq ⟨hqp, kq, hqk, (prefixcmp_eq_zero_iff n kq).mp hz⟩
    · rw [if_neg hqp]
      exact ihr

/-- C31: one round of the second pass of `match_refs` with at least one refspec, for a
source ref `s` at position `i` that the pass does not skip at once. When no glob rule has
a source prefix that is a prefix of the name of `s`, the remote list is left as it is.
Otherwise, with `g` the first such rule in rule order and `k` its source prefix, the
destination name is the destination prefix of `g` (`k` when `g` has no destination)
followed by the name of `s` after `k`: the remote ref found under that name, when it has
no peer, is bound to `s` with the force flag of `g`; when none is found, a ref of that
name is appended, bound to `s` with the force flag of `g`; a ref found with a peer is left
as it is. -/
theorem match_refs_step_first_glob (rs : List refspec) (all : Int) (dst_null : Bool)
    (i : Nat) (s : ref) (cur : List ref)
    (hrs : rs ≠ []) (hsrc : ∀ q ∈ rs, q.src.isSome = true) (hs : s.peer_ref = none) :
    ((∀ q ∈ rs, ¬ glob_rule_matches q s.name) →
      match_refs_step rs all dst_null i s cur = outcome.ret cur) ∧
    ∀ (pre post : List refspec) (g : refspec) (k : cstr),
      rs = pre ++ g :: post → (∀ q ∈ pre, ¬ glob_rule_matches q s.name) →
      g.pattern = true → g.src = some k → k <+: s.name →
      (∀ j d, find_ref_by_name (dst_seen dst_null cur)
          (g.dst.getD k ++ s.name.drop k.length) = some (j, d) → d.peer_ref = none →
        match_refs_step rs all dst_null i s cur = outcome.ret
          (cur.set j { d with peer_ref := some (peer.node i), force := bit g.force })) ∧
      (find_ref_by_name (dst_seen dst_null cur)
          (g.dst.getD k ++ s.name.drop k.length) = none →
        match_refs_step rs all dst_null i s cur = outcome.ret
          (cur ++ [{ name := g.dst.getD k ++ s.name.drop k.length, old_sha1 := null_sha1,
                     new_sha1 := s.new_sha1, force := bit g.force,
                     peer_ref := some (peer.node i) }])) ∧
      (∀ j d, find_ref_by_name (dst_seen dst_null cur)
          (g.dst.getD k ++ s.name.drop k.length) = some (j, d) → d.peer_ref.isSome = true →
        match_refs_step rs all dst_null i s cur = outcome.ret cur) := by
  have hlen : rs.length ≠ 0 := fun h => hrs (List.length_eq_zero.mp h)
  constructor
  · intro hno
    unfold match_refs_step pick_pattern
    rw [hs]
    simp only [Option.isSome_none, Bool.false_eq_true, if_false]
    rw [if_pos hlen, check_pattern_match_none rs s.name hsrc hno]
  · intro pre post g k hrs2 hpre hp hk hn
    have hcp : check_pattern_match rs s.name = outcome.ret (some g) := by
      rw [hrs2]
      exact check_pattern_match_first pre post g k s.name
        (fun q hq => hsrc q (by rw [hrs2]; exact List.mem_append_left _ hq)) hpre hp hk hn
    have hname : remainder_dst_name (some g) s
        = outcome.ret (g.dst.getD k ++ s.name.drop k.length) := by
      unfold remainder_dst_name
      simp only [hk]
      cases g.dst <;> rfl
    have hstep : match_refs_step rs all dst_null i s cur =
        match find_ref_by_name (dst_seen dst_null cur)
            (g.dst.getD k ++ s.name.drop k.length) with
        | some (j, d) =>
          if d.peer_ref.isSome then outcome.ret cur
          else
            outcome.ret (cur.set j
              { d with peer_ref := some (peer.node i), force := bit g.force })
        | none =>
          outcome.ret (cur ++
            [{ alloc_ref (g.dst.getD k ++ s.name.drop k.length) with
               new_sha1 := s.new_sha1, peer_ref := some (peer.node i),
               force := bit g.force }]) := by
      unfold match_refs_step pick_pattern
      rw [hs]
      simp only [Option.isSome_none, Bool.false_eq_true, if_false]
      rw [if_pos hlen, hcp]
      simp only [hname, remainder_force]
      cases find_ref_by_name (dst_seen dst_null cur)
          (g.dst.getD k ++ s.name.drop k.length) with
      | none =>
        simp only
        rw [if_neg (fun hx => hlen hx.1)]
      | some jd => rfl
    refine ⟨?_, ?_, ?_⟩
    · intro j d hf hd
      rw [hstep, hf]
      simp only [hd, Option.isSome_none, Bool.false_eq_true, if_false]
    · intro hf
      rw [hstep, hf]
      rfl
    · intro j d hf hd
      rw [hstep, hf]
      simp only [hd, if_true]

theorem match_refs_step_first_glob_witness :
    match_refs_step
      [{ force := false, pattern := true, src := some "refs/tags/".toList, dst := none },
       { force := true, pattern := true, src := some "refs/heads/".toList,
         dst := some "refs/remotes/o/".toList }]
      0 false 0
      { name := "refs/heads/m".toList, old_sha1 := [], new_sha1 := [7], force := 0,
        peer_ref := none }
      [{ name := "refs/heads/m".toList, old_sha1 := [1], new_sha1 := [], force := 0,
         peer_ref := none }] =
    outcome.ret
      ([{ name := "refs/heads/m".toList, old_sha1 := [1], new_sha1 := [], force := 0,
          peer_ref := none }] ++
       [{ name := (some "refs/remotes/o/".toList).getD "refs/heads/".toList
            ++ "refs/heads/m".toList.drop "refs/heads/".toList.length,
          old_sha1 := null_sha1, new_sha1 := [7], force := bit true,
          peer_ref := some (peer.node 0) }]) :=
  ((match_refs_step_first_glob
      [{ force := false, pattern := true, src := some "refs/tags/".toList, dst := none },
       { force := true, pattern := true, src := some "refs/heads/".toList,
         dst := some "refs/remotes/o/".toList }]
      0 false 0
      { name := "refs/heads/m".toList, old_sha1 := [], new_sha1 := [7], force := 0,
        peer_ref := none }
      [{ name := "refs/heads/m".toList, old_sha1 := [1], new_sha1 := [], force := 0,
         peer_ref := none }]
      (by decide) (by decide) rfl).2
    [{ force := false, pattern := true, src := some "refs/tags/".toList, dst := none }] []
    { force := true, pattern := true, src := some "refs/heads/".toList,
      dst := some "refs/remotes/o/".toList }
    "refs/heads/".toList rfl
    (by
      intro q hq hm
      simp only [List.mem_singleton] at hq
      subst hq
      obtain ⟨_, k, hk, hn⟩ := hm
      simp only [Option.some.injEq] at hk
      subst hk
      exact absurd hn (by decide))
    rfl rfl (by decide)).2.1 (by decide)

/-- C32 does not hold of the code on an empty remote list. With the local refs
`refs/a/m` and `refs/b/m`, the rules `refs/a/*:refs/x/*` and `refs/b/*:refs/x/*` and no
remote ref, the second pass appends `refs/x/m` for the first local ref and binds it; the
destination computed for the second local ref, `refs/x/m` again, then has a peer, yet a
second ref named `refs/x/m` is appended and bound: the parameter `dst` is `NULL`
throughout, so `find_ref_by_name` does not see what was linked in through `dst_tail`. -/
theorem match_refs_glob_double_binding_empty_remote :
    match_refs (fun _ => none)
      [{ name := "refs/a/m".toList, old_sha1 := [], new_sha1 := [1], force := 0,
         peer_ref := none },
       { name := "refs/b/m".toList, old_sha1 := [], new_sha1 := [2], force := 0,
         peer_ref := none }]
      []
      ["refs/a/*:refs/x/*".toList, "refs/b/*:refs/x/*".toList] 0 =
    outcome.ret (0,
      [{ name := "refs/x/m".toList, old_sha1 := null_sha1, new_sha1 := [1], force := 0,
         peer_ref := some (peer.node 0) },
       { name := "refs/x/m".toList, old_sha1 := null_sha1, new_sha1 := [2], force := 0,
         peer_ref := some (peer.node 1) }]) := by decide

/-- On a remote list that was not empty at the call, a round of the second pass whose
destination name is found with a peer leaves the list as it is. -/
theorem match_refs_step_taken (rs : List refspec) (all : Int) (i : Nat) (s : ref)
    (cur out : List ref) (pat : Option refspec) (dst_name : cstr) (j : Nat) (d : ref)
    (hp : pick_pattern rs s = outcome.ret (some pat))
    (hn : remainder_dst_name pat s = outcome.ret dst_name)
    (hf : find_ref_by_name cur dst_name = some (j, d)) (hd : d.peer_ref.isSome = true)
    (h : match_refs_step rs all false i s cur = outcome.ret out) : out = cur := by
  unfold match_refs_step at h
  by_cases hs : s.peer_ref.isSome = true
  · rw [if_pos hs] at h
    simp only [outcome.ret.injEq] at h
    exact h.symm
  · rw [if_neg hs, hp] at h
    simp only [hn, dst_seen, Bool.false_eq_true, if_false, hf, hd, if_true,
      outcome.ret.injEq] at h
    exact h.symm

/-! ## builtin-tar-tree.c: pax extended header records -/

/-- C37 does not hold of the code. For the keyword `path` and a value of 990 bytes, as
`write_entry` passes for a path of that length, `strbuf_append_ext_header` computes the
number 1000, but the record it writes, `1000 path=`, the value and the newline, has 1001
bytes: the number has four digits where the loop counted three. Written into a new
buffer, which is grown to 1000 bytes, the newline goes past its end. For the keyword
`path` and the value `abc` the number, 12, is the length of the record. -/
theorem strbuf_append_ext_header_len_short :
    ext_header_len "path".toList.length (List.replicate 990 'a').length = 1000 ∧
    (ext_header_record "path".toList (List.replicate 990 'a')).length = 1001 ∧
    strbuf_append_ext_header ⟨[], 0, 0⟩ "path".toList (List.replicate 990 'a') = outcome.fault ∧
    ext_header_len "path".toList.length "abc".toList.length = 12 ∧
    ext_header_record "path".toList "abc".toList = "12 path=abc\n".toList := by
  have h1 : ext_header_len "path".toList.length (List.replicate 990 'a').length = 1000 := by
    rw [List.length_replicate]
    decide
  have h2 : (ext_header_record "path".toList (List.replicate 990 'a')).length = 1001 := by
    unfold ext_header_record
    rw [h1]
    simp only [List.length_append, List.length_replicate, List.length_cons, List.length_nil]
    decide
  have h3 : ∀ (sb : strbuf) (k v : List Char), strbuf_append_ext_header sb k v =
      if (ext_header_record k v).length >
          (if sb.len + ext_header_len k.length v.length > sb.alloc
           then sb.len + ext_header_len k.length v.length else sb.alloc)
      then outcome.fault
      else outcome.ret
        { buf := ext_header_record k v ++ sb.buf.drop (ext_header_record k v).length,
          len := sb.len + ext_header_len k.length v.length,
          alloc := if sb.len + ext_header_len k.length v.length > sb.alloc
            then sb.len + ext_header_len k.length v.length else sb.alloc } :=
    fun _ _ _ => rfl
  refine ⟨h1, h2, ?_, by decide, by decide⟩
  rw [h3, h2, h1, if_pos (by decide)]

/-! ## remote.c: handle_config -/

theorem pack_of_some (fld : remote → Option cstr) (n x : cstr) (reg : List (Option remote))
    (h : pack_of fld n reg = some x) :
    ∃ i r, reg.get? i = some (some r) ∧ r.name = n ∧ fld r = some x := by
  induction reg with
  | nil => simp [pack_of] at h
  | cons y rest ih =>
    cases y with
    | none =>
      simp only [pack_of] at h
      obtain ⟨i, r, hi, hr⟩ := ih h
      exact ⟨i + 1, r, by simpa using hi, hr⟩
    | some z =>
      simp only [pack_of] at h
      by_cases hz : z.name = n
      · rw [if_pos hz] at h
        exact ⟨0, z, rfl, hz, h⟩
      · rw [if_neg hz] at h
        obtain ⟨i, r, hi, hr⟩ := ih h
        exact ⟨i + 1, r, by simpa using hi, hr⟩

end GitRemote
